import Mathlib

/-!
# txtar: safe extraction, filtering, comparison

A shallow embedding of `internal/unpacker.go`, `internal/packer.go` and
`internal/diff.go`.

Conventions of the embedding:

* a Go `string` is a `List Char`, a Go `[]byte` is a `List UInt8`
  (a nil slice is the empty list);
* the `path/filepath`, `strings` and `os` functions the program calls are
  embedded for a Unix host (separator `/`, no volume names), `filepath.Clean`
  and `os.MkdirAll` after their Go source;
* the filesystem is a finite-support map from lexically clean path names to
  nodes (regular file with content, or directory); the parent of a path is
  `filepath.Dir` of it.  Symbolic links, permissions and transient I/O
  failures are outside the model: a system call fails only for the
  structural reasons listed at its definition;
* a function with side effects takes the filesystem and returns the new
  filesystem together with its error (if any); what the program prints is
  not modelled;
* a Go `map` is an association list with unique keys, and a `range` over a
  map visits the entries in an order chosen by a `RangeOrder`, which may be
  any permutation.
-/

namespace Txtar

/-- Go `string`. -/
abbrev GoString := List Char

/-- Go `[]byte`. -/
abbrev Bytes := List UInt8

/-! ## Package `strings` -/

namespace strings

/-- `strings.HasPrefix(s, prefix)`. -/
def HasPrefix (s pre : GoString) : Bool := pre.isPrefixOf s

/-- `strings.Contains(s, substr)`. -/
def Contains (s sub : GoString) : Bool := s.tails.any (fun t => sub.isPrefixOf t)

/-- `strings.TrimPrefix(s, prefix)`. -/
def TrimPrefix (s pre : GoString) : GoString :=
  if pre.isPrefixOf s then s.drop pre.length else s

end strings

/-! ## Package `path/filepath` (Unix) -/

namespace filepath

/-- `filepath.IsAbs` on Unix: the path begins with a slash. -/
def IsAbs (path : GoString) : Bool := strings.HasPrefix path ['/']

/-- One path element processed by `Clean`.  `stack` holds the elements kept
so far, the last one first.  An empty element and `.` are dropped; `..`
removes the last kept element when there is one that is not itself `..`,
is dropped at the root of a rooted path, and is kept otherwise. -/
def cleanStep (rooted : Bool) (stack : List GoString) (c : GoString) : List GoString :=
  if c = [] ∨ c = ['.'] then stack
  else if c = ['.', '.'] then
    match stack with
    | [] => if rooted then [] else [c]
    | top :: rest =>
      if top = ['.', '.'] then (if rooted then stack else c :: stack) else rest
  else c :: stack

/-- The elements `Clean` keeps, the last one first. -/
def cleanElems (rooted : Bool) (path : GoString) : List GoString :=
  (path.splitOn '/').foldl (cleanStep rooted) []

/-- What the documentation of `filepath.Clean` promises: the shortest path
name equivalent to `path` by purely lexical processing (multiple separators
collapsed, `.` elements removed, inner `..` elements removed with the element
before them, `..` at the root removed, the empty result written `.`).
`Clean_eq_cleanByElems` shows that the loop of `Clean` computes it. -/
def cleanByElems (path : GoString) : GoString :=
  if path = [] then ['.']
  else
    let rooted := IsAbs path
    let body := List.intercalate ['/'] (cleanElems rooted path).reverse
    if rooted then '/' :: body
    else if body = [] then ['.'] else body

/-- The inner loop of the `..` case of `Clean`,
`for out.w > dotdot && !os.IsPathSeparator(out.index(out.w)) { out.w-- }`:
`out` is the buffer up to `out.w`, last byte first, and `last` the byte at
index `out.w`. -/
def cleanBacktrack (dotdot : Nat) : List Char → Char → List Char
  | [], _ => []
  | c :: out, last =>
    if (c :: out).length > dotdot ∧ last ≠ '/' then cleanBacktrack dotdot out c else c :: out

/-- The main loop of `Clean` (`for r < n`): `rest` is `path[r:]`, `out` the
buffer written so far, last byte first, and `dotdot` the index where `..`
must stop.  Every iteration consumes input, so the length of the path bounds
their number; `fuel` is that bound. -/
def cleanLoop (rooted : Bool) : Nat → List Char → List Char → Nat → List Char
  | 0, _, out, _ => out
  | fuel + 1, rest, out, dotdot =>
    match rest with
    | [] => out
    | c :: rest1 =>
      if c = '/' then
        -- empty path element
        cleanLoop rooted fuel rest1 out dotdot
      else if c = '.' ∧ (rest1 = [] ∨ rest1.head? = some '/') then
        -- . element
        cleanLoop rooted fuel rest1 out dotdot
      else if c = '.' ∧ rest1.head? = some '.' ∧
          (rest1.tail = [] ∨ rest1.tail.head? = some '/') then
        -- .. element: remove to last separator
        if out.length > dotdot then
          -- can backtrack
          cleanLoop rooted fuel rest1.tail
            (match out with
              | [] => []
              | last :: out1 => cleanBacktrack dotdot out1 last) dotdot
        else if rooted = false then
          -- cannot backtrack, but not rooted, so append .. element
          let out1 := if out.length > 0 then '/' :: out else out
          cleanLoop rooted fuel rest1.tail ('.' :: '.' :: out1) (out1.length + 2)
        else cleanLoop rooted fuel rest1.tail out dotdot
      else
        -- real path element: add slash if needed, copy element
        let out1 :=
          if (rooted = true ∧ out.length ≠ 1) ∨ (rooted = false ∧ out.length ≠ 0) then
            '/' :: out
          else out
        cleanLoop rooted fuel (rest.dropWhile (fun b => decide (b ≠ '/')))
          ((rest.takeWhile (fun b => decide (b ≠ '/'))).reverse ++ out1) dotdot

/-- `filepath.Clean` on Unix, after the Go source: the path is read element
by element into a buffer, from which a `..` element removes the element
written last. -/
def Clean (path : GoString) : GoString :=
  if path = [] then ['.']
  else
    let rooted := IsAbs path
    let out :=
      if rooted then cleanLoop rooted path.length path.tail ['/'] 1
      else cleanLoop rooted path.length path [] 0
    if out.length = 0 then ['.'] else out.reverse

/-- `filepath.Join`: the elements from the first non-empty one on, joined by
slashes and cleaned; the empty string when every element is empty. -/
def Join (elem : List GoString) : GoString :=
  match elem.dropWhile (fun e => decide (e = [])) with
  | [] => []
  | es => Clean (List.intercalate ['/'] es)

/-- `filepath.Dir`: all but the last element of `path`, cleaned. -/
def Dir (path : GoString) : GoString :=
  Clean (path.reverse.dropWhile (fun c => decide (c ≠ '/'))).reverse

end filepath

/-! ## Filesystem and package `os` -/

/-- A filesystem node. -/
inductive Node where
  | file (data : Bytes)
  | dir
deriving DecidableEq, Repr

/-- Filesystem state: what each path name refers to, if anything. -/
abbrev FS := GoString → Option Node

/-- The error numbers the modelled system calls return. -/
inductive Errno where
  | ENOENT
  | EEXIST
  | ENOTDIR
  | EISDIR
  | EINVAL
  | ENAMETOOLONG
deriving DecidableEq, Repr

/-- The filesystem with `name` bound to `node`. -/
def FS.set (fs : FS) (name : GoString) (node : Node) : FS :=
  fun q => if q = name then some node else fs q

namespace os

/-- `os.Stat`: the node at `name`, or ENOENT. -/
def Stat (fs : FS) (name : GoString) : Except Errno Node :=
  match fs name with
  | some n => .ok n
  | none => .error .ENOENT

/-- The checks on the parent directory shared by the calls that create a name. -/
def parentCheck (fs : FS) (name : GoString) : Option Errno :=
  match fs (filepath.Dir name) with
  | some .dir => none
  | some (.file _) => some .ENOTDIR
  | none => some .ENOENT

/-- `os.WriteFile`: create or truncate the regular file `name` and write
`data`.  Fails when `name` is a directory or its parent is not one. -/
def WriteFile (fs : FS) (name : GoString) (data : Bytes) : Except Errno FS :=
  match fs name with
  | some .dir => .error .EISDIR
  | _ =>
    match parentCheck fs name with
    | some e => .error e
    | none => .ok (fs.set name (.file data))

/-- `os.Mkdir`: create the directory `name`.  Fails when `name` exists or its
parent is not a directory. -/
def Mkdir (fs : FS) (name : GoString) : Except Errno FS :=
  match fs name with
  | some _ => .error .EEXIST
  | none =>
    match parentCheck fs name with
    | some e => .error e
    | none => .ok (fs.set name .dir)

/-- The `parent := path[:i]` of `os.MkdirAll`: trailing separators and the
last element are removed, and so is the separator before it. -/
def mkdirAllParent (path : GoString) : GoString :=
  (((path.reverse.dropWhile (fun c => decide (c = '/'))).dropWhile
    (fun c => decide (c ≠ '/'))).drop 1).reverse

/-- `os.MkdirAll` with an explicit bound on the depth of its recursion
(`none` when the bound is reached).  The result is the error, if any, and
the filesystem left behind. -/
def MkdirAllFuel : Nat → FS → GoString → Option (Option Errno × FS)
  | 0, _, _ => none
  | n + 1, fs, path =>
    match fs path with
    | some .dir => some (none, fs)
    | some (.file _) => some (some .ENOTDIR, fs)
    | none =>
      let parent := mkdirAllParent path
      let made : Option (Option Errno × FS) :=
        if parent ≠ [] then MkdirAllFuel n fs parent else some (none, fs)
      match made with
      | none => none
      | some (some e, fs1) => some (some e, fs1)
      | some (none, fs1) =>
        match Mkdir fs1 path with
        | .ok fs2 => some (none, fs2)
        | .error e =>
          match fs1 path with
          | some .dir => some (none, fs1)
          | _ => some (some e, fs1)

/-- `os.MkdirAll`: create `path` and the missing parents.  The recursion
goes to a strictly shorter path each time, so the length of `path` bounds
its depth. -/
def MkdirAll (fs : FS) (path : GoString) : Option Errno × FS :=
  (MkdirAllFuel (path.length + 1) fs path).getD (some .EINVAL, fs)

/-- The path `q` lies strictly below the directory `d`. -/
def below (d q : GoString) : Bool := (d ++ ['/']).isPrefixOf q

/-- The last element of `name` is `.` or `..`, or `name` is the root. -/
def isDotOrRoot (name : GoString) : Bool :=
  let last := (name.reverse.takeWhile (fun c => decide (c ≠ '/'))).reverse
  decide (last = [] ∨ last = ['.'] ∨ last = ['.', '.'])

/-- The length of a Go string in bytes: the sum of the UTF-8 sizes of its
characters. -/
def byteLen (s : GoString) : Nat := (s.map Char.utf8Size).sum

/-- The most bytes one element of a path name may have (Linux). -/
def NAME_MAX : Nat := 255

/-- The bytes a whole path name must stay below; the limit counts the
terminating null byte (Linux). -/
def PATH_MAX : Nat := 4096

/-- The system refuses the path name for its length: the whole name has
`PATH_MAX` bytes or more, or one of its elements has more than `NAME_MAX`. -/
def nameTooLong (name : GoString) : Bool :=
  decide (PATH_MAX ≤ byteLen name) ||
    (name.splitOn '/').any (fun c => decide (NAME_MAX < byteLen c))

/-- `os.Rename`: rename (move) `oldname` to `newname`, replacing `newname`
when it is a regular file.  Go refuses an existing directory as `newname`;
the system call refuses a missing `oldname`, a name that is too long, a
`.`/`..`/root operand, a `newname` below `oldname`, a parent of `newname`
that is not a directory, and a directory renamed onto a regular file.  A
renamed directory takes everything below it along. -/
def Rename (fs : FS) (oldname newname : GoString) : Except Errno FS :=
  match fs newname, fs oldname with
  | some .dir, none => .error .ENOENT
  | some .dir, some _ => .error .EEXIST
  | _, none => .error .ENOENT
  | target, some src =>
    if nameTooLong oldname || nameTooLong newname then .error .ENAMETOOLONG
    else if oldname = newname then .ok fs
    else if isDotOrRoot oldname || isDotOrRoot newname then .error .EINVAL
    else if below oldname newname then .error .EINVAL
    else
      match parentCheck fs newname with
      | some e => .error e
      | none =>
        match src, target with
        | .dir, some _ => .error .ENOTDIR
        | .dir, none =>
          .ok (fun q =>
            if q = newname then some .dir
            else if below newname q then fs (oldname ++ q.drop newname.length)
            else if q = oldname ∨ below oldname q then none
            else fs q)
        | .file data, _ =>
          .ok (fun q =>
            if q = newname then some (.file data)
            else if q = oldname then none
            else fs q)

end os

/-- A filesystem state of a real system: whatever exists has a parent that is
a directory, and no regular file is named `.`, `..` or `/`. -/
def FS.WF (fs : FS) : Prop :=
  (∀ p, fs p ≠ none → fs (filepath.Dir p) = some Node.dir) ∧
  (∀ p data, fs p = some (Node.file data) → os.isDotOrRoot p = false)

/-! ## Package `time` -/

/-- A wall-clock reading, as far as `Format` needs it. -/
structure Time where
  year : Nat
  month : Nat
  day : Nat
  hour : Nat
  minute : Nat
  second : Nat
deriving DecidableEq, Repr

/-- A number in decimal, padded with zeros on the left to `width` digits. -/
def zeroPad (width n : Nat) : GoString :=
  let ds := Nat.toDigits 10 n
  List.replicate (width - ds.length) '0' ++ ds

/-- `t.Format("20060102T150405")`. -/
def Time.formatCompact (t : Time) : GoString :=
  zeroPad 4 t.year ++ zeroPad 2 t.month ++ zeroPad 2 t.day ++ ['T'] ++
    zeroPad 2 t.hour ++ zeroPad 2 t.minute ++ zeroPad 2 t.second

/-! ## `golang.org/x/tools/txtar` -/

/-- `txtar.File`. -/
structure File where
  Name : GoString
  Data : Bytes
deriving DecidableEq, Repr

/-- `txtar.Archive` (the comment is not used by the program). -/
structure Archive where
  Files : List File
deriving DecidableEq, Repr

/-! ## `internal/unpacker.go` -/

/-- `UnpackOptions`. -/
structure UnpackOptions where
  Archive : GoString
  Dir : GoString
  Backup : Bool
  DryRun : Bool
  NoOverwrite : Bool
deriving DecidableEq, Repr

/-- The two errors of `validatePath`. -/
inductive PathError where
  | absolute
  | traversal
deriving DecidableEq, Repr

/-- The errors `Unpack` returns, one per `fmt.Errorf` of the source. -/
inductive UnpackError where
  | mutuallyExclusive
  | invalidPath (name : GoString) (err : PathError)
  | createDirectory (target : GoString) (err : Errno)
  | fileExists (target : GoString)
  | backup (target : GoString) (err : Errno)
  | write (target : GoString) (err : Errno)
deriving DecidableEq, Repr

/-- `validatePath`. -/
def validatePath (path : GoString) : Except PathError Unit :=
  if filepath.IsAbs path then .error .absolute
  else
    let cleaned := filepath.Clean path
    if strings.HasPrefix cleaned ['.', '.'] || strings.Contains cleaned ['/', '.', '.', '/'] then
      .error .traversal
    else .ok ()

/-- The name the existing target is moved to (lines 52-56): the target with
`.bak` appended, and with the time stamp appended as well when that name is
occupied. -/
def backupPath (fs : FS) (now : Time) (targetPath : GoString) : GoString :=
  match os.Stat fs (targetPath ++ ['.', 'b', 'a', 'k']) with
  | .ok _ => targetPath ++ ['.', 'b', 'a', 'k', '.'] ++ now.formatCompact
  | .error _ => targetPath ++ ['.', 'b', 'a', 'k']

/-- The body of the loop of `Unpack` for one archive entry; `now` is what
`time.Now()` returns while the entry is processed. -/
def unpackFile (opts : UnpackOptions) (now : Time) (fs : FS) (file : File) :
    Option UnpackError × FS :=
  match validatePath file.Name with
  | .error err => (some (.invalidPath file.Name err), fs)
  | .ok () =>
    let targetPath := filepath.Join [opts.Dir, file.Name]
    if opts.DryRun then (none, fs)
    else
      match os.MkdirAll fs (filepath.Dir targetPath) with
      | (some e, fs1) => (some (.createDirectory targetPath e), fs1)
      | (none, fs1) =>
        let backedUp : Option UnpackError × FS :=
          match os.Stat fs1 targetPath with
          | .error _ => (none, fs1)
          | .ok _ =>
            if opts.NoOverwrite then (some (.fileExists targetPath), fs1)
            else if opts.Backup then
              match os.Rename fs1 targetPath (backupPath fs1 now targetPath) with
              | .error e => (some (.backup targetPath e), fs1)
              | .ok fs2 => (none, fs2)
            else (none, fs1)
        match backedUp with
        | (some e, fs2) => (some e, fs2)
        | (none, fs2) =>
          match os.WriteFile fs2 targetPath file.Data with
          | .error e => (some (.write targetPath e), fs2)
          | .ok fs3 => (none, fs3)

/-- The loop of `Unpack` over the archive's files, from entry number `i` on;
`clock i` is the time while entry `i` is processed. -/
def unpackLoop (opts : UnpackOptions) (clock : Nat → Time) :
    Nat → List File → FS → Option UnpackError × FS
  | _, [], fs => (none, fs)
  | i, file :: rest, fs =>
    match unpackFile opts (clock i) fs file with
    | (some e, fs1) => (some e, fs1)
    | (none, fs1) => unpackLoop opts clock (i + 1) rest fs1

/-- The options after `if opts.Dir == "" { opts.Dir = "." }` (lines 26-28). -/
def UnpackOptions.withDefaultDir (opts : UnpackOptions) : UnpackOptions :=
  if opts.Dir = [] then { opts with Dir := ['.'] } else opts

/-- `Unpack`: the error returned (if any) and the filesystem left behind. -/
def Unpack (clock : Nat → Time) (archive : Archive) (opts : UnpackOptions) (fs : FS) :
    Option UnpackError × FS :=
  if opts.Backup && opts.NoOverwrite then (some .mutuallyExclusive, fs)
  else unpackLoop opts.withDefaultDir clock 0 archive.Files fs

/-! ## Test fixtures -/

/-- A filesystem holding only the current directory and the root. -/
def emptyFS : FS := fun q => if q = ['.'] ∨ q = ['/'] then some .dir else none

/-- A clock stuck at one second. -/
def fixedClock : Nat → Time := fun _ => ⟨2026, 11, 4, 12, 0, 0⟩

/-- The archive of `TestUnpack`. -/
def testArchive : Archive :=
  ⟨[⟨"test.txt".toList, [104, 105]⟩, ⟨"subdir/nested.txt".toList, [110]⟩]⟩

/-- Default options with the given directory. -/
def optsFor (dir : GoString) : UnpackOptions :=
  { Archive := [], Dir := dir, Backup := false, DryRun := false, NoOverwrite := false }

/-! ## Go maps -/

/-- A Go `map[string]V`: an association list in which a key occurs once. -/
abbrev GoMap (V : Type) := List (GoString × V)

/-- The map lookup `v, ok := m[k]`. -/
def GoMap.get? {V : Type} : GoMap V → GoString → Option V
  | [], _ => none
  | (k', v) :: rest, k => if k' = k then some v else GoMap.get? rest k

/-- The map assignment `m[k] = v`. -/
def GoMap.set {V : Type} : GoMap V → GoString → V → GoMap V
  | [], k, v => [(k, v)]
  | (k', v') :: rest, k, v =>
    if k' = k then (k, v) :: rest else (k', v') :: GoMap.set rest k v

/-- The order in which one `range` loop visits the entries of a map: Go
leaves it unspecified, so it may be any rearrangement of the entries. -/
structure RangeOrder where
  order : {V : Type} → GoMap V → GoMap V
  perm : ∀ {V : Type} (m : GoMap V), (order m).Perm m

/-- The `range` order that visits the entries as they were inserted. -/
def RangeOrder.insertion : RangeOrder := ⟨fun m => m, fun m => List.Perm.refl m⟩

/-- The `range` order that visits the entries last inserted first. -/
def RangeOrder.reversed : RangeOrder := ⟨fun m => m.reverse, fun m => List.reverse_perm m⟩

/-! ## `internal/packer.go`: the filter -/

/-- `PackOptions`. -/
structure PackOptions where
  Dir : GoString
  Output : GoString
  Include : List GoString
  Exclude : List GoString
  Git : Bool
  Commit : GoString
  Since : Nat
  Staged : Bool
  Worktree : Bool
  StripPrefix : GoString
  DryRun : Bool
  IgnoreBinary : Bool
  TxtarIgnore : GoString
deriving DecidableEq, Repr

/-- `Filter`. -/
structure Filter where
  includes : List GoString
  excludes : List GoString
  gitignore : List GoString
  txtarignore : List GoString
  ignoreBinary : Bool
deriving DecidableEq, Repr

/-- A glob matcher: the boolean that `doublestar.Match(pattern, path)` returns
(false when the pattern is malformed).  The library is not part of the
repository, so the matcher is a parameter. -/
abbrev Glob := GoString → GoString → Bool

/-- The loop over the include patterns (lines 71-76): the value of `matched`
when it ends. -/
def includeMatched (glob : Glob) (path : GoString) : List GoString → Bool
  | [] => false
  | pattern :: rest => if glob pattern path then true else includeMatched glob path rest

/-- The loop over the exclude patterns (lines 82-86): whether it returns. -/
def excludeHit (glob : Glob) (path : GoString) : List GoString → Bool
  | [] => false
  | pattern :: rest => if glob pattern path then true else excludeHit glob path rest

/-- The loop over one ignore list (lines 88-95 and 97-104): whether it returns. -/
def ignoreHit (glob : Glob) (path : GoString) : List GoString → Bool
  | [] => false
  | pattern :: rest =>
    if pattern = [] || strings.HasPrefix pattern ['#'] then ignoreHit glob path rest
    else if glob pattern path then true
    else ignoreHit glob path rest

/-- `Filter.ShouldInclude`. -/
def Filter.ShouldInclude (glob : Glob) (f : Filter) (path : GoString) : Bool :=
  if f.includes.length > 0 ∧ includeMatched glob path f.includes = false then false
  else if excludeHit glob path f.excludes then false
  else if ignoreHit glob path f.gitignore then false
  else if ignoreHit glob path f.txtarignore then false
  else true

/-- The binary probe of `isBinaryFile` and of the git selections:
`bytes.Contains(content[:min(1024, len(content))], []byte{0})`. -/
def isBinaryFile (content : Bytes) : Bool :=
  (content.take (min 1024 content.length)).contains 0

/-! ## `internal/diff.go` -/

/-- `FileDiff`. -/
structure FileDiff where
  Path : GoString
  Status : GoString
  LeftData : Bytes
  RightData : Bytes
deriving DecidableEq, Repr

/-- The map built from an archive's files (`m[f.Name] = f.Data` for each). -/
def archiveMap (a : Archive) : GoMap Bytes :=
  a.Files.foldl (fun m f => m.set f.Name f.Data) []

/-- The body of the first loop of `compareArchives` (lines 106-123). -/
def compareLeft (rightMap : GoMap Bytes) (diffs : List FileDiff)
    (entry : GoString × Bytes) : List FileDiff :=
  match rightMap.get? entry.1 with
  | some rightData =>
    if entry.2 ≠ rightData then
      diffs ++ [⟨entry.1, "modified".toList, entry.2, rightData⟩]
    else diffs
  | none => diffs ++ [⟨entry.1, "deleted".toList, entry.2, []⟩]

/-- The body of the second loop of `compareArchives` (lines 125-133). -/
def compareRight (leftMap : GoMap Bytes) (diffs : List FileDiff)
    (entry : GoString × Bytes) : List FileDiff :=
  match leftMap.get? entry.1 with
  | some _ => diffs
  | none => diffs ++ [⟨entry.1, "added".toList, [], entry.2⟩]

/-- `compareArchives`; `ordL` and `ordR` are the orders of its two `range`
loops. -/
def compareArchives (ordL ordR : RangeOrder) (left right : Archive) : List FileDiff :=
  let leftMap := archiveMap left
  let rightMap := archiveMap right
  let diffs := (ordL.order leftMap).foldl (compareLeft rightMap) []
  (ordR.order rightMap).foldl (compareRight leftMap) diffs

/-! ## `internal/packer.go`: the last-N-revisions selection -/

/-- A file patch of go-git, as far as `packSince` reads it: the paths of
`filePatch.Files()`, `none` for a nil file. -/
structure FilePatch where
  fromPath : Option GoString
  toPath : Option GoString
deriving DecidableEq, Repr

/-- A commit of the log, as far as `packSince` reads it: the file patches of
`parent.Patch(commit)` and the content of each file of its tree. -/
structure Commit where
  patch : List FilePatch
  tree : GoMap Bytes
deriving DecidableEq, Repr

/-- The body of the loop over the file patches (lines 349-356). -/
def recordPatch (changedFiles : GoMap Bool) (filePatch : FilePatch) : GoMap Bool :=
  match filePatch.toPath with
  | some dst => changedFiles.set dst true
  | none =>
    match filePatch.fromPath with
    | some src => changedFiles.set src false
    | none => changedFiles

/-- The loop `for i := 0; i < n; i++` of `packSince` (lines 336-358): the
`changedFiles` map after the patches of the `n` newest commits, newest
first. -/
def changedFiles (commitList : List Commit) (n : Nat) : GoMap Bool :=
  (commitList.take n).foldl (fun m c => c.patch.foldl recordPatch m) []

/-- The body of the selection loop of `packSince` (lines 369-394). -/
def selectChanged (glob : Glob) (filter : Filter) (tree : GoMap Bytes)
    (acc : List GoString × GoMap Bytes) (entry : GoString × Bool) :
    List GoString × GoMap Bytes :=
  if entry.2 = false then acc
  else if Filter.ShouldInclude glob filter entry.1 = false then acc
  else
    match tree.get? entry.1 with
    | none => acc
    | some content =>
      if filter.ignoreBinary && isBinaryFile content then acc
      else (acc.1 ++ [entry.1], acc.2.set entry.1 content)

/-- `packSince`, from the log of the head commit on (newest first): the
selected paths and their contents, or `none` for "not enough commits in
history". -/
def packSince (glob : Glob) (ord : RangeOrder) (log : List Commit) (n : Nat)
    (filter : Filter) : Option (List GoString × GoMap Bytes) :=
  let commitList := log.take (n + 1)
  if commitList.length < n + 1 then none
  else
    match commitList with
    | [] => none
    | headCommit :: _ =>
      some ((ord.order (changedFiles commitList n)).foldl
        (selectChanged glob filter headCommit.tree) ([], []))

/-! ## `internal/packer.go`: the directory walk and `Pack` -/

mutual
/-- A directory tree as `filepath.Walk` reads it. -/
inductive DirTree where
  | file (data : Bytes)
  | dir (entries : DirEntries)
/-- The entries of a directory, in the order `filepath.Walk` visits them. -/
inductive DirEntries where
  | nil
  | cons (name : GoString) (node : DirTree) (rest : DirEntries)
end

/-- The path of the entry `name` of the directory at `rel`, relative to the
root of the walk (`filepath.Rel(dir, path)`; the root itself is `.`). -/
def relChild (rel name : GoString) : GoString :=
  if rel = ['.'] then name else rel ++ ['/'] ++ name

mutual
/-- The regular files `filepath.Walk` reaches from the node at relative path
`rel`, with their contents. -/
def walkFiles : GoString → DirTree → List (GoString × Bytes)
  | rel, .file data => [(rel, data)]
  | rel, .dir entries => walkEntries rel entries
/-- The regular files reached through the entries of the directory at `rel`. -/
def walkEntries : GoString → DirEntries → List (GoString × Bytes)
  | _, .nil => []
  | rel, .cons name node rest =>
    walkFiles (relChild rel name) node ++ walkEntries rel rest
end

/-- The callback of `packDir` on one regular file (lines 208-235). -/
def packDirVisit (glob : Glob) (filter : Filter) (acc : List GoString × GoMap Bytes)
    (entry : GoString × Bytes) : List GoString × GoMap Bytes :=
  if Filter.ShouldInclude glob filter entry.1 = false then acc
  else if filter.ignoreBinary && isBinaryFile entry.2 then acc
  else (acc.1 ++ [entry.1], acc.2.set entry.1 entry.2)

/-- `packDir` on the directory tree found at `opts.Dir`. -/
def packDir (glob : Glob) (filter : Filter) (root : DirTree) :
    List GoString × GoMap Bytes :=
  (walkFiles ['.'] root).foldl (packDirVisit glob filter) ([], [])

/-- What `Pack` reads from outside: the tree at `opts.Dir`, the ignore files
(`readIgnoreFile`: the trimmed non-empty lines, `none` when the file cannot be
read) and, in git mode, the selection `packGit` makes. -/
structure PackEnv where
  tree : DirTree
  readIgnoreFile : GoString → Option (List GoString)
  packGit : PackOptions → Filter → Except GoString (List GoString × GoMap Bytes)

/-- `NewFilter`. -/
def NewFilter (env : PackEnv) (opts : PackOptions) : Filter :=
  { includes := opts.Include
    excludes := opts.Exclude
    ignoreBinary := opts.IgnoreBinary
    gitignore :=
      if opts.Git then
        (env.readIgnoreFile (filepath.Join [opts.Dir, ".gitignore".toList])).getD []
      else []
    txtarignore :=
      if opts.TxtarIgnore ≠ [] then
        (env.readIgnoreFile (filepath.Join [opts.Dir, opts.TxtarIgnore])).getD []
      else [] }

/-- `filepath.ToSlash` on Unix: the identity. -/
def filepath.ToSlash (path : GoString) : GoString := path

/-- The body of the loop of `Pack` that builds the archive (lines 171-185). -/
def packEntry (opts : PackOptions) (fileContents : GoMap Bytes) (file : GoString) : File :=
  let relativePath :=
    if opts.StripPrefix ≠ [] then
      strings.TrimPrefix (strings.TrimPrefix file opts.StripPrefix) ['/']
    else file
  ⟨filepath.ToSlash relativePath, (fileContents.get? file).getD []⟩

/-- `Pack`: the archive (`none` in dry-run mode) and the selected paths, or
the error of the selection. -/
def Pack (glob : Glob) (env : PackEnv) (opts : PackOptions) :
    Except GoString (Option Archive × List GoString) :=
  let filter := NewFilter env opts
  let selected : Except GoString (List GoString × GoMap Bytes) :=
    if opts.Git then env.packGit opts filter else .ok (packDir glob filter env.tree)
  match selected with
  | .error e => .error e
  | .ok (files, fileContents) =>
    if opts.DryRun then .ok (none, files)
    else .ok (some ⟨files.map (packEntry opts fileContents)⟩, files)

/-- The left archive of the diff example: `a` holds "1", `b` holds "2". -/
def exampleLeft : Archive := ⟨[⟨['a'], [49]⟩, ⟨['b'], [50]⟩]⟩

/-- The right archive of the diff example: `a` holds "1", `c` holds "3". -/
def exampleRight : Archive := ⟨[⟨['a'], [49]⟩, ⟨['c'], [51]⟩]⟩

/-- A filter without patterns and without the binary gate. -/
def emptyFilter : Filter :=
  { includes := [], excludes := [], gitignore := [], txtarignore := [], ignoreBinary := false }

/-- A history, newest commit first, in which `f.txt` exists at first, is
deleted by the next commit and is added again by the head commit. -/
def readdedLog : List Commit :=
  [ { patch := [⟨none, some "f.txt".toList⟩], tree := [("f.txt".toList, [50])] },
    { patch := [⟨some "f.txt".toList, none⟩], tree := [] },
    { patch := [⟨none, some "f.txt".toList⟩], tree := [("f.txt".toList, [49])] } ]

/-- Options with `Backup` set and the other flags clear. -/
def backupOptsFor (dir : GoString) : UnpackOptions :=
  { Archive := [], Dir := dir, Backup := true, DryRun := false, NoOverwrite := false }

/-- The time at which `fixedClock` stands, formatted. -/
def fixedStamp : GoString := "20261104T120000".toList

/-- A directory that holds `file.txt`, its first backup `file.txt.bak` and a
backup with the time stamp of `fixedClock`. -/
def backupFS : FS := fun q =>
  if q = ['.'] ∨ q = ['/'] then some .dir
  else if q = "file.txt".toList then some (.file [2])
  else if q = "file.txt.bak".toList then some (.file [0])
  else if q = "file.txt.bak.".toList ++ fixedStamp then some (.file [1])
  else none

/-- A directory that holds the file `x` and the empty directory `sub`. -/
def siblingFS : FS := fun q =>
  if q = ['.'] ∨ q = ['/'] ∨ q = "sub".toList then some .dir
  else if q = ['x'] then some (.file [7])
  else none

/-- A source directory whose only entry is the regular file `..a`. -/
def dotDotNameTree : DirTree := .dir (.cons "..a".toList (.file [1]) .nil)

/-- A `PackEnv` around a directory tree: no ignore file can be read and git
mode is refused. -/
def plainEnv (tree : DirTree) : PackEnv :=
  { tree := tree, readIgnoreFile := fun _ => none, packGit := fun _ _ => .error [] }

/-- Pack options of a plain directory walk: no pattern, no ignore file, no
binary gate, no prefix to strip. -/
def plainPackOpts (dir : GoString) : PackOptions :=
  { Dir := dir, Output := [], Include := [], Exclude := [], Git := false, Commit := [],
    Since := 0, Staged := false, Worktree := false, StripPrefix := [], DryRun := false,
    IgnoreBinary := false, TxtarIgnore := [] }

/-- A filesystem whose current directory holds only the empty directory `out`. -/
def outFS : FS := fun q =>
  if q = ['.'] ∨ q = ['/'] ∨ q = "out".toList then some .dir else none

/-- The last entry, in archive order, whose name joined to `dir` is `path`. -/
def lastResolving (dir : GoString) (files : List File) (path : GoString) : Option File :=
  files.reverse.find? (fun e => decide (filepath.Join [dir, e.Name] = path))

/-! ## Lexical containment -/

/-- A relative path that only descends: it is not empty and none of its
elements is empty, `.` or `..`. -/
def descends (rest : GoString) : Bool :=
  decide (rest ≠ []) &&
    (rest.splitOn '/').all (fun c => decide (c ≠ [] ∧ c ≠ ['.'] ∧ c ≠ ['.', '.']))

/-- The path `path` is the directory `dir` itself (in cleaned form) or lies
below it: it is the cleaned `dir` followed by a separator and a path that
only descends (for the cleaned directories `.` and `/`, which bring their
separator or need none: a descending path, with the leading `/` for the
root). -/
def liesWithin (dir path : GoString) : Bool :=
  let cd := filepath.Clean dir
  decide (path = cd) ||
  (decide (cd = ['.']) && descends path) ||
  (decide (cd = ['/']) && List.isPrefixOf ['/'] path && descends (path.drop 1)) ||
  (List.isPrefixOf (cd ++ ['/']) path && descends (path.drop (cd.length + 1)))

/-- A path element that `Clean` keeps as it is. -/
def GoodElem (c : GoString) : Prop :=
  c ≠ [] ∧ c ≠ ['.'] ∧ c ≠ ['.', '.'] ∧ '/' ∉ c

/-- The shape of the stack of `Clean`: kept elements on top of a run of `..`
elements, which is empty for a rooted path. -/
def StackOK (r : Bool) (st : List GoString) : Prop :=
  ∃ (G : List GoString) (k : Nat), st = G ++ List.replicate k ['.', '.'] ∧
    (∀ c ∈ G, GoodElem c) ∧ (r = true → k = 0)

/-- The path name written from the elements `xs`: joined by separators, after
the root for a rooted path, and `.` when nothing is left. -/
def renderPath (r : Bool) (xs : List GoString) : GoString :=
  if r then '/' :: List.intercalate ['/'] xs
  else if List.intercalate ['/'] xs = [] then ['.'] else List.intercalate ['/'] xs

/-- A clean list of elements: a run of `..` (none for a rooted path) followed
by kept elements. -/
def CleanList (r : Bool) (xs : List GoString) : Prop :=
  ∃ (k : Nat) (Gs : List GoString), xs = List.replicate k ['.', '.'] ++ Gs ∧
    (∀ c ∈ Gs, GoodElem c) ∧ (r = true → k = 0)

/-- The table of `Clean` from the tests of Go's `path/filepath` (Unix rows):
argument and expected result. -/
def cleanTests : List (String × String) :=
  [("abc", "abc"), ("abc/def", "abc/def"), ("a/b/c", "a/b/c"), (".", "."), ("..", ".."),
   ("../..", "../.."), ("../../abc", "../../abc"), ("/abc", "/abc"), ("/", "/"),
   ("", "."),
   ("abc/", "abc"), ("abc/def/", "abc/def"), ("a/b/c/", "a/b/c"), ("./", "."),
   ("../", ".."), ("../../", "../.."), ("/abc/", "/abc"),
   ("abc//def//ghi", "abc/def/ghi"), ("abc//", "abc"),
   ("//abc", "/abc"), ("///abc", "/abc"), ("//abc//", "/abc"),
   ("abc/./def", "abc/def"), ("/./abc/def", "/abc/def"), ("abc/.", "abc"),
   ("abc/def/ghi/../jkl", "abc/def/jkl"), ("abc/def/../ghi/../jkl", "abc/jkl"),
   ("abc/def/..", "abc"), ("abc/def/../..", "."), ("/abc/def/../..", "/"),
   ("abc/def/../../..", ".."), ("/abc/def/../../..", "/"),
   ("abc/def/../../../ghi/jkl/../../../mno", "../../mno"), ("/../abc", "/abc"),
   ("a/../b:/../../c", "../c"),
   ("abc/./../def", "def"), ("abc//./../def", "def"), ("abc/../../././../def", "../../def")]

/-- The buffer of `Clean` when the elements kept are `st` (the last one
first): the root of a rooted path, then the elements joined by separators. -/
def cleanBuf (r : Bool) (st : List GoString) : List Char :=
  (if r then ['/'] else []) ++ List.intercalate ['/'] st.reverse

/-- A directory that holds `file.txt` and its first backup `file.txt.bak`. -/
def firstBackupFS : FS := fun q =>
  if q = ['.'] ∨ q = ['/'] then some .dir
  else if q = "file.txt".toList then some (.file [2])
  else if q = "file.txt.bak".toList then some (.file [0])
  else none

/-- Options with `DryRun` set and the other flags clear. -/
def dryRunOptsFor (dir : GoString) : UnpackOptions :=
  { Archive := [], Dir := dir, Backup := false, DryRun := true, NoOverwrite := false }

/-! ## The binary probe on a file -/

/-- `bytes.Contains`. -/
def bytes.Contains (b subslice : Bytes) : Bool := b.tails.any (fun t => subslice.isPrefixOf t)

/-- What `f.Read` returns as its error. -/
inductive ReadError where
  | EOF
  | errno (e : Errno)
deriving DecidableEq, Repr

/-- `os.Open`: the node at `name`, or ENOENT. -/
def os.Open (fs : FS) (name : GoString) : Except Errno Node :=
  match fs name with
  | some n => .ok n
  | none => .error .ENOENT

/-- `f.Read(buf)` on a file that was just opened: the number of bytes read,
the buffer afterwards and the error.  A regular file gives as many bytes as
the buffer takes or the file has, and `io.EOF` when there is none to give; a
directory cannot be read. -/
def os.Read (f : Node) (buf : Bytes) : Nat × Bytes × Option ReadError :=
  match f with
  | .dir => (0, buf, some (.errno .EISDIR))
  | .file content =>
    let n := min buf.length content.length
    (n, content.take n ++ buf.drop n,
      if n = 0 ∧ buf.length > 0 then some .EOF else none)

/-- `isBinaryFile` (lines 131-145) with its calls on the file spelled out:
open, one read into a buffer of 1024 zero bytes, search of `buf[:n]`. -/
def isBinaryFileAt (fs : FS) (path : GoString) : Except Errno Bool :=
  match os.Open fs path with
  | .error e => .error e
  | .ok f =>
    let buf : Bytes := List.replicate 1024 0
    match os.Read f buf with
    | (_, _, some (.errno e)) => .error e
    | (n, buf1, _) => .ok (bytes.Contains (buf1.take n) [0])

/-- The callback of `packCommit` on one file of the tree (lines 286-303). -/
def packCommitVisit (glob : Glob) (filter : Filter) (acc : List GoString × GoMap Bytes)
    (entry : GoString × Bytes) : List GoString × GoMap Bytes :=
  if Filter.ShouldInclude glob filter entry.1 = false then acc
  else if filter.ignoreBinary &&
      bytes.Contains (entry.2.take (min 1024 entry.2.length)) [0] then acc
  else (acc.1 ++ [entry.1], acc.2.set entry.1 entry.2)

/-- A null byte occurs among the first `min(1024, len)` bytes of `content`. -/
def nullInPrefix (content : Bytes) : Prop :=
  ∃ i, i < min 1024 content.length ∧ content[i]? = some 0

/-- A filter without patterns whose binary gate is on. -/
def gateFilter : Filter :=
  { includes := [], excludes := [], gitignore := [], txtarignore := [], ignoreBinary := true }

/-- A directory whose only entry is the file `bin.dat` with the bytes `h`, 0, `i`. -/
def probeFS : FS := fun q =>
  if q = ['.'] ∨ q = ['/'] then some .dir
  else if q = "bin.dat".toList then some (.file [104, 0, 105])
  else none

/-! ## The archive builder in the words of the specification -/

/-- The name the builder gives a selected path: without a configured prefix
the path itself; with one, the path with that literal prefix stripped (a path
that does not begin with it is kept) and then without the single leading
separator, if there is one. -/
def strippedName (stripPrefix path : GoString) : GoString :=
  if stripPrefix = [] then path
  else
    let rest := if stripPrefix.isPrefixOf path then path.drop stripPrefix.length else path
    match rest with
    | '/' :: r => r
    | r => r

/-- The matcher on the inputs of `TestPack`: `*.log` matches `test.log`. -/
def testPackGlob : Glob := fun pattern path =>
  decide (pattern = "*.log".toList ∧ path = "test.log".toList)

/-- The directory of `TestPack`: `test.log` holding "log content" and
`test.txt` holding "hello world". -/
def testPackTree : DirTree :=
  .dir (.cons "test.log".toList (.file [108, 111, 103, 32, 99, 111, 110, 116, 101, 110, 116])
    (.cons "test.txt".toList (.file [104, 101, 108, 108, 111, 32, 119, 111, 114, 108, 100]) .nil))

/-- The options of `TestPack`. -/
def testPackOpts : PackOptions :=
  { Dir := "tmp".toList, Output := [], Include := [], Exclude := ["*.log".toList], Git := false,
    Commit := [], Since := 0, Staged := false, Worktree := false, StripPrefix := [],
    DryRun := false, IgnoreBinary := false, TxtarIgnore := [] }

/-- Whatever exists has a directory as its parent (the first part of `FS.WF`). -/
def FS.parentsAreDirs (fs : FS) : Prop :=
  ∀ p, fs p ≠ none → fs (filepath.Dir p) = some Node.dir

/-- Options with `NoOverwrite` set and the other flags clear. -/
def noOverwriteOptsFor (dir : GoString) : UnpackOptions :=
  { Archive := [], Dir := dir, Backup := false, DryRun := false, NoOverwrite := true }

/-! # Theorems -/

/-! ## `filepath.Clean`: the elements kept -/

theorem splitOn_append_sep (a b : GoString) :
    List.splitOn '/' (a ++ '/' :: b) = List.splitOn '/' a ++ List.splitOn '/' b := by
  unfold List.splitOn
  induction a with
  | nil => simp [List.splitOnP_cons, List.splitOnP_nil]
  | cons x a ih =>
    rw [List.cons_append, List.splitOnP_cons, List.splitOnP_cons, ih]
    by_cases hx : (x == '/') = true
    · simp [hx]
    · simp only [hx, Bool.false_eq_true, if_false]
      cases hs : List.splitOnP (fun c => c == '/') a with
      | nil => exact absurd hs (List.splitOnP_ne_nil _ _)
      | cons h t => simp [List.modifyHead]

theorem splitOn_no_sep (l : GoString) : ∀ c ∈ List.splitOn '/' l, '/' ∉ c := by
  unfold List.splitOn
  induction l with
  | nil => simp [List.splitOnP_nil]
  | cons x l ih =>
    rw [List.splitOnP_cons]
    by_cases hx : (x == '/') = true
    · simp only [hx, if_true]
      intro c hc
      rcases List.mem_cons.mp hc with h | h
      · subst h; simp
      · exact ih c h
    · simp only [hx, Bool.false_eq_true, if_false]
      cases hs : List.splitOnP (fun c => c == '/') l with
      | nil => exact absurd hs (List.splitOnP_ne_nil _ _)
      | cons h t =>
        rw [hs] at ih
        intro c hc
        simp only [List.modifyHead, List.mem_cons] at hc
        rcases hc with hc | hc
        · subst hc
          intro hin
          rcases List.mem_cons.mp hin with h1 | h1
          · rw [← h1] at hx; simp at hx
          · exact ih h (List.mem_cons_self _ _) h1
        · exact ih c (List.mem_cons_of_mem _ hc)


theorem cleanStep_good (r : Bool) (st : List GoString) (c : GoString) (h : GoodElem c) :
    filepath.cleanStep r st c = c :: st := by
  unfold filepath.cleanStep
  simp [h.1, h.2.1, h.2.2.1]

theorem cleanStep_skip (r : Bool) (st : List GoString) (c : GoString)
    (h : c = [] ∨ c = ['.']) : filepath.cleanStep r st c = st := by
  unfold filepath.cleanStep
  simp [h]

theorem cleanStep_dotdot_pop (r : Bool) (top : GoString) (rest : List GoString)
    (h : top ≠ ['.', '.']) : filepath.cleanStep r (top :: rest) ['.', '.'] = rest := by
  unfold filepath.cleanStep
  simp [h]

theorem cleanStep_dotdot_nil (r : Bool) :
    filepath.cleanStep r [] ['.', '.'] = if r then [] else [['.', '.']] := by
  unfold filepath.cleanStep
  simp

theorem cleanStep_dotdot_keep (rest : List GoString) :
    filepath.cleanStep false (['.', '.'] :: rest) ['.', '.'] =
      ['.', '.'] :: ['.', '.'] :: rest := by
  unfold filepath.cleanStep
  simp

theorem elem_cases (c : GoString) (h : '/' ∉ c) :
    c = [] ∨ c = ['.'] ∨ c = ['.', '.'] ∨ GoodElem c := by
  by_cases h1 : c = []
  · exact Or.inl h1
  · by_cases h2 : c = ['.']
    · exact Or.inr (Or.inl h2)
    · by_cases h3 : c = ['.', '.']
      · exact Or.inr (Or.inr (Or.inl h3))
      · exact Or.inr (Or.inr (Or.inr ⟨h1, h2, h3, h⟩))


theorem StackOK_step (r : Bool) (st : List GoString) (c : GoString) (hc : '/' ∉ c)
    (h : StackOK r st) : StackOK r (filepath.cleanStep r st c) := by
  obtain ⟨G, k, rfl, hG, hk⟩ := h
  rcases elem_cases c hc with h0 | h0 | h0 | h0
  · rw [cleanStep_skip _ _ _ (Or.inl h0)]; exact ⟨G, k, rfl, hG, hk⟩
  · rw [cleanStep_skip _ _ _ (Or.inr h0)]; exact ⟨G, k, rfl, hG, hk⟩
  · subst h0
    cases G with
    | cons top rest =>
      have htop : top ≠ ['.', '.'] := (hG top (List.mem_cons_self _ _)).2.2.1
      rw [List.cons_append, cleanStep_dotdot_pop _ _ _ htop]
      exact ⟨rest, k, rfl, fun c hc => hG c (List.mem_cons_of_mem _ hc), hk⟩
    | nil =>
      rw [List.nil_append]
      cases r with
      | true =>
        have := hk rfl
        subst this
        simp only [List.replicate_zero, cleanStep_dotdot_nil, if_true]
        exact ⟨[], 0, rfl, fun c hc => absurd hc (List.not_mem_nil c), fun _ => rfl⟩
      | false =>
        refine ⟨[], k + 1, ?_, fun c hc => absurd hc (List.not_mem_nil c),
          fun h => Bool.noConfusion h⟩
        cases k with
        | zero => simp [cleanStep_dotdot_nil]
        | succ k =>
          rw [List.replicate_succ, cleanStep_dotdot_keep]
          simp [List.replicate_succ]
  · rw [cleanStep_good _ _ _ h0]
    refine ⟨c :: G, k, rfl, ?_, hk⟩
    intro d hd
    rcases List.mem_cons.mp hd with h1 | h1
    · rw [h1]; exact h0
    · exact hG d h1

theorem StackOK_foldl (r : Bool) (cs : List GoString) (hcs : ∀ c ∈ cs, '/' ∉ c) :
    ∀ st, StackOK r st → StackOK r (cs.foldl (filepath.cleanStep r) st) := by
  induction cs with
  | nil => intro st h; exact h
  | cons c rest ih =>
    intro st h
    rw [List.foldl_cons]
    apply ih (fun d hd => hcs d (List.mem_cons_of_mem _ hd))
    exact StackOK_step r st c (hcs c (List.mem_cons_self _ _)) h

theorem StackOK_nil (r : Bool) : StackOK r [] :=
  ⟨[], 0, rfl, fun c hc => absurd hc (List.not_mem_nil c), fun _ => rfl⟩

theorem StackOK_cleanElems (r : Bool) (p : GoString) : StackOK r (filepath.cleanElems r p) :=
  StackOK_foldl r _ (splitOn_no_sep p) [] (StackOK_nil r)

/-! ## `filepath.Clean`: the rendering -/

theorem cleanByElems_eq_render (p : GoString) :
    filepath.cleanByElems p =
      renderPath (filepath.IsAbs p) (filepath.cleanElems (filepath.IsAbs p) p).reverse := by
  unfold filepath.cleanByElems renderPath
  by_cases hp : p = []
  · subst hp
    decide
  · simp only [hp, if_false]

theorem inter_nil : List.intercalate ['/'] ([] : List GoString) = [] := rfl

theorem inter_single (c : GoString) : List.intercalate ['/'] [c] = c := by
  simp [List.intercalate, List.intersperse]

theorem inter_cons_cons (c d : GoString) (rest : List GoString) :
    List.intercalate ['/'] (c :: d :: rest) =
      c ++ '/' :: List.intercalate ['/'] (d :: rest) := by
  simp [List.intercalate, List.intersperse]

theorem inter_append (A B : List GoString) (hA : A ≠ []) (hB : B ≠ []) :
    List.intercalate ['/'] (A ++ B) =
      List.intercalate ['/'] A ++ '/' :: List.intercalate ['/'] B := by
  induction A with
  | nil => exact absurd rfl hA
  | cons a A ih =>
    cases A with
    | nil =>
      cases B with
      | nil => exact absurd rfl hB
      | cons b B => rw [List.singleton_append, inter_cons_cons, inter_single]
    | cons a2 A =>
      rw [List.cons_append, List.cons_append, inter_cons_cons, ← List.cons_append,
        ih (List.cons_ne_nil _ _), inter_cons_cons]
      simp

/-- A clean list of elements: a run of `..` (none for a rooted path) followed
by kept elements. -/
theorem StackOK_reverse (r : Bool) (st : List GoString) (h : StackOK r st) :
    ∃ (k : Nat) (Gs : List GoString), st.reverse = List.replicate k ['.', '.'] ++ Gs ∧
      (∀ c ∈ Gs, GoodElem c) ∧ (r = true → k = 0) := by
  obtain ⟨G, k, rfl, hG, hk⟩ := h
  refine ⟨k, G.reverse, by simp, ?_, hk⟩
  intro c hc
  exact hG c (List.mem_reverse.mp hc)

theorem foldl_good (r : Bool) (Gs : List GoString) (hG : ∀ c ∈ Gs, GoodElem c) :
    ∀ st, Gs.foldl (filepath.cleanStep r) st = Gs.reverse ++ st := by
  induction Gs with
  | nil => intro st; rfl
  | cons c rest ih =>
    intro st
    rw [List.foldl_cons, cleanStep_good _ _ _ (hG c (List.mem_cons_self _ _)),
      ih (fun d hd => hG d (List.mem_cons_of_mem _ hd))]
    simp

theorem foldl_dotdots (k : Nat) :
    ∀ j, (List.replicate k ['.', '.']).foldl (filepath.cleanStep false)
      (List.replicate j ['.', '.']) = List.replicate (j + k) ['.', '.'] := by
  induction k with
  | zero => intro j; rfl
  | succ k ih =>
    intro j
    rw [List.replicate_succ, List.foldl_cons]
    have hstep : filepath.cleanStep false (List.replicate j ['.', '.']) ['.', '.'] =
        List.replicate (j + 1) ['.', '.'] := by
      cases j with
      | zero => simp [cleanStep_dotdot_nil]
      | succ j =>
        rw [List.replicate_succ, cleanStep_dotdot_keep]
        simp [List.replicate_succ]
    rw [hstep, ih (j + 1)]
    congr 1
    omega

/-- Cleaning elements that are already clean keeps them all. -/
theorem foldl_clean_list (r : Bool) (k : Nat) (Gs : List GoString)
    (hG : ∀ c ∈ Gs, GoodElem c) (hk : r = true → k = 0) :
    (List.replicate k ['.', '.'] ++ Gs).foldl (filepath.cleanStep r) [] =
      (List.replicate k ['.', '.'] ++ Gs).reverse := by
  rw [List.foldl_append]
  cases r with
  | true =>
    have := hk rfl
    subst this
    simp [foldl_good true Gs hG]
  | false =>
    have := foldl_dotdots k 0
    simp only [List.replicate_zero, Nat.zero_add] at this
    rw [this, foldl_good false Gs hG]
    simp

theorem CleanList_cleanElems (r : Bool) (p : GoString) :
    CleanList r (filepath.cleanElems r p).reverse :=
  StackOK_reverse r _ (StackOK_cleanElems r p)

theorem CleanList_elem (r : Bool) (xs : List GoString) (h : CleanList r xs) :
    ∀ c ∈ xs, c ≠ [] ∧ '/' ∉ c := by
  obtain ⟨k, Gs, rfl, hG, _⟩ := h
  intro c hc
  rcases List.mem_append.mp hc with h1 | h1
  · have := List.eq_of_mem_replicate h1
    subst this
    exact ⟨by decide, by decide⟩
  · exact ⟨(hG c h1).1, (hG c h1).2.2.2⟩

theorem CleanList_foldl (r : Bool) (xs : List GoString) (h : CleanList r xs) :
    xs.foldl (filepath.cleanStep r) [] = xs.reverse := by
  obtain ⟨k, Gs, rfl, hG, hk⟩ := h
  exact foldl_clean_list r k Gs hG hk

theorem inter_cons_head (h : Char) (t : GoString) (rest : List GoString) :
    ∃ tail, List.intercalate ['/'] ((h :: t) :: rest) = h :: tail := by
  cases rest with
  | nil => exact ⟨t, by rw [inter_single]⟩
  | cons d rest => exact ⟨_, by rw [inter_cons_cons]; rfl⟩

theorem inter_ne_nil (xs : List GoString) (hne : xs ≠ []) (hx : ∀ c ∈ xs, c ≠ []) :
    List.intercalate ['/'] xs ≠ [] := by
  cases xs with
  | nil => exact absurd rfl hne
  | cons c rest =>
    cases c with
    | nil => exact absurd rfl (hx [] (List.mem_cons_self _ _))
    | cons h t =>
      obtain ⟨tail, ht⟩ := inter_cons_head h t rest
      rw [ht]
      exact List.cons_ne_nil _ _

theorem splitOn_slash_cons (b : GoString) :
    List.splitOn '/' ('/' :: b) = [] :: List.splitOn '/' b := by
  have := splitOn_append_sep [] b
  simpa [List.splitOn_nil] using this

theorem IsAbs_render (r : Bool) (xs : List GoString) (h : CleanList r xs) :
    filepath.IsAbs (renderPath r xs) = r := by
  cases r with
  | true => simp [renderPath, filepath.IsAbs, strings.HasPrefix, List.isPrefixOf]
  | false =>
    unfold renderPath
    simp only [Bool.false_eq_true, if_false]
    by_cases hi : List.intercalate ['/'] xs = []
    · rw [if_pos hi]; rfl
    · rw [if_neg hi]
      cases xs with
      | nil => exact absurd inter_nil hi
      | cons c rest =>
        have hc := CleanList_elem false _ h c (List.mem_cons_self _ _)
        cases c with
        | nil => exact absurd rfl hc.1
        | cons a t =>
          obtain ⟨tail, ht⟩ := inter_cons_head a t rest
          rw [ht]
          have ha : a ≠ '/' := fun he => hc.2 (by rw [he]; exact List.mem_cons_self _ _)
          simp [filepath.IsAbs, strings.HasPrefix, List.isPrefixOf, Ne.symm ha]

theorem cleanElems_render (r : Bool) (xs : List GoString) (h : CleanList r xs) :
    filepath.cleanElems r (renderPath r xs) = xs.reverse := by
  have hsep : ∀ l ∈ xs, '/' ∉ l := fun l hl => (CleanList_elem r xs h l hl).2
  have hnonempty : ∀ l ∈ xs, l ≠ [] := fun l hl => (CleanList_elem r xs h l hl).1
  unfold filepath.cleanElems renderPath
  cases r with
  | true =>
    simp only [if_true]
    rw [splitOn_slash_cons, List.foldl_cons, cleanStep_skip _ _ _ (Or.inl rfl)]
    by_cases hx : xs = []
    · subst hx
      rfl
    · rw [List.splitOn_intercalate xs '/' hsep hx]
      exact CleanList_foldl true xs h
  | false =>
    simp only [Bool.false_eq_true, if_false]
    by_cases hx : xs = []
    · subst hx
      rfl
    · rw [if_neg (inter_ne_nil xs hx hnonempty), List.splitOn_intercalate xs '/' hsep hx]
      exact CleanList_foldl false xs h

/-! ## `filepath.Clean`: the loop of the Go source -/

theorem cleanLoop_nil (r : Bool) (fuel : Nat) (out : List Char) (dd : Nat) :
    filepath.cleanLoop r fuel [] out dd = out := by
  cases fuel <;> rfl

theorem splitOn_single (e : GoString) (he : '/' ∉ e) : List.splitOn '/' e = [e] := by
  unfold List.splitOn
  apply List.splitOnP_eq_single
  intro x hx hp
  have : x = '/' := by simpa using hp
  exact he (this ▸ hx)

/-- Folding the elements of `e ++ tail`, where `e` is one element and `tail`
starts at a separator, is folding `e` and then the elements of `tail`. -/
theorem foldl_splitOn_elem (r : Bool) (st : List GoString) (e tail : GoString)
    (he : '/' ∉ e) (ht : tail = [] ∨ tail.head? = some '/') :
    (List.splitOn '/' (e ++ tail)).foldl (filepath.cleanStep r) st =
      (List.splitOn '/' tail).foldl (filepath.cleanStep r) (filepath.cleanStep r st e) := by
  rcases ht with ht | ht
  · subst ht
    rw [List.append_nil, splitOn_single e he, List.splitOn_nil]
    simp only [List.foldl_cons, List.foldl_nil]
    rw [cleanStep_skip _ _ [] (Or.inl rfl)]
  · cases tail with
    | nil => simp at ht
    | cons a t =>
      simp only [List.head?_cons, Option.some.injEq] at ht
      subst ht
      rw [splitOn_append_sep, splitOn_single e he, splitOn_slash_cons]
      simp only [List.singleton_append, List.foldl_cons]
      rw [cleanStep_skip _ _ [] (Or.inl rfl)]

theorem cleanBuf_push (r : Bool) (st : List GoString) (e : GoString) :
    cleanBuf r (e :: st) =
      cleanBuf r st ++ (if st = [] then e else '/' :: e) := by
  unfold cleanBuf
  rw [List.reverse_cons]
  by_cases hs : st = []
  · subst hs
    simp [inter_single, inter_nil]
  · have hr : st.reverse ≠ [] := fun h => hs (List.reverse_eq_nil_iff.mp h)
    rw [inter_append _ _ hr (List.cons_ne_nil _ _), inter_single, if_neg hs]
    simp

theorem cleanBuf_nil (r : Bool) : cleanBuf r [] = if r then ['/'] else [] := by
  unfold cleanBuf
  simp [inter_nil]

theorem cleanBuf_length_push (r : Bool) (st : List GoString) (e : GoString) (he : e ≠ []) :
    (cleanBuf r st).length < (cleanBuf r (e :: st)).length := by
  rw [cleanBuf_push]
  by_cases hs : st = []
  · simp only [hs, if_true, List.length_append]
    have := List.length_pos.mpr he
    omega
  · simp [hs]

/-- The index where `..` stops is never beyond the buffer, and it is the end
of the buffer exactly when no element is kept above the `..` run. -/
theorem cleanBuf_length_ge (r : Bool) (k : Nat) (G : List GoString)
    (hG : ∀ c ∈ G, GoodElem c) :
    (cleanBuf r (List.replicate k ['.', '.'])).length ≤
      (cleanBuf r (G ++ List.replicate k ['.', '.'])).length ∧
    (G ≠ [] → (cleanBuf r (List.replicate k ['.', '.'])).length <
      (cleanBuf r (G ++ List.replicate k ['.', '.'])).length) := by
  induction G with
  | nil => exact ⟨Nat.le_refl _, fun h => absurd rfl h⟩
  | cons g G ih =>
    have ih' := (ih (fun c hc => hG c (List.mem_cons_of_mem _ hc))).1
    have hg := cleanBuf_length_push r (G ++ List.replicate k ['.', '.']) g
      (hG g (List.mem_cons_self _ _)).1
    rw [List.cons_append]
    exact ⟨by omega, fun _ => by omega⟩

theorem cleanBuf_length (r : Bool) (st : List GoString) :
    (cleanBuf r st).length =
      (if r then 1 else 0) + (List.intercalate ['/'] st.reverse).length := by
  unfold cleanBuf
  cases r
  · simp
  · simp only [if_true, List.length_append, List.length_singleton]

theorem cleanBuf_eq_nil_iff (r : Bool) (st : List GoString) (hst : ∀ c ∈ st, c ≠ []) :
    ((r = true ∧ (cleanBuf r st).length ≠ 1) ∨ (r = false ∧ (cleanBuf r st).length ≠ 0)) ↔
      st ≠ [] := by
  have hlen := cleanBuf_length r st
  constructor
  · intro h hs
    subst hs
    rw [hlen] at h
    cases r <;> simp [inter_nil] at h
  · intro hs
    have hr : st.reverse ≠ [] := fun h => hs (List.reverse_eq_nil_iff.mp h)
    have hne := inter_ne_nil st.reverse hr (fun c hc => hst c (List.mem_reverse.mp hc))
    have hpos := List.length_pos.mpr hne
    cases r with
    | true =>
      left
      refine ⟨rfl, ?_⟩
      rw [hlen]
      simp only [if_true]
      omega
    | false =>
      right
      refine ⟨rfl, ?_⟩
      rw [hlen]
      simp only [Bool.false_eq_true, if_false]
      omega

/-- The inner loop of the `..` case removes the element written last and the
separator before it. -/
theorem cleanBacktrack_elem (dd : Nat) (X : List Char) (sep : Bool)
    (hX : dd ≤ X.length) (hsep : sep = false → X.length ≤ dd) :
    ∀ (t : List Char) (last : Char), last ≠ '/' → (∀ c ∈ t, c ≠ '/') →
      filepath.cleanBacktrack dd (t ++ (if sep then '/' :: X else X)) last = X := by
  intro t
  induction t with
  | nil =>
    intro last hlast _
    rw [List.nil_append]
    cases sep with
    | true =>
      simp only [if_true]
      unfold filepath.cleanBacktrack
      have hc : ('/' :: X).length > dd ∧ last ≠ '/' := ⟨by simp; omega, hlast⟩
      rw [if_pos hc]
      cases X with
      | nil => rfl
      | cons c o =>
        unfold filepath.cleanBacktrack
        simp
    | false =>
      simp only [Bool.false_eq_true, if_false]
      have := hsep rfl
      cases X with
      | nil => rfl
      | cons c o =>
        unfold filepath.cleanBacktrack
        have hc : ¬ ((c :: o).length > dd ∧ last ≠ '/') := fun h => by omega
        rw [if_neg hc]
  | cons a t ih =>
    intro last hlast ht
    rw [List.cons_append]
    unfold filepath.cleanBacktrack
    have hlen : (a :: (t ++ if sep = true then '/' :: X else X)).length > dd := by
      cases sep <;> simp <;> omega
    rw [if_pos ⟨hlen, hlast⟩]
    exact ih a (ht a (List.mem_cons_self _ _)) (fun c hc => ht c (List.mem_cons_of_mem _ hc))

theorem dropWhile_notsep_head (l : List Char) :
    l.dropWhile (fun b => decide (b ≠ '/')) = [] ∨
      (l.dropWhile (fun b => decide (b ≠ '/'))).head? = some '/' := by
  induction l with
  | nil => left; rfl
  | cons a l ih =>
    by_cases ha : a = '/'
    · right
      subst ha
      rw [List.dropWhile_cons_of_neg (by simp)]
      rfl
    · rw [List.dropWhile_cons_of_pos (by simpa using ha)]
      exact ih

theorem takeWhile_notsep_no_sep (l : List Char) :
    '/' ∉ l.takeWhile (fun b => decide (b ≠ '/')) := by
  intro h
  have := List.mem_takeWhile_imp h
  simp at this

theorem takeWhile_notsep_eq_nil (l : List Char)
    (h : l.takeWhile (fun b => decide (b ≠ '/')) = []) : l = [] ∨ l.head? = some '/' := by
  cases l with
  | nil => left; rfl
  | cons a l =>
    right
    by_cases ha : a = '/'
    · subst ha; rfl
    · rw [List.takeWhile_cons_of_pos (by simpa using ha)] at h
      exact absurd h (List.cons_ne_nil _ _)

/-- The state of the loop of `Clean` and the stack of kept elements: started
with the buffer of a stack, the loop ends with the buffer of the stack after
the elements of the remaining input. -/
theorem cleanLoop_spec (r : Bool) : ∀ (fuel : Nat) (rest : List Char) (G : List GoString)
    (k : Nat), (∀ c ∈ G, GoodElem c) → (r = true → k = 0) → rest.length ≤ fuel →
    filepath.cleanLoop r fuel rest (cleanBuf r (G ++ List.replicate k ['.', '.'])).reverse
        (cleanBuf r (List.replicate k ['.', '.'])).length =
      (cleanBuf r ((List.splitOn '/' rest).foldl (filepath.cleanStep r)
        (G ++ List.replicate k ['.', '.']))).reverse := by
  intro fuel
  induction fuel with
  | zero =>
    intro rest G k _ _ hlen
    have : rest = [] := List.length_eq_zero.mp (Nat.le_zero.mp hlen)
    subst this
    rw [cleanLoop_nil, List.splitOn_nil]
    simp only [List.foldl_cons, List.foldl_nil]
    rw [cleanStep_skip _ _ [] (Or.inl rfl)]
  | succ fuel ih =>
    intro rest G k hG hk hlen
    cases rest with
    | nil =>
      rw [cleanLoop_nil, List.splitOn_nil]
      simp only [List.foldl_cons, List.foldl_nil]
      rw [cleanStep_skip _ _ [] (Or.inl rfl)]
    | cons c rest1 =>
      have hlen1 : rest1.length ≤ fuel := by simpa using hlen
      unfold filepath.cleanLoop
      simp only
      by_cases h1 : c = '/'
      · -- empty element
        subst h1
        rw [if_pos rfl, splitOn_slash_cons, List.foldl_cons,
          cleanStep_skip _ _ [] (Or.inl rfl)]
        exact ih rest1 G k hG hk hlen1
      · rw [if_neg h1]
        by_cases h2 : c = '.' ∧ (rest1 = [] ∨ rest1.head? = some '/')
        · -- . element
          rw [if_pos h2]
          obtain ⟨hc, ht⟩ := h2
          subst hc
          have := foldl_splitOn_elem r (G ++ List.replicate k ['.', '.']) ['.'] rest1
            (by decide) ht
          rw [List.singleton_append] at this
          rw [this, cleanStep_skip _ _ ['.'] (Or.inr rfl)]
          exact ih rest1 G k hG hk hlen1
        · rw [if_neg h2]
          by_cases h3 : c = '.' ∧ rest1.head? = some '.' ∧
              (rest1.tail = [] ∨ rest1.tail.head? = some '/')
          · -- .. element
            rw [if_pos h3]
            obtain ⟨hc, hh, ht⟩ := h3
            subst hc
            cases rest1 with
            | nil => simp at hh
            | cons c2 rest2 =>
              simp only [List.head?_cons, Option.some.injEq] at hh
              subst hh
              simp only [List.tail_cons] at ht ⊢
              have hlen2 : rest2.length ≤ fuel := by
                simp only [List.length_cons] at hlen1
                omega
              have hfold := foldl_splitOn_elem r (G ++ List.replicate k ['.', '.'])
                ['.', '.'] rest2 (by decide) ht
              have happ : (['.', '.'] : List Char) ++ rest2 = '.' :: '.' :: rest2 := rfl
              rw [happ] at hfold
              rw [hfold]
              obtain ⟨hge, hgt⟩ := cleanBuf_length_ge r k G hG
              cases G with
              | cons top G' =>
                have hG' : ∀ c ∈ G', GoodElem c := fun c hc => hG c (List.mem_cons_of_mem _ hc)
                have htop := hG top (List.mem_cons_self _ _)
                have hlt := hgt (List.cons_ne_nil _ _)
                rw [List.length_reverse, if_pos hlt, List.cons_append,
                  cleanStep_dotdot_pop _ _ _ htop.2.2.1]
                have hout : filepath.cleanBacktrack
                    (cleanBuf r (List.replicate k ['.', '.'])).length
                    ((top.reverse.tail) ++
                      (if decide (G' ++ List.replicate k ['.', '.'] ≠ []) then
                        '/' :: (cleanBuf r (G' ++ List.replicate k ['.', '.'])).reverse
                      else (cleanBuf r (G' ++ List.replicate k ['.', '.'])).reverse))
                    (top.reverse.head (by
                      intro h
                      exact htop.1 (List.reverse_eq_nil_iff.mp h))) =
                    (cleanBuf r (G' ++ List.replicate k ['.', '.'])).reverse := by
                  apply cleanBacktrack_elem
                  · rw [List.length_reverse]
                    exact (cleanBuf_length_ge r k G' hG').1
                  · intro hs
                    have hnil : G' ++ List.replicate k ['.', '.'] = [] := by
                      by_contra hne
                      simp [hne] at hs
                    have hG0 : G' = [] := (List.append_eq_nil.mp hnil).1
                    have hk0 : List.replicate k ['.', '.'] = [] := (List.append_eq_nil.mp hnil).2
                    rw [hG0, List.nil_append, hk0, List.length_reverse]
                  · intro h
                    apply htop.2.2.2
                    have : '/' ∈ top.reverse := by
                      rw [← h]
                      exact List.head_mem _
                    exact List.mem_reverse.mp this
                  · intro c hc h
                    apply htop.2.2.2
                    have : c ∈ top.reverse := List.mem_of_mem_tail hc
                    rw [h] at this
                    exact List.mem_reverse.mp this
                have hbuf : (cleanBuf r (top :: (G' ++ List.replicate k ['.', '.']))).reverse =
                    top.reverse.head (by
                      intro h
                      exact htop.1 (List.reverse_eq_nil_iff.mp h)) ::
                    ((top.reverse.tail) ++
                      (if decide (G' ++ List.replicate k ['.', '.'] ≠ []) then
                        '/' :: (cleanBuf r (G' ++ List.replicate k ['.', '.'])).reverse
                      else (cleanBuf r (G' ++ List.replicate k ['.', '.'])).reverse)) := by
                  rw [cleanBuf_push, List.reverse_append]
                  have htr : top.reverse = top.reverse.head (by
                      intro h
                      exact htop.1 (List.reverse_eq_nil_iff.mp h)) :: top.reverse.tail :=
                    (List.head_cons_tail _ _).symm
                  by_cases hs : G' ++ List.replicate k ['.', '.'] = []
                  · simp only [hs, if_true, ne_eq, not_true_eq_false, decide_False,
                      Bool.false_eq_true, if_false]
                    rw [← List.cons_append, ← htr]
                  · simp only [hs, if_false, ne_eq, not_false_eq_true, decide_True, if_true]
                    rw [List.reverse_cons, List.append_assoc, ← List.cons_append, ← htr]
                    simp
                rw [hbuf]
                simp only
                rw [hout]
                exact ih rest2 G' k hG' hk hlen2
              | nil =>
                rw [List.nil_append] at hge hgt ⊢
                rw [List.length_reverse, if_neg (Nat.lt_irrefl _)]
                cases r with
                | true =>
                  have hk0 := hk rfl
                  subst hk0
                  simp only [Bool.true_eq_false, if_false, List.replicate_zero,
                    cleanStep_dotdot_nil, if_true]
                  have := ih rest2 [] 0 (fun c hc => absurd hc (List.not_mem_nil c))
                    (fun _ => rfl) hlen2
                  simpa using this
                | false =>
                  simp only [if_true]
                  have hstep : filepath.cleanStep false (List.replicate k ['.', '.'])
                      ['.', '.'] = List.replicate (k + 1) ['.', '.'] := by
                    cases k with
                    | zero => simp [cleanStep_dotdot_nil]
                    | succ k =>
                      rw [List.replicate_succ, cleanStep_dotdot_keep]
                      simp [List.replicate_succ]
                  rw [hstep]
                  have hpush := cleanBuf_push false (List.replicate k ['.', '.']) ['.', '.']
                  rw [← List.replicate_succ] at hpush
                  have hpos : (cleanBuf false (List.replicate k ['.', '.'])).length > 0 ↔
                      List.replicate k ['.', '.'] ≠ [] := by
                    have := cleanBuf_eq_nil_iff false (List.replicate k ['.', '.'])
                      (fun c hc => by
                        rw [List.eq_of_mem_replicate hc]
                        decide)
                    simp only [Bool.false_eq_true, false_and, true_and, false_or] at this
                    rw [← this]
                    omega
                  have hout : '.' :: '.' ::
                      (if (cleanBuf false (List.replicate k ['.', '.'])).length > 0 then
                        '/' :: (cleanBuf false (List.replicate k ['.', '.'])).reverse
                      else (cleanBuf false (List.replicate k ['.', '.'])).reverse) =
                      (cleanBuf false (List.replicate (k + 1) ['.', '.'])).reverse := by
                    rw [hpush, List.reverse_append]
                    by_cases hs : List.replicate k ['.', '.'] = []
                    · rw [if_neg (fun h => hpos.mp h hs), if_pos hs]
                      rfl
                    · rw [if_pos (hpos.mpr hs), if_neg hs]
                      rfl
                  have hdd : (if (cleanBuf false (List.replicate k ['.', '.'])).length > 0
                      then '/' :: (cleanBuf false (List.replicate k ['.', '.'])).reverse
                      else (cleanBuf false (List.replicate k ['.', '.'])).reverse).length + 2 =
                      (cleanBuf false (List.replicate (k + 1) ['.', '.'])).length := by
                    have hl := congrArg List.length hout
                    rw [List.length_reverse] at hl
                    simp only [List.length_cons] at hl
                    omega
                  rw [hout, hdd]
                  have := ih rest2 [] (k + 1) (fun c hc => absurd hc (List.not_mem_nil c))
                    (fun h => Bool.noConfusion h) hlen2
                  simpa using this
          · -- real path element
            rw [if_neg h3]
            have htw : List.takeWhile (fun b => decide (b ≠ '/')) (c :: rest1) =
                c :: List.takeWhile (fun b => decide (b ≠ '/')) rest1 := by
              simp [List.takeWhile_cons, h1]
            have hdw : List.dropWhile (fun b => decide (b ≠ '/')) (c :: rest1) =
                List.dropWhile (fun b => decide (b ≠ '/')) rest1 := by
              simp [List.dropWhile_cons, h1]
            rw [htw, hdw]
            set e := c :: rest1.takeWhile (fun b => decide (b ≠ '/')) with he
            set tail := rest1.dropWhile (fun b => decide (b ≠ '/')) with htail
            have hsplit : c :: rest1 = e ++ tail := by
              rw [he, htail, List.cons_append, List.takeWhile_append_dropWhile]
            have hnosep : '/' ∉ e := by
              intro h
              rcases List.mem_cons.mp h with h | h
              · exact h1 h.symm
              · exact takeWhile_notsep_no_sep rest1 h
            have hgood : GoodElem e := by
              refine ⟨List.cons_ne_nil _ _, ?_, ?_, hnosep⟩
              · intro h
                rw [he] at h
                simp only [List.cons.injEq] at h
                exact h2 ⟨h.1, takeWhile_notsep_eq_nil rest1 h.2⟩
              · intro h
                rw [he] at h
                simp only [List.cons.injEq] at h
                obtain ⟨hc, ht⟩ := h
                cases rest1 with
                | nil => simp at ht
                | cons c2 rest2 =>
                  by_cases hc2 : c2 = '/'
                  · subst hc2
                    simp at ht
                  · rw [List.takeWhile_cons_of_pos (by simpa using hc2)] at ht
                    simp only [List.cons.injEq] at ht
                    exact h3 ⟨hc, by simp [ht.1], by
                      simpa using takeWhile_notsep_eq_nil rest2 ht.2⟩
            have hfold := foldl_splitOn_elem r (G ++ List.replicate k ['.', '.']) e tail
              hnosep (dropWhile_notsep_head rest1)
            rw [hsplit, hfold, cleanStep_good _ _ _ hgood]
            have hne : ∀ c ∈ G ++ List.replicate k ['.', '.'], c ≠ [] := by
              intro c hc
              rcases List.mem_append.mp hc with h | h
              · exact (hG c h).1
              · rw [List.eq_of_mem_replicate h]
                decide
            have hcond := cleanBuf_eq_nil_iff r (G ++ List.replicate k ['.', '.']) hne
            have hout : e.reverse ++
                (if (r = true ∧ (cleanBuf r (G ++ List.replicate k ['.', '.'])).reverse.length ≠ 1) ∨
                    (r = false ∧
                      (cleanBuf r (G ++ List.replicate k ['.', '.'])).reverse.length ≠ 0) then
                  '/' :: (cleanBuf r (G ++ List.replicate k ['.', '.'])).reverse
                else (cleanBuf r (G ++ List.replicate k ['.', '.'])).reverse) =
                (cleanBuf r (e :: (G ++ List.replicate k ['.', '.']))).reverse := by
              rw [cleanBuf_push, List.reverse_append, List.length_reverse]
              by_cases hs : G ++ List.replicate k ['.', '.'] = []
              · rw [if_neg (fun h => hcond.mp h hs), if_pos hs]
              · rw [if_pos (hcond.mpr hs), if_neg hs]
                simp
            rw [hout]
            have hlen3 : tail.length ≤ fuel := by
              have : tail.length ≤ rest1.length := (List.dropWhile_sublist _).length_le
              omega
            have := ih tail (e :: G) k (by
              intro c hc
              rcases List.mem_cons.mp hc with h | h
              · rw [h]; exact hgood
              · exact hG c h) hk hlen3
            simpa using this

/-- The loop of `Clean` computes what its documentation promises. -/
theorem Clean_eq_cleanByElems (p : GoString) : filepath.Clean p = filepath.cleanByElems p := by
  unfold filepath.Clean filepath.cleanByElems
  by_cases hp : p = []
  · rw [if_pos hp, if_pos hp]
  · rw [if_neg hp, if_neg hp]
    simp only
    cases habs : filepath.IsAbs p with
    | true =>
      simp only [if_true]
      cases p with
      | nil => exact absurd rfl hp
      | cons a tail =>
        have ha : a = '/' := by
          simp [filepath.IsAbs, strings.HasPrefix, List.isPrefixOf] at habs
          exact habs.symm
        subst ha
        have hspec := cleanLoop_spec true ('/' :: tail).length tail [] 0
          (fun c hc => absurd hc (List.not_mem_nil c)) (fun _ => rfl) (by simp)
        simp only [List.replicate_zero, List.append_nil, cleanBuf_nil, if_true,
          List.reverse_cons, List.reverse_nil, List.nil_append, List.length_singleton] at hspec
        simp only [List.tail_cons]
        rw [hspec]
        have he : filepath.cleanElems true ('/' :: tail) =
            List.foldl (filepath.cleanStep true) [] (List.splitOn '/' tail) := by
          unfold filepath.cleanElems
          rw [splitOn_slash_cons, List.foldl_cons, cleanStep_skip _ _ [] (Or.inl rfl)]
        rw [he]
        simp [cleanBuf]
    | false =>
      simp only [Bool.false_eq_true, if_false]
      have hspec := cleanLoop_spec false p.length p [] 0
        (fun c hc => absurd hc (List.not_mem_nil c)) (fun h => Bool.noConfusion h)
        (Nat.le_refl _)
      simp only [List.replicate_zero, List.append_nil, cleanBuf_nil, Bool.false_eq_true,
        if_false, List.reverse_nil, List.length_nil] at hspec
      rw [hspec]
      have he : List.foldl (filepath.cleanStep false) [] (List.splitOn '/' p) =
          filepath.cleanElems false p := rfl
      rw [he]
      simp only [cleanBuf, Bool.false_eq_true, if_false, List.nil_append, List.length_reverse,
        List.reverse_reverse, List.length_eq_zero]

theorem Clean_eq_render (p : GoString) :
    filepath.Clean p =
      renderPath (filepath.IsAbs p) (filepath.cleanElems (filepath.IsAbs p) p).reverse := by
  rw [Clean_eq_cleanByElems, cleanByElems_eq_render]

theorem Clean_render (r : Bool) (xs : List GoString) (h : CleanList r xs) :
    filepath.Clean (renderPath r xs) = renderPath r xs := by
  rw [Clean_eq_render, IsAbs_render r xs h, cleanElems_render r xs h, List.reverse_reverse]

/-- `Clean` is idempotent. -/
theorem Clean_idempotent (p : GoString) :
    filepath.Clean (filepath.Clean p) = filepath.Clean p := by
  rw [Clean_eq_render p]
  exact Clean_render _ _ (CleanList_cleanElems _ p)

/-! ## Extraction: path safety and configuration -/

theorem validatePath_rejects_bad (name : GoString)
    (h : filepath.IsAbs name = true ∨
      strings.HasPrefix (filepath.Clean name) ['.', '.'] = true) :
    ∃ err, validatePath name = .error err := by
  unfold validatePath
  rcases h with h | h
  · exact ⟨.absolute, by simp [h]⟩
  · by_cases ha : filepath.IsAbs name = true
    · exact ⟨.absolute, by simp [ha]⟩
    · exact ⟨.traversal, by simp [ha, h]⟩

theorem unpackFile_invalid (opts : UnpackOptions) (now : Time) (fs : FS) (file : File)
    (err : PathError) (h : validatePath file.Name = .error err) :
    unpackFile opts now fs file = (some (.invalidPath file.Name err), fs) := by
  unfold unpackFile
  rw [h]

theorem unpackLoop_append (opts : UnpackOptions) (clock : Nat → Time) (pre rest : List File) :
    ∀ (i : Nat) (fs : FS),
      unpackLoop opts clock i (pre ++ rest) fs =
        match unpackLoop opts clock i pre fs with
        | (some e, fs1) => (some e, fs1)
        | (none, fs1) => unpackLoop opts clock (i + pre.length) rest fs1 := by
  induction pre with
  | nil => intro i fs; simp [unpackLoop]
  | cons f pre ih =>
    intro i fs
    simp only [List.cons_append, unpackLoop, List.length_cons]
    rcases hf : unpackFile opts (clock i) fs f with ⟨e, fs1⟩
    cases e with
    | some e => simp
    | none =>
      simp only [List.append_eq]
      rw [ih (i + 1) fs1]
      have : i + 1 + pre.length = i + (pre.length + 1) := by omega
      rw [this]

theorem unpackLoop_rejects (opts : UnpackOptions) (clock : Nat → Time)
    (pre post : List File) (bad : File) (i : Nat) (fs : FS)
    (h : filepath.IsAbs bad.Name = true ∨
      strings.HasPrefix (filepath.Clean bad.Name) ['.', '.'] = true) :
    (unpackLoop opts clock i (pre ++ bad :: post) fs).1 ≠ none ∧
    (unpackLoop opts clock i (pre ++ bad :: post) fs).2 =
      (unpackLoop opts clock i pre fs).2 := by
  obtain ⟨err, herr⟩ := validatePath_rejects_bad bad.Name h
  rw [unpackLoop_append]
  rcases hp : unpackLoop opts clock i pre fs with ⟨e, fs1⟩
  cases e with
  | some e => simp
  | none => simp [unpackLoop, unpackFile_invalid _ _ _ _ err herr]

/-- C1. For every archive, target directory and policy that does not set both
`Backup` and `NoOverwrite` (whatever `DryRun` is), an entry whose name is
absolute or whose cleaned name starts with `..` makes `Unpack` return an
error, and the filesystem it leaves is the one left by unpacking only the
entries before that entry: neither the entry nor any later one is written.
The names `../evil.txt` and `a/../../b` are such names. -/
theorem Unpack_unsafe_entry_not_written (clock : Nat → Time) (pre post : List File)
    (bad : File) (opts : UnpackOptions) (fs : FS)
    (hpolicy : ¬ (opts.Backup = true ∧ opts.NoOverwrite = true))
    (hbad : filepath.IsAbs bad.Name = true ∨
      strings.HasPrefix (filepath.Clean bad.Name) ['.', '.'] = true) :
    (Unpack clock ⟨pre ++ bad :: post⟩ opts fs).1 ≠ none ∧
    (Unpack clock ⟨pre ++ bad :: post⟩ opts fs).2 = (Unpack clock ⟨pre⟩ opts fs).2 ∧
    strings.HasPrefix (filepath.Clean "../evil.txt".toList) ['.', '.'] = true ∧
    strings.HasPrefix (filepath.Clean "a/../../b".toList) ['.', '.'] = true := by
  have hp : (opts.Backup && opts.NoOverwrite) = false := by
    cases hb : opts.Backup <;> cases hn : opts.NoOverwrite <;> simp_all
  refine ⟨?_, ?_, by decide, by decide⟩
  · simp only [Unpack, hp]
    exact (unpackLoop_rejects _ clock pre post bad 0 fs hbad).1
  · simp only [Unpack, hp]
    exact (unpackLoop_rejects _ clock pre post bad 0 fs hbad).2

theorem Unpack_unsafe_entry_not_written_witness :
    (Unpack fixedClock ⟨testArchive.Files ++ ⟨"a/../../b".toList, [1]⟩ :: [⟨"later.txt".toList, [2]⟩]⟩
        (optsFor "tmp".toList) emptyFS).1 ≠ none ∧
    (Unpack fixedClock ⟨testArchive.Files ++ ⟨"a/../../b".toList, [1]⟩ :: [⟨"later.txt".toList, [2]⟩]⟩
        (optsFor "tmp".toList) emptyFS).2 = (Unpack fixedClock ⟨testArchive.Files⟩ (optsFor "tmp".toList) emptyFS).2 ∧
    strings.HasPrefix (filepath.Clean "../evil.txt".toList) ['.', '.'] = true ∧
    strings.HasPrefix (filepath.Clean "a/../../b".toList) ['.', '.'] = true :=
  Unpack_unsafe_entry_not_written fixedClock testArchive.Files [⟨"later.txt".toList, [2]⟩]
    ⟨"a/../../b".toList, [1]⟩ (optsFor "tmp".toList) emptyFS (by decide) (Or.inr (by decide))

/-- C10. With both `Backup` and `NoOverwrite` set, `Unpack` returns the
configuration error and the filesystem is the one it was given, for every
archive, target directory, `DryRun` value and clock. -/
theorem Unpack_backup_and_noOverwrite_rejected (clock : Nat → Time) (archive : Archive)
    (archiveName dir : GoString) (dryRun : Bool) (fs : FS) :
    Unpack clock archive
      { Archive := archiveName, Dir := dir, Backup := true, DryRun := dryRun,
        NoOverwrite := true } fs = (some UnpackError.mutuallyExclusive, fs) := by
  simp [Unpack]

/-! ## The filter -/

theorem includeMatched_iff (glob : Glob) (path : GoString) (l : List GoString) :
    includeMatched glob path l = true ↔ ∃ p ∈ l, glob p path = true := by
  induction l with
  | nil => simp [includeMatched]
  | cons p rest ih =>
    by_cases h : glob p path = true <;> simp [includeMatched, h, ih]

theorem excludeHit_iff (glob : Glob) (path : GoString) (l : List GoString) :
    excludeHit glob path l = true ↔ ∃ p ∈ l, glob p path = true := by
  induction l with
  | nil => simp [excludeHit]
  | cons p rest ih =>
    by_cases h : glob p path = true <;> simp [excludeHit, h, ih]

theorem ignoreHit_iff (glob : Glob) (path : GoString) (l : List GoString) :
    ignoreHit glob path l = true ↔
      ∃ p ∈ l, p ≠ [] ∧ strings.HasPrefix p ['#'] = false ∧ glob p path = true := by
  induction l with
  | nil => simp [ignoreHit]
  | cons p rest ih =>
    by_cases h1 : p = []
    · simp [ignoreHit, h1, ih]
    · by_cases h2 : strings.HasPrefix p ['#'] = true
      · simp [ignoreHit, h1, h2, ih]
      · by_cases h3 : glob p path = true
        · simp [ignoreHit, h1, h2, h3]
        · simp [ignoreHit, h1, h2, h3, ih]

/-- C3. `ShouldInclude` admits a path exactly when the include list is empty
or one of its globs matches, no exclude glob matches, and no pattern of the
two ignore lists that is neither the empty line nor a `#` line matches; so a
path that an include glob and an exclude glob both match is not admitted. -/
theorem ShouldInclude_iff (glob : Glob) (f : Filter) (path : GoString) :
    (Filter.ShouldInclude glob f path = true ↔
      (f.includes = [] ∨ ∃ p ∈ f.includes, glob p path = true) ∧
      (∀ p ∈ f.excludes, glob p path = false) ∧
      (∀ p ∈ f.gitignore, p ≠ [] → strings.HasPrefix p ['#'] = false →
        glob p path = false) ∧
      (∀ p ∈ f.txtarignore, p ≠ [] → strings.HasPrefix p ['#'] = false →
        glob p path = false)) ∧
    (((∃ p ∈ f.includes, glob p path = true) ∧ (∃ p ∈ f.excludes, glob p path = true)) →
      Filter.ShouldInclude glob f path = false) := by
  have key : Filter.ShouldInclude glob f path = true ↔
      (f.includes = [] ∨ ∃ p ∈ f.includes, glob p path = true) ∧
      (∀ p ∈ f.excludes, glob p path = false) ∧
      (∀ p ∈ f.gitignore, p ≠ [] → strings.HasPrefix p ['#'] = false →
        glob p path = false) ∧
      (∀ p ∈ f.txtarignore, p ≠ [] → strings.HasPrefix p ['#'] = false →
        glob p path = false) := by
    have hI := includeMatched_iff glob path f.includes
    have hE := excludeHit_iff glob path f.excludes
    have hG := ignoreHit_iff glob path f.gitignore
    have hT := ignoreHit_iff glob path f.txtarignore
    have hlen : f.includes.length > 0 ↔ f.includes ≠ [] := by
      cases f.includes <;> simp
    unfold Filter.ShouldInclude
    constructor
    · intro h
      by_cases c1 : f.includes.length > 0 ∧ includeMatched glob path f.includes = false
      · simp [c1] at h
      · by_cases c2 : excludeHit glob path f.excludes = true
        · simp [c1, c2] at h
        · by_cases c3 : ignoreHit glob path f.gitignore = true
          · simp [c1, c2, c3] at h
          · by_cases c4 : ignoreHit glob path f.txtarignore = true
            · simp [c1, c2, c3, c4] at h
            · refine ⟨?_, ?_, ?_, ?_⟩
              · by_cases he : f.includes = []
                · exact Or.inl he
                · right
                  apply hI.mp
                  by_contra hn
                  exact c1 ⟨hlen.mpr he, by simpa using hn⟩
              · intro p hp
                by_contra hn
                exact c2 (hE.mpr ⟨p, hp, by simpa using hn⟩)
              · intro p hp h1 h2
                by_contra hn
                exact c3 (hG.mpr ⟨p, hp, h1, h2, by simpa using hn⟩)
              · intro p hp h1 h2
                by_contra hn
                exact c4 (hT.mpr ⟨p, hp, h1, h2, by simpa using hn⟩)
    · rintro ⟨a1, a2, a3, a4⟩
      have c1 : ¬ (f.includes.length > 0 ∧ includeMatched glob path f.includes = false) := by
        rintro ⟨hl, hm⟩
        rcases a1 with a1 | a1
        · exact (hlen.mp hl) a1
        · rw [hI.mpr a1] at hm; exact Bool.noConfusion hm
      have c2 : ¬ excludeHit glob path f.excludes = true := by
        intro h
        obtain ⟨p, hp, hg⟩ := hE.mp h
        rw [a2 p hp] at hg; exact Bool.noConfusion hg
      have c3 : ¬ ignoreHit glob path f.gitignore = true := by
        intro h
        obtain ⟨p, hp, h1, h2, hg⟩ := hG.mp h
        rw [a3 p hp h1 h2] at hg; exact Bool.noConfusion hg
      have c4 : ¬ ignoreHit glob path f.txtarignore = true := by
        intro h
        obtain ⟨p, hp, h1, h2, hg⟩ := hT.mp h
        rw [a4 p hp h1 h2] at hg; exact Bool.noConfusion hg
      simp [c1, c2, c3, c4]
  refine ⟨key, ?_⟩
  rintro ⟨_, p, hp, hg⟩
  by_contra hn
  have ht : Filter.ShouldInclude glob f path = true := by simpa using hn
  have := (key.mp ht).2.1 p hp
  rw [this] at hg
  exact Bool.noConfusion hg

/-! ## Go maps -/

theorem GoMap.get?_eq_none {V : Type} (m : GoMap V) (k : GoString) :
    m.get? k = none ↔ k ∉ m.map Prod.fst := by
  induction m with
  | nil => simp [GoMap.get?]
  | cons e rest ih =>
    obtain ⟨k', v⟩ := e
    by_cases h : k' = k
    · subst h
      simp only [GoMap.get?, if_true, List.map_cons, List.mem_cons, true_or, not_true_eq_false,
        iff_false]
      exact fun hh => Option.noConfusion hh
    · have hne : ¬ (k = k') := fun h' => h h'.symm
      simp only [GoMap.get?, h, if_false, List.map_cons, List.mem_cons, hne, false_or]
      exact ih

theorem GoMap.get?_eq_some {V : Type} (m : GoMap V) (hm : (m.map Prod.fst).Nodup)
    (k : GoString) (v : V) : m.get? k = some v ↔ (k, v) ∈ m := by
  induction m with
  | nil => simp [GoMap.get?]
  | cons e rest ih =>
    obtain ⟨k', v'⟩ := e
    simp only [List.map_cons, List.nodup_cons] at hm
    by_cases h : k' = k
    · subst h
      have hnot : (k', v) ∉ rest := fun hin => hm.1 (List.mem_map.mpr ⟨(k', v), hin, rfl⟩)
      constructor
      · intro hh
        simp only [GoMap.get?, if_true, Option.some.injEq] at hh
        subst hh
        exact List.mem_cons_self _ _
      · intro hh
        rcases List.mem_cons.mp hh with h1 | h1
        · cases h1
          simp [GoMap.get?]
        · exact absurd h1 hnot
    · have hne : ¬ (k = k') := fun h' => h h'.symm
      constructor
      · intro hh
        simp only [GoMap.get?, h, if_false] at hh
        exact List.mem_cons_of_mem _ ((ih hm.2).mp hh)
      · intro hh
        rcases List.mem_cons.mp hh with h1 | h1
        · cases h1
          exact absurd rfl h
        · simp only [GoMap.get?, h, if_false]
          exact (ih hm.2).mpr h1

theorem GoMap.set_of_not_mem {V : Type} (m : GoMap V) (k : GoString) (v : V)
    (h : k ∉ m.map Prod.fst) : m.set k v = m ++ [(k, v)] := by
  induction m with
  | nil => simp [GoMap.set]
  | cons e rest ih =>
    obtain ⟨k', v'⟩ := e
    simp only [List.map_cons, List.mem_cons, not_or] at h
    have hne : ¬ (k' = k) := fun h' => h.1 h'.symm
    simp [GoMap.set, hne, ih h.2]

theorem archiveMap_foldl_of_nodup (files : List File) :
    ∀ (m : GoMap Bytes), (m.map Prod.fst ++ files.map File.Name).Nodup →
      files.foldl (fun m f => m.set f.Name f.Data) m =
        m ++ files.map (fun f => (f.Name, f.Data)) := by
  induction files with
  | nil => intro m _; simp
  | cons f rest ih =>
    intro m hm
    have hf : f.Name ∉ m.map Prod.fst := by
      intro hin
      have := List.nodup_append.mp hm
      exact this.2.2 hin (by simp)
    simp only [List.foldl_cons, List.map_cons]
    rw [GoMap.set_of_not_mem m f.Name f.Data hf, ih]
    · simp
    · have hperm : (List.map Prod.fst (m ++ [(f.Name, f.Data)]) ++ List.map File.Name rest).Perm
          (List.map Prod.fst m ++ List.map File.Name (f :: rest)) := by
        simp
      exact hperm.nodup_iff.mpr hm

theorem archiveMap_of_nodup (a : Archive) (h : (a.Files.map File.Name).Nodup) :
    archiveMap a = a.Files.map (fun f => (f.Name, f.Data)) := by
  unfold archiveMap
  rw [archiveMap_foldl_of_nodup a.Files [] (by simpa using h)]
  simp

/-! ## The comparison -/

theorem mem_archiveMap_of_nodup (a : Archive) (h : (a.Files.map File.Name).Nodup)
    (e : GoString × Bytes) :
    e ∈ archiveMap a ↔ ∃ f ∈ a.Files, e = (f.Name, f.Data) := by
  rw [archiveMap_of_nodup a h, List.mem_map]
  constructor
  · rintro ⟨f, hf, rfl⟩; exact ⟨f, hf, rfl⟩
  · rintro ⟨f, hf, rfl⟩; exact ⟨f, hf, rfl⟩

theorem keys_archiveMap_of_nodup (a : Archive) (h : (a.Files.map File.Name).Nodup) :
    (archiveMap a).map Prod.fst = a.Files.map File.Name := by
  rw [archiveMap_of_nodup a h, List.map_map]
  rfl

theorem compareLeft_append (rm : GoMap Bytes) (acc : List FileDiff) (e : GoString × Bytes) :
    compareLeft rm acc e = acc ++ compareLeft rm [] e := by
  unfold compareLeft
  cases rm.get? e.1 with
  | none => simp
  | some rd => by_cases h : e.2 = rd <;> simp [h]

theorem compareRight_append (lm : GoMap Bytes) (acc : List FileDiff) (e : GoString × Bytes) :
    compareRight lm acc e = acc ++ compareRight lm [] e := by
  unfold compareRight
  cases lm.get? e.1 <;> simp

theorem foldl_compareLeft (rm : GoMap Bytes) (l : List (GoString × Bytes)) :
    ∀ acc, l.foldl (compareLeft rm) acc = acc ++ l.flatMap (compareLeft rm []) := by
  induction l with
  | nil => intro acc; simp
  | cons e rest ih =>
    intro acc
    rw [List.foldl_cons, ih, compareLeft_append]
    simp [List.flatMap_cons]

theorem foldl_compareRight (lm : GoMap Bytes) (l : List (GoString × Bytes)) :
    ∀ acc, l.foldl (compareRight lm) acc = acc ++ l.flatMap (compareRight lm []) := by
  induction l with
  | nil => intro acc; simp
  | cons e rest ih =>
    intro acc
    rw [List.foldl_cons, ih, compareRight_append]
    simp [List.flatMap_cons]

theorem compareArchives_eq (ordL ordR : RangeOrder) (left right : Archive) :
    compareArchives ordL ordR left right =
      (ordL.order (archiveMap left)).flatMap (compareLeft (archiveMap right) []) ++
      (ordR.order (archiveMap right)).flatMap (compareRight (archiveMap left) []) := by
  unfold compareArchives
  simp only [foldl_compareLeft, foldl_compareRight, List.nil_append]

theorem mem_compareLeft (rm : GoMap Bytes) (hrm : (rm.map Prod.fst).Nodup)
    (e : GoString × Bytes) (d : FileDiff) :
    d ∈ compareLeft rm [] e ↔
      (∃ rd, (e.1, rd) ∈ rm ∧ e.2 ≠ rd ∧ d = ⟨e.1, "modified".toList, e.2, rd⟩) ∨
      (e.1 ∉ rm.map Prod.fst ∧ d = ⟨e.1, "deleted".toList, e.2, []⟩) := by
  unfold compareLeft
  cases hg : rm.get? e.1 with
  | none =>
    have hn := (GoMap.get?_eq_none rm e.1).mp hg
    constructor
    · intro h
      simp only [List.nil_append, List.mem_singleton] at h
      exact Or.inr ⟨hn, h⟩
    · rintro (⟨rd, hin, _, _⟩ | ⟨_, h⟩)
      · exact absurd (List.mem_map.mpr ⟨(e.1, rd), hin, rfl⟩) hn
      · simp [h]
  | some rd =>
    have hs := (GoMap.get?_eq_some rm hrm e.1 rd).mp hg
    constructor
    · intro h
      by_cases hd : e.2 = rd
      · simp [hd] at h
      · simp only [hd, ne_eq, not_false_eq_true, if_true, List.nil_append,
          List.mem_singleton] at h
        exact Or.inl ⟨rd, hs, hd, h⟩
    · rintro (⟨rd', hin, hne, h⟩ | ⟨hn, _⟩)
      · have hs' := (GoMap.get?_eq_some rm hrm e.1 rd').mpr hin
        rw [hg] at hs'
        cases hs'
        simp [hne, h]
      · exact absurd (List.mem_map.mpr ⟨(e.1, rd), hs, rfl⟩) hn

theorem mem_compareRight (lm : GoMap Bytes) (e : GoString × Bytes) (d : FileDiff) :
    d ∈ compareRight lm [] e ↔
      (e.1 ∉ lm.map Prod.fst ∧ d = ⟨e.1, "added".toList, [], e.2⟩) := by
  unfold compareRight
  cases hg : lm.get? e.1 with
  | none =>
    have hn := (GoMap.get?_eq_none lm e.1).mp hg
    constructor
    · intro h
      simp only [List.nil_append, List.mem_singleton] at h
      exact ⟨hn, h⟩
    · rintro ⟨_, h⟩
      simp only [List.nil_append, List.mem_singleton]
      exact h
  | some ld =>
    constructor
    · intro h
      exact absurd h (List.not_mem_nil d)
    · rintro ⟨h, _⟩
      rw [(GoMap.get?_eq_none lm e.1).mpr h] at hg
      exact Option.noConfusion hg

theorem nodup_paths_flatMap (g : GoString × Bytes → List FileDiff)
    (hpath : ∀ e d, d ∈ g e → d.Path = e.1) (hlen : ∀ e, (g e).length ≤ 1)
    (l : List (GoString × Bytes)) (hl : (l.map Prod.fst).Nodup) :
    ((l.flatMap g).map FileDiff.Path).Nodup := by
  induction l with
  | nil => simp
  | cons e rest ih =>
    simp only [List.map_cons, List.nodup_cons] at hl
    rw [List.flatMap_cons, List.map_append, List.nodup_append]
    refine ⟨?_, ih hl.2, ?_⟩
    · have := hlen e
      match hge : g e with
      | [] => simp
      | [d] => simp
      | _ :: _ :: _ => rw [hge] at this; simp at this
    · intro p hp1 hp2
      obtain ⟨d1, hd1, rfl⟩ := List.mem_map.mp hp1
      obtain ⟨d2, hd2, hpe⟩ := List.mem_map.mp hp2
      obtain ⟨e2, he2, hd2'⟩ := List.mem_flatMap.mp hd2
      have h1 := hpath e d1 hd1
      have h2 := hpath e2 d2 hd2'
      apply hl.1
      rw [← h1, ← hpe, h2]
      exact List.mem_map.mpr ⟨e2, he2, rfl⟩

theorem perm_pair_cases {α : Type} (l : List α) (x y : α) (h : l.Perm [x, y]) :
    l = [x, y] ∨ l = [y, x] := by
  have hlen : l.length = 2 := by simpa using h.length_eq
  obtain ⟨u, v, rfl⟩ := List.length_eq_two.mp hlen
  have hu : u ∈ [x, y] := h.mem_iff.mp (by simp)
  have hv : v ∈ [x, y] := h.mem_iff.mp (by simp)
  have hx : x ∈ [u, v] := h.mem_iff.mpr (by simp)
  have hy : y ∈ [u, v] := h.mem_iff.mpr (by simp)
  simp only [List.mem_cons, List.mem_singleton, List.not_mem_nil, or_false] at hu hv hx hy
  rcases hu with rfl | rfl
  · rcases hv with rfl | rfl
    · rcases hy with rfl | rfl <;> exact Or.inl rfl
    · exact Or.inl rfl
  · rcases hv with rfl | rfl
    · exact Or.inr rfl
    · rcases hx with rfl | rfl <;> exact Or.inl rfl

theorem compareArchives_example (ordL ordR : RangeOrder) :
    compareArchives ordL ordR exampleLeft exampleRight =
      [⟨['b'], "deleted".toList, [50], []⟩, ⟨['c'], "added".toList, [], [51]⟩] := by
  rw [compareArchives_eq]
  have hL : archiveMap exampleLeft = [(['a'], [49]), (['b'], [50])] := by decide
  have hR : archiveMap exampleRight = [(['a'], [49]), (['c'], [51])] := by decide
  have pL := ordL.perm (archiveMap exampleLeft)
  have pR := ordR.perm (archiveMap exampleRight)
  rw [hL] at pL ⊢
  rw [hR] at pR ⊢
  rcases perm_pair_cases _ _ _ pL with h1 | h1 <;>
    rcases perm_pair_cases _ _ _ pR with h2 | h2 <;>
    rw [h1, h2] <;> decide

/-- C4. For archives whose entry names are unique, `compareArchives` (whatever
the order of its two map iterations) returns exactly these records: for a
name in both archives with different bytes the `modified` record with the two
contents, for a name only in `left` its `deleted` record, for a name only in
`right` its `added` record.  No two records share a path, and a name in both
archives with identical bytes has no record.  For `a:"1", b:"2"` against
`a:"1", c:"3"` the result is the `deleted` record of `b` followed by the
`added` record of `c`. -/
theorem compareArchives_classifies (ordL ordR : RangeOrder) (left right : Archive)
    (hl : (left.Files.map File.Name).Nodup) (hr : (right.Files.map File.Name).Nodup) :
    (∀ d : FileDiff, d ∈ compareArchives ordL ordR left right ↔
      ((∃ l ∈ left.Files, ∃ r ∈ right.Files, l.Name = r.Name ∧ l.Data ≠ r.Data ∧
          d = ⟨l.Name, "modified".toList, l.Data, r.Data⟩) ∨
       (∃ l ∈ left.Files, (∀ r ∈ right.Files, r.Name ≠ l.Name) ∧
          d = ⟨l.Name, "deleted".toList, l.Data, []⟩) ∨
       (∃ r ∈ right.Files, (∀ l ∈ left.Files, l.Name ≠ r.Name) ∧
          d = ⟨r.Name, "added".toList, [], r.Data⟩))) ∧
    ((compareArchives ordL ordR left right).map FileDiff.Path).Nodup ∧
    (∀ l ∈ left.Files, ∀ r ∈ right.Files, l.Name = r.Name → l.Data = r.Data →
      l.Name ∉ (compareArchives ordL ordR left right).map FileDiff.Path) ∧
    compareArchives ordL ordR exampleLeft exampleRight =
      [⟨['b'], "deleted".toList, [50], []⟩, ⟨['c'], "added".toList, [], [51]⟩] := by
  have hkl := keys_archiveMap_of_nodup left hl
  have hkr := keys_archiveMap_of_nodup right hr
  have hnl : ((archiveMap left).map Prod.fst).Nodup := by rw [hkl]; exact hl
  have hnr : ((archiveMap right).map Prod.fst).Nodup := by rw [hkr]; exact hr
  have hmem : ∀ d : FileDiff, d ∈ compareArchives ordL ordR left right ↔
      ((∃ l ∈ left.Files, ∃ r ∈ right.Files, l.Name = r.Name ∧ l.Data ≠ r.Data ∧
          d = ⟨l.Name, "modified".toList, l.Data, r.Data⟩) ∨
       (∃ l ∈ left.Files, (∀ r ∈ right.Files, r.Name ≠ l.Name) ∧
          d = ⟨l.Name, "deleted".toList, l.Data, []⟩) ∨
       (∃ r ∈ right.Files, (∀ l ∈ left.Files, l.Name ≠ r.Name) ∧
          d = ⟨r.Name, "added".toList, [], r.Data⟩)) := by
    intro d
    rw [compareArchives_eq, List.mem_append, List.mem_flatMap, List.mem_flatMap]
    constructor
    · rintro (⟨e, he, hd⟩ | ⟨e, he, hd⟩)
      · have he' := (ordL.perm _).mem_iff.mp he
        obtain ⟨l, hlin, rfl⟩ := (mem_archiveMap_of_nodup left hl e).mp he'
        rcases (mem_compareLeft _ hnr _ d).mp hd with ⟨rd, hin, hne, hd'⟩ | ⟨hnot, hd'⟩
        · obtain ⟨r, hrin, hre⟩ := (mem_archiveMap_of_nodup right hr _).mp hin
          simp only [Prod.mk.injEq] at hre
          refine Or.inl ⟨l, hlin, r, hrin, hre.1, ?_, ?_⟩
          · rw [← hre.2]; exact hne
          · rw [← hre.2]; exact hd'
        · refine Or.inr (Or.inl ⟨l, hlin, ?_, hd'⟩)
          intro r hrin hrn
          apply hnot
          rw [hkr]
          exact List.mem_map.mpr ⟨r, hrin, hrn⟩
      · have he' := (ordR.perm _).mem_iff.mp he
        obtain ⟨r, hrin, rfl⟩ := (mem_archiveMap_of_nodup right hr e).mp he'
        obtain ⟨hnot, hd'⟩ := (mem_compareRight _ _ d).mp hd
        refine Or.inr (Or.inr ⟨r, hrin, ?_, hd'⟩)
        intro l hlin hln
        apply hnot
        rw [hkl]
        exact List.mem_map.mpr ⟨l, hlin, hln⟩
    · rintro (⟨l, hlin, r, hrin, hname, hne, hd⟩ | ⟨l, hlin, hnot, hd⟩ | ⟨r, hrin, hnot, hd⟩)
      · left
        refine ⟨(l.Name, l.Data), (ordL.perm _).mem_iff.mpr
          ((mem_archiveMap_of_nodup left hl _).mpr ⟨l, hlin, rfl⟩), ?_⟩
        refine (mem_compareLeft _ hnr _ d).mpr (Or.inl ⟨r.Data, ?_, hne, hd⟩)
        exact (mem_archiveMap_of_nodup right hr _).mpr ⟨r, hrin, by simp [hname]⟩
      · left
        refine ⟨(l.Name, l.Data), (ordL.perm _).mem_iff.mpr
          ((mem_archiveMap_of_nodup left hl _).mpr ⟨l, hlin, rfl⟩), ?_⟩
        refine (mem_compareLeft _ hnr _ d).mpr (Or.inr ⟨?_, hd⟩)
        rw [hkr]
        intro hin
        obtain ⟨r, hrin, hrn⟩ := List.mem_map.mp hin
        exact hnot r hrin hrn
      · right
        refine ⟨(r.Name, r.Data), (ordR.perm _).mem_iff.mpr
          ((mem_archiveMap_of_nodup right hr _).mpr ⟨r, hrin, rfl⟩), ?_⟩
        refine (mem_compareRight _ _ d).mpr ⟨?_, hd⟩
        rw [hkl]
        intro hin
        obtain ⟨l, hlin, hln⟩ := List.mem_map.mp hin
        exact hnot l hlin hln
  have hnodup : ((compareArchives ordL ordR left right).map FileDiff.Path).Nodup := by
    rw [compareArchives_eq, List.map_append, List.nodup_append]
    refine ⟨?_, ?_, ?_⟩
    · apply nodup_paths_flatMap
      · intro e d hd
        rcases (mem_compareLeft _ hnr _ d).mp hd with ⟨_, _, _, h⟩ | ⟨_, h⟩ <;> rw [h]
      · intro e
        unfold compareLeft
        cases (archiveMap right).get? e.1 with
        | none => simp
        | some rd => by_cases h : e.2 = rd <;> simp [h]
      · exact ((ordL.perm _).map Prod.fst).nodup_iff.mpr hnl
    · apply nodup_paths_flatMap
      · intro e d hd
        rw [((mem_compareRight _ _ d).mp hd).2]
      · intro e
        unfold compareRight
        cases (archiveMap left).get? e.1 <;> simp
      · exact ((ordR.perm _).map Prod.fst).nodup_iff.mpr hnr
    · intro p hp1 hp2
      obtain ⟨d1, hd1, rfl⟩ := List.mem_map.mp hp1
      obtain ⟨d2, hd2, hpe⟩ := List.mem_map.mp hp2
      obtain ⟨e1, he1, hd1'⟩ := List.mem_flatMap.mp hd1
      obtain ⟨e2, he2, hd2'⟩ := List.mem_flatMap.mp hd2
      obtain ⟨hnot, h2⟩ := (mem_compareRight _ _ d2).mp hd2'
      have hp1' : d1.Path = e1.1 := by
        rcases (mem_compareLeft _ hnr _ d1).mp hd1' with ⟨_, _, _, h⟩ | ⟨_, h⟩ <;> rw [h]
      apply hnot
      have : e2.1 = e1.1 := by rw [← hp1', ← hpe, h2]
      rw [this]
      exact List.mem_map.mpr ⟨e1, (ordL.perm _).mem_iff.mp he1, rfl⟩
  refine ⟨hmem, hnodup, ?_, compareArchives_example ordL ordR⟩
  intro l hlin r hrin hname hdata hin
  obtain ⟨d, hd, hpath⟩ := List.mem_map.mp hin
  have huniqL : ∀ l' ∈ left.Files, l'.Name = l.Name → l' = l := by
    intro l' hl' hn
    exact List.inj_on_of_nodup_map hl hl' hlin hn
  have huniqR : ∀ r' ∈ right.Files, r'.Name = r.Name → r' = r := by
    intro r' hr' hn
    exact List.inj_on_of_nodup_map hr hr' hrin hn
  rcases (hmem d).mp hd with ⟨l', hl', r', hr', hn', hne, hd'⟩ | ⟨l', hl', hnot, hd'⟩ |
      ⟨r', hr', hnot, hd'⟩
  · rw [hd'] at hpath
    simp only at hpath
    have e1 := huniqL l' hl' hpath
    have e2 := huniqR r' hr' (by rw [← hn', hpath, hname])
    subst e1; subst e2
    exact hne hdata
  · rw [hd'] at hpath
    simp only at hpath
    exact hnot r hrin (by rw [hpath, hname])
  · rw [hd'] at hpath
    simp only at hpath
    exact hnot l hlin (by rw [hpath])

theorem compareArchives_classifies_witness :
    (∀ d : FileDiff, d ∈ compareArchives RangeOrder.reversed RangeOrder.insertion
        exampleLeft exampleRight ↔
      ((∃ l ∈ exampleLeft.Files, ∃ r ∈ exampleRight.Files, l.Name = r.Name ∧
          l.Data ≠ r.Data ∧ d = ⟨l.Name, "modified".toList, l.Data, r.Data⟩) ∨
       (∃ l ∈ exampleLeft.Files, (∀ r ∈ exampleRight.Files, r.Name ≠ l.Name) ∧
          d = ⟨l.Name, "deleted".toList, l.Data, []⟩) ∨
       (∃ r ∈ exampleRight.Files, (∀ l ∈ exampleLeft.Files, l.Name ≠ r.Name) ∧
          d = ⟨r.Name, "added".toList, [], r.Data⟩))) ∧
    ((compareArchives RangeOrder.reversed RangeOrder.insertion
        exampleLeft exampleRight).map FileDiff.Path).Nodup ∧
    (∀ l ∈ exampleLeft.Files, ∀ r ∈ exampleRight.Files, l.Name = r.Name → l.Data = r.Data →
      l.Name ∉ (compareArchives RangeOrder.reversed RangeOrder.insertion
        exampleLeft exampleRight).map FileDiff.Path) ∧
    compareArchives RangeOrder.reversed RangeOrder.insertion exampleLeft exampleRight =
      [⟨['b'], "deleted".toList, [50], []⟩, ⟨['c'], "added".toList, [], [51]⟩] :=
  compareArchives_classifies RangeOrder.reversed RangeOrder.insertion exampleLeft exampleRight
    (by decide) (by decide)

/-! ## The last-N-revisions selection -/

/-- C5 (the code departs from the claim). In the history `readdedLog` the file
`f.txt` is deleted by the older of the last two commits and added again by the
head commit, whose tree holds it.  The fold of `packSince` visits the newer
pair first and the older pair overwrites its flag, so the flag ends `false`
and `packSince` with N = 2 selects nothing, for every glob matcher and every
iteration order. -/
theorem packSince_drops_readded_path (glob : Glob) (ord : RangeOrder) :
    (readdedLog.head?.map Commit.patch = some [⟨none, some "f.txt".toList⟩]) ∧
    (readdedLog.head?.bind (fun c => c.tree.get? "f.txt".toList) = some [50]) ∧
    (changedFiles (readdedLog.take 3) 2).get? "f.txt".toList = some false ∧
    packSince glob ord readdedLog 2 emptyFilter = some ([], []) := by
  refine ⟨by decide, by decide, by decide, ?_⟩
  have hc : changedFiles (readdedLog.take 3) 2 = [("f.txt".toList, false)] := by decide
  have hp := ord.perm (changedFiles (readdedLog.take 3) 2)
  rw [hc] at hp
  have ho := List.perm_singleton.mp hp
  unfold packSince
  simp only [show (2 + 1 : Nat) = 3 from rfl]
  rw [hc, ho]
  simp [readdedLog, selectChanged]

/-! ## Extraction: evaluations -/

/-- C9 (the code departs from the claim). The directory holds `file.txt`
(content 2), `file.txt.bak` (content 0) and, from an earlier run in the same
second, `file.txt.bak.20261104T120000` (content 1).  `Unpack` with `Backup`
finds `file.txt.bak` occupied, takes the time-stamped name without looking
whether it is occupied too, and the rename replaces the earlier backup: the
run succeeds and the time-stamped path holds content 2 afterwards. -/
theorem Unpack_backup_clobbers_same_second :
    backupFS ("file.txt.bak.".toList ++ fixedStamp) = some (Node.file [1]) ∧
    (Unpack fixedClock ⟨[⟨"file.txt".toList, [3]⟩]⟩ (backupOptsFor ['.']) backupFS).1 = none ∧
    (Unpack fixedClock ⟨[⟨"file.txt".toList, [3]⟩]⟩ (backupOptsFor ['.']) backupFS).2
      ("file.txt.bak.".toList ++ fixedStamp) = some (Node.file [2]) ∧
    (Unpack fixedClock ⟨[⟨"file.txt".toList, [3]⟩]⟩ (backupOptsFor ['.']) backupFS).2
      "file.txt.bak".toList = some (Node.file [0]) ∧
    (Unpack fixedClock ⟨[⟨"file.txt".toList, [3]⟩]⟩ (backupOptsFor ['.']) backupFS).2
      "file.txt".toList = some (Node.file [3]) := by
  decide

/-- C6 (the code departs from the claim). A source directory whose only file
is named `..a` packs into the one-entry archive `..a`; unpacking that archive
into the empty directory `out` with the default policy fails with "path
traversal detected" and writes nothing, although `out/..a` lies inside `out`. -/
theorem Pack_Unpack_rejects_dotdot_name (glob : Glob) :
    Pack glob (plainEnv dotDotNameTree) (plainPackOpts ['.']) =
      .ok (some ⟨[⟨"..a".toList, [1]⟩]⟩, ["..a".toList]) ∧
    Unpack fixedClock ⟨[⟨"..a".toList, [1]⟩]⟩ (optsFor "out".toList) outFS =
      (some (UnpackError.invalidPath "..a".toList PathError.traversal), outFS) ∧
    filepath.Join ["out".toList, "..a".toList] = "out/..a".toList := by
  refine ⟨?_, by rfl, by decide⟩
  simp [Pack, NewFilter, plainEnv, plainPackOpts, packDir, dotDotNameTree, walkFiles,
    walkEntries, relChild, packDirVisit, Filter.ShouldInclude, excludeHit, ignoreHit,
    packEntry, GoMap.set, GoMap.get?, filepath.ToSlash]

/-- C8, as stated, fails: the one entry `../x` unpacked into `sub` has the
target `x`, which exists with content 7 while `x.bak` does not exist, and
`Unpack` with `Backup` returns the path error and leaves no backup. -/
theorem Unpack_backup_unsafe_name_fails :
    filepath.Join ["sub".toList, "../x".toList] = ['x'] ∧
    siblingFS ['x'] = some (Node.file [7]) ∧
    siblingFS (['x'] ++ ".bak".toList) = none ∧
    Unpack fixedClock ⟨[⟨"../x".toList, [9]⟩]⟩ (backupOptsFor "sub".toList) siblingFS =
      (some (UnpackError.invalidPath "../x".toList PathError.traversal), siblingFS) := by
  refine ⟨by decide, by decide, by decide, by rfl⟩

/-! ## `os.MkdirAll` -/

theorem mkdirAllParent_length (path : GoString) (h : os.mkdirAllParent path ≠ []) :
    (os.mkdirAllParent path).length < path.length := by
  unfold os.mkdirAllParent at h ⊢
  set X := (path.reverse.dropWhile (fun c => decide (c = '/'))).dropWhile
    (fun c => decide (c ≠ '/')) with hX
  have h1 : X.length ≤ path.length := by
    calc X.length ≤ (path.reverse.dropWhile (fun c => decide (c = '/'))).length :=
          (List.dropWhile_sublist _).length_le
      _ ≤ path.reverse.length := (List.dropWhile_sublist _).length_le
      _ = path.length := List.length_reverse path
  have h2 : X.drop 1 ≠ [] := by
    intro h0
    apply h
    rw [h0]
    rfl
  have h3 : 0 < (X.drop 1).length := List.length_pos.mpr h2
  rw [List.length_reverse]
  rw [List.length_drop] at h3 ⊢
  omega

/-- The recursion of `MkdirAll` ends within the bound: with fuel beyond the
length of the path the result is never the out-of-fuel value. -/
theorem MkdirAllFuel_isSome : ∀ (n : Nat) (fs : FS) (path : GoString),
    path.length < n → (os.MkdirAllFuel n fs path).isSome = true := by
  intro n
  induction n with
  | zero => intro fs path h; omega
  | succ n ih =>
    intro fs path h
    unfold os.MkdirAllFuel
    cases hp : fs path with
    | some node => cases node <;> simp
    | none =>
      simp only
      by_cases hpar : os.mkdirAllParent path ≠ []
      · have hl := mkdirAllParent_length path hpar
        have := ih fs (os.mkdirAllParent path) (by omega)
        rw [if_pos hpar]
        obtain ⟨r, hr⟩ := Option.isSome_iff_exists.mp this
        rw [hr]
        obtain ⟨e, fs1⟩ := r
        cases e with
        | some e => simp
        | none =>
          simp only
          cases os.Mkdir fs1 path with
          | ok fs2 => simp
          | error e =>
            simp only
            cases hq : fs1 path with
            | none => simp
            | some node => cases node <;> simp
      · rw [if_neg hpar]
        simp only
        cases os.Mkdir fs path with
        | ok fs2 => simp
        | error e =>
          simp only
          rw [hp]
          simp

theorem Mkdir_ok (fs fs2 : FS) (path : GoString) (h : os.Mkdir fs path = .ok fs2) :
    fs path = none ∧ fs2 = fs.set path Node.dir := by
  unfold os.Mkdir at h
  cases hp : fs path with
  | some node => rw [hp] at h; simp at h
  | none =>
    rw [hp] at h
    simp only at h
    cases hc : os.parentCheck fs path with
    | some e => rw [hc] at h; simp at h
    | none =>
      rw [hc] at h
      simp only [Except.ok.injEq] at h
      exact ⟨rfl, h.symm⟩

/-- What `MkdirAll` leaves behind: whatever existed is unchanged, and after a
success the path is a directory. -/
theorem MkdirAllFuel_frame : ∀ (n : Nat) (fs : FS) (path : GoString)
    (r : Option Errno × FS), os.MkdirAllFuel n fs path = some r →
    (∀ q x, fs q = some x → r.2 q = some x) ∧ (r.1 = none → r.2 path = some Node.dir) := by
  intro n
  induction n with
  | zero => intro fs path r h; simp [os.MkdirAllFuel] at h
  | succ n ih =>
    intro fs path r h
    unfold os.MkdirAllFuel at h
    cases hp : fs path with
    | some node =>
      rw [hp] at h
      cases node with
      | dir =>
        simp only [Option.some.injEq] at h
        subst h
        exact ⟨fun q x hq => hq, fun _ => hp⟩
      | file d =>
        simp only [Option.some.injEq] at h
        subst h
        exact ⟨fun q x hq => hq, fun hh => by simp at hh⟩
    | none =>
      rw [hp] at h
      simp only at h
      have step : ∀ (fs1 : FS), (∀ q x, fs q = some x → fs1 q = some x) →
          (match os.Mkdir fs1 path with
            | .ok fs2 => some ((none : Option Errno), fs2)
            | .error e =>
              match fs1 path with
              | some .dir => some (none, fs1)
              | _ => some (some e, fs1)) = some r →
          (∀ q x, fs q = some x → r.2 q = some x) ∧
            (r.1 = none → r.2 path = some Node.dir) := by
        intro fs1 hfr hm
        cases hmk : os.Mkdir fs1 path with
        | ok fs2 =>
          rw [hmk] at hm
          simp only [Option.some.injEq] at hm
          subst hm
          obtain ⟨hnone, hset⟩ := Mkdir_ok fs1 fs2 path hmk
          subst hset
          refine ⟨?_, fun _ => by simp [FS.set]⟩
          intro q x hq
          have hq1 := hfr q x hq
          have hne : q ≠ path := by
            intro he
            rw [he, hnone] at hq1
            exact Option.noConfusion hq1
          simp [FS.set, hne, hq1]
        | error e =>
          rw [hmk] at hm
          simp only at hm
          cases hq : fs1 path with
          | none =>
            rw [hq] at hm
            simp only [Option.some.injEq] at hm
            subst hm
            exact ⟨hfr, fun hh => by simp at hh⟩
          | some node =>
            rw [hq] at hm
            cases node with
            | dir =>
              simp only [Option.some.injEq] at hm
              subst hm
              exact ⟨hfr, fun _ => hq⟩
            | file d =>
              simp only [Option.some.injEq] at hm
              subst hm
              exact ⟨hfr, fun hh => by simp at hh⟩
      by_cases hpar : os.mkdirAllParent path ≠ []
      · rw [if_pos hpar] at h
        cases hrec : os.MkdirAllFuel n fs (os.mkdirAllParent path) with
        | none => rw [hrec] at h; simp at h
        | some r1 =>
          rw [hrec] at h
          obtain ⟨e1, fs1⟩ := r1
          have hfr := (ih fs _ _ hrec).1
          cases e1 with
          | some e =>
            simp only [Option.some.injEq] at h
            subst h
            exact ⟨hfr, fun hh => by simp at hh⟩
          | none =>
            simp only at h
            exact step fs1 hfr h
      · rw [if_neg hpar] at h
        simp only at h
        exact step fs (fun q x hq => hq) h

theorem MkdirAll_frame (fs fs1 : FS) (path : GoString) (e : Option Errno)
    (h : os.MkdirAll fs path = (e, fs1)) :
    (∀ q x, fs q = some x → fs1 q = some x) ∧ (e = none → fs1 path = some Node.dir) := by
  unfold os.MkdirAll at h
  have hs := MkdirAllFuel_isSome (path.length + 1) fs path (by omega)
  obtain ⟨r, hr⟩ := Option.isSome_iff_exists.mp hs
  rw [hr] at h
  simp only [Option.getD_some] at h
  have := MkdirAllFuel_frame _ fs path r hr
  rw [h] at this
  exact this

theorem MkdirAll_of_dir (fs : FS) (path : GoString) (h : fs path = some Node.dir) :
    os.MkdirAll fs path = (none, fs) := by
  unfold os.MkdirAll os.MkdirAllFuel
  rw [h]
  rfl

theorem siblingFS_WF : siblingFS.WF := by
  constructor
  · intro p hp
    unfold siblingFS at hp ⊢
    by_cases h1 : p = ['.']
    · subst h1; decide
    · by_cases h2 : p = ['/']
      · subst h2; decide
      · by_cases h3 : p = ['s', 'u', 'b']
        · subst h3; decide
        · by_cases h4 : p = ['x']
          · subst h4; decide
          · simp [h1, h2, h3, h4] at hp
  · intro p data hp
    unfold siblingFS at hp
    by_cases h4 : p = ['x']
    · subst h4; decide
    · split_ifs at hp
      simp at hp

/-! ## Name lengths -/

theorem byteLen_append (a b : GoString) :
    os.byteLen (a ++ b) = os.byteLen a + os.byteLen b := by
  simp [os.byteLen]

/-- Appending a text without separator to a path name lengthens its last
element and leaves the elements before it. -/
theorem splitOn_append_no_sep (t s : GoString) (hs : ∀ c ∈ s, c ≠ '/') :
    ∃ init last, List.splitOn '/' t = init ++ [last] ∧
      List.splitOn '/' (t ++ s) = init ++ [last ++ s] := by
  induction t with
  | nil =>
    refine ⟨[], [], by simp [List.splitOn, List.splitOnP_nil], ?_⟩
    simpa using splitOn_single s (fun h => hs _ h rfl)
  | cons x t ih =>
    obtain ⟨init, last, h1, h2⟩ := ih
    unfold List.splitOn at h1 h2 ⊢
    rw [List.cons_append, List.splitOnP_cons, List.splitOnP_cons, h1, h2]
    by_cases hx : (x == '/') = true
    · exact ⟨[] :: init, last, by simp [hx], by simp [hx]⟩
    · simp only [hx, Bool.false_eq_true, if_false]
      cases init with
      | nil => exact ⟨[], x :: last, by simp [List.modifyHead], by simp [List.modifyHead]⟩
      | cons h r =>
        exact ⟨(x :: h) :: r, last, by simp [List.modifyHead], by simp [List.modifyHead]⟩

/-- A path name is within the length limits when the name with a text
without separator appended is. -/
theorem nameTooLong_of_append (t s : GoString) (hs : ∀ c ∈ s, c ≠ '/')
    (h : os.nameTooLong (t ++ s) = false) : os.nameTooLong t = false := by
  unfold os.nameTooLong at h ⊢
  rw [Bool.or_eq_false_iff] at h ⊢
  obtain ⟨h1, h2⟩ := h
  obtain ⟨init, last, e1, e2⟩ := splitOn_append_no_sep t s hs
  rw [e2] at h2
  rw [e1]
  rw [byteLen_append] at h1
  constructor
  · simp only [decide_eq_false_iff_not, not_le] at h1 ⊢
    omega
  · rw [List.any_eq_false] at h2 ⊢
    intro c hc
    rcases List.mem_append.mp hc with hc | hc
    · exact h2 c (List.mem_append_left _ hc)
    · rw [List.mem_singleton] at hc
      subst hc
      have := h2 (c ++ s) (List.mem_append_right _ (List.mem_singleton.mpr rfl))
      rw [byteLen_append] at this
      simp only [decide_eq_true_eq, not_lt] at this ⊢
      omega

theorem byteLen_replicate_ascii (n : Nat) : os.byteLen (List.replicate n 'a') = n := by
  induction n with
  | zero => rfl
  | succ n ih =>
    rw [List.replicate_succ]
    have h : os.byteLen ('a' :: List.replicate n 'a') =
        Char.utf8Size 'a' + os.byteLen (List.replicate n 'a') := by
      simp [os.byteLen]
    rw [h, ih]
    have : Char.utf8Size 'a' = 1 := by decide
    omega

/-- The limit on the last element at work: a name of 251 bytes still takes
the `.bak` suffix, a name of 253 bytes does not, and the rename to it fails. -/
theorem Rename_refuses_long_name (fs : FS) (c : Bytes)
    (hold : fs (List.replicate 253 'a') = some (Node.file c))
    (hnew : fs (List.replicate 253 'a' ++ ['.', 'b', 'a', 'k']) = none) :
    os.nameTooLong (List.replicate 251 'a' ++ ['.', 'b', 'a', 'k']) = false ∧
    os.nameTooLong (List.replicate 253 'a' ++ ['.', 'b', 'a', 'k']) = true ∧
    os.Rename fs (List.replicate 253 'a') (List.replicate 253 'a' ++ ['.', 'b', 'a', 'k']) =
      .error Errno.ENAMETOOLONG := by
  have hsplit : ∀ n, List.splitOn '/' (List.replicate n 'a' ++ ['.', 'b', 'a', 'k']) =
      [List.replicate n 'a' ++ ['.', 'b', 'a', 'k']] := by
    intro n
    apply splitOn_single
    intro hmem
    rcases List.mem_append.mp hmem with h | h
    · exact absurd (List.eq_of_mem_replicate h) (by decide)
    · exact absurd h (by decide)
  have hlen : ∀ n, os.byteLen (List.replicate n 'a' ++ ['.', 'b', 'a', 'k']) = n + 4 := by
    intro n
    rw [byteLen_append, byteLen_replicate_ascii]
    rfl
  have h251 : os.nameTooLong (List.replicate 251 'a' ++ ['.', 'b', 'a', 'k']) = false := by
    unfold os.nameTooLong
    rw [hsplit, List.any_cons, List.any_nil, hlen]
    decide
  have h253 : os.nameTooLong (List.replicate 253 'a' ++ ['.', 'b', 'a', 'k']) = true := by
    unfold os.nameTooLong
    rw [hsplit, List.any_cons, List.any_nil, hlen]
    decide
  refine ⟨h251, h253, ?_⟩
  unfold os.Rename
  rw [hnew, hold]
  simp only [h253, Bool.or_true, if_true]

/-! ## Backup names -/

theorem Dir_append_of_no_slash (t s : GoString) (hs : ∀ c ∈ s, c ≠ '/') :
    filepath.Dir (t ++ s) = filepath.Dir t := by
  unfold filepath.Dir
  rw [List.reverse_append, List.dropWhile_append_of_pos]
  intro a ha
  simpa using hs a (List.mem_reverse.mp ha)

theorem isDotOrRoot_append_bak (t : GoString) :
    os.isDotOrRoot (t ++ ['.', 'b', 'a', 'k']) = false := by
  unfold os.isDotOrRoot
  simp only [decide_eq_false_iff_not]
  have hrev : (t ++ ['.', 'b', 'a', 'k']).reverse = 'k' :: 'a' :: 'b' :: '.' :: t.reverse := by
    simp
  have hlen : 4 ≤ ((List.takeWhile (fun c => decide (c ≠ '/'))
      (t ++ ['.', 'b', 'a', 'k']).reverse).reverse).length := by
    rw [List.length_reverse, hrev]
    simp [List.takeWhile]
  intro h
  rcases h with h | h | h <;> rw [h] at hlen <;> simp at hlen

theorem below_append_bak (t : GoString) :
    os.below t (t ++ ['.', 'b', 'a', 'k']) = false := by
  unfold os.below
  rw [Bool.eq_false_iff]
  intro h
  rw [List.isPrefixOf_iff_prefix, List.prefix_append_right_inj] at h
  have := List.isPrefixOf_iff_prefix.mpr h
  revert this
  decide

theorem append_bak_ne (t : GoString) : t ++ ['.', 'b', 'a', 'k'] ≠ t := by
  intro h
  have := congrArg List.length h
  simp at this

/-- The backup branch of the loop body on a regular file whose `.bak` name is
free: the old content moves to `.bak` and the entry's data is written. -/
theorem unpackFile_backup (opts : UnpackOptions) (now : Time) (fs : FS) (file : File)
    (c : Bytes) (hwf : fs.WF) (hb : opts.Backup = true) (hd : opts.DryRun = false)
    (hn : opts.NoOverwrite = false) (hname : validatePath file.Name = .ok ())
    (hexists : fs (filepath.Join [opts.Dir, file.Name]) = some (Node.file c))
    (hbak : fs (filepath.Join [opts.Dir, file.Name] ++ ['.', 'b', 'a', 'k']) = none)
    (hlen : os.nameTooLong (filepath.Join [opts.Dir, file.Name] ++ ['.', 'b', 'a', 'k']) =
      false) :
    (unpackFile opts now fs file).1 = none ∧
    (unpackFile opts now fs file).2 (filepath.Join [opts.Dir, file.Name] ++ ['.', 'b', 'a', 'k'])
      = some (Node.file c) ∧
    (unpackFile opts now fs file).2 (filepath.Join [opts.Dir, file.Name])
      = some (Node.file file.Data) := by
  set T := filepath.Join [opts.Dir, file.Name] with hT
  have hpar : fs (filepath.Dir T) = some Node.dir := hwf.1 T (by rw [hexists]; simp)
  have hdot : os.isDotOrRoot T = false := hwf.2 T c hexists
  have hparBak : filepath.Dir (T ++ ['.', 'b', 'a', 'k']) = filepath.Dir T :=
    Dir_append_of_no_slash T _ (by decide)
  have hTne : T ++ ['.', 'b', 'a', 'k'] ≠ T := append_bak_ne T
  have hDirNeT : filepath.Dir T ≠ T := by
    intro h; rw [h, hexists] at hpar; simp at hpar
  have hDirNeBak : filepath.Dir T ≠ T ++ ['.', 'b', 'a', 'k'] := by
    intro h; rw [h, hbak] at hpar; simp at hpar
  have hbp : backupPath fs now T = T ++ ['.', 'b', 'a', 'k'] := by
    simp [backupPath, os.Stat, hbak]
  have hren : os.Rename fs T (T ++ ['.', 'b', 'a', 'k']) =
      .ok (fun q => if q = T ++ ['.', 'b', 'a', 'k'] then some (Node.file c)
        else if q = T then none else fs q) := by
    unfold os.Rename
    rw [hbak, hexists]
    simp only [hlen, nameTooLong_of_append T _ (by decide) hlen, hTne.symm, if_false, hdot,
      isDotOrRoot_append_bak, below_append_bak, Bool.or_self, Bool.false_eq_true,
      os.parentCheck, hparBak, hpar]
  have hu : unpackFile opts now fs file =
      (none, FS.set (fun q => if q = T ++ ['.', 'b', 'a', 'k'] then some (Node.file c)
        else if q = T then none else fs q) T (Node.file file.Data)) := by
    unfold unpackFile
    rw [hname]
    simp only [hd, hn, hb, ← hT, Bool.false_eq_true, if_false, if_true,
      MkdirAll_of_dir fs _ hpar, os.Stat, hexists, hbp, hren]
    simp [os.WriteFile, os.parentCheck, hDirNeT, hDirNeBak, hpar, hTne.symm]
  rw [hu]
  simp [FS.set, hTne]

theorem withDefaultDir_fields (opts : UnpackOptions) :
    opts.withDefaultDir.Dir = (if opts.Dir = [] then ['.'] else opts.Dir) ∧
    opts.withDefaultDir.Backup = opts.Backup ∧
    opts.withDefaultDir.DryRun = opts.DryRun ∧
    opts.withDefaultDir.NoOverwrite = opts.NoOverwrite := by
  unfold UnpackOptions.withDefaultDir
  by_cases h : opts.Dir = [] <;> simp [h]

theorem unpackLoop_single (opts : UnpackOptions) (clock : Nat → Time) (i : Nat)
    (file : File) (fs : FS) :
    unpackLoop opts clock i [file] fs = unpackFile opts (clock i) fs file := by
  simp only [unpackLoop]
  rcases unpackFile opts (clock i) fs file with ⟨e, fs1⟩
  cases e <;> rfl

/-- C8, amended. For every one-entry archive whose entry name passes
`validatePath`, every target directory and every filesystem state in which
the target path is a regular file with content `c` and the target path with
`.bak` appended does not exist and is a name the system takes (no element
longer than `NAME_MAX` bytes, the whole name shorter than `PATH_MAX`),
`Unpack` with `Backup` set (and `DryRun`, `NoOverwrite` clear) returns no
error; afterwards the `.bak` path holds `c` and the target path holds the
entry's data. -/
theorem Unpack_backup_moves_old_content (clock : Nat → Time) (opts : UnpackOptions)
    (name : GoString) (data c : Bytes) (fs : FS) (hwf : fs.WF)
    (hb : opts.Backup = true) (hd : opts.DryRun = false) (hn : opts.NoOverwrite = false)
    (hname : validatePath name = .ok ())
    (hexists : fs (filepath.Join [if opts.Dir = [] then ['.'] else opts.Dir, name]) =
      some (Node.file c))
    (hbak : fs (filepath.Join [if opts.Dir = [] then ['.'] else opts.Dir, name] ++
      ['.', 'b', 'a', 'k']) = none)
    (hlen : os.nameTooLong (filepath.Join [if opts.Dir = [] then ['.'] else opts.Dir, name] ++
      ['.', 'b', 'a', 'k']) = false) :
    (Unpack clock ⟨[⟨name, data⟩]⟩ opts fs).1 = none ∧
    (Unpack clock ⟨[⟨name, data⟩]⟩ opts fs).2
      (filepath.Join [if opts.Dir = [] then ['.'] else opts.Dir, name] ++
        ['.', 'b', 'a', 'k']) = some (Node.file c) ∧
    (Unpack clock ⟨[⟨name, data⟩]⟩ opts fs).2
      (filepath.Join [if opts.Dir = [] then ['.'] else opts.Dir, name]) =
        some (Node.file data) := by
  obtain ⟨fD, fB, fR, fN⟩ := withDefaultDir_fields opts
  have hU : Unpack clock ⟨[⟨name, data⟩]⟩ opts fs =
      unpackFile opts.withDefaultDir (clock 0) fs ⟨name, data⟩ := by
    simp only [Unpack, hb, hn, Bool.and_false, Bool.false_eq_true, if_false,
      unpackLoop_single]
  rw [hU, ← fD]
  rw [← fD] at hexists hbak hlen
  exact unpackFile_backup opts.withDefaultDir (clock 0) fs ⟨name, data⟩ c hwf
    (fB.trans hb) (fR.trans hd) (fN.trans hn) hname hexists hbak hlen

theorem Unpack_backup_moves_old_content_witness :
    (Unpack fixedClock ⟨[⟨"x".toList, [9]⟩]⟩ (backupOptsFor []) siblingFS).1 = none ∧
    (Unpack fixedClock ⟨[⟨"x".toList, [9]⟩]⟩ (backupOptsFor []) siblingFS).2
      (filepath.Join [if (backupOptsFor []).Dir = [] then ['.'] else (backupOptsFor []).Dir,
        "x".toList] ++ ['.', 'b', 'a', 'k']) = some (Node.file [7]) ∧
    (Unpack fixedClock ⟨[⟨"x".toList, [9]⟩]⟩ (backupOptsFor []) siblingFS).2
      (filepath.Join [if (backupOptsFor []).Dir = [] then ['.'] else (backupOptsFor []).Dir,
        "x".toList]) = some (Node.file [9]) :=
  Unpack_backup_moves_old_content fixedClock (backupOptsFor []) "x".toList [9] [7] siblingFS
    siblingFS_WF rfl rfl rfl (by rfl) (by decide) (by decide) (by decide)

/-! ## Extraction under the default policy -/

/-- One entry under the default policy, when it succeeds: the name is valid,
the directories were made without touching what existed, and the data was
written at the target. -/
theorem unpackFile_plain (opts : UnpackOptions) (now : Time) (fs fs' : FS) (file : File)
    (hb : opts.Backup = false) (hn : opts.NoOverwrite = false) (hd : opts.DryRun = false)
    (h : unpackFile opts now fs file = (none, fs')) :
    validatePath file.Name = .ok () ∧
    ∃ fs1 : FS, (∀ q x, fs q = some x → fs1 q = some x) ∧
      fs1 (filepath.Dir (filepath.Join [opts.Dir, file.Name])) = some Node.dir ∧
      fs1 (filepath.Join [opts.Dir, file.Name]) ≠ some Node.dir ∧
      fs' = fs1.set (filepath.Join [opts.Dir, file.Name]) (Node.file file.Data) := by
  unfold unpackFile at h
  cases hv : validatePath file.Name with
  | error e => rw [hv] at h; simp at h
  | ok u =>
    rw [hv] at h
    simp only [hd, hn, hb, Bool.false_eq_true, if_false] at h
    rcases hm : os.MkdirAll fs (filepath.Dir (filepath.Join [opts.Dir, file.Name]))
      with ⟨e, fs1⟩
    rw [hm] at h
    obtain ⟨hframe, hdir⟩ := MkdirAll_frame _ _ _ _ hm
    cases e with
    | some e => simp at h
    | none =>
      simp only at h
      have hback : (match os.Stat fs1 (filepath.Join [opts.Dir, file.Name]) with
          | .error _ => ((none : Option UnpackError), fs1)
          | .ok _ => (none, fs1)) = (none, fs1) := by
        cases os.Stat fs1 (filepath.Join [opts.Dir, file.Name]) <;> rfl
      rw [hback] at h
      simp only at h
      refine ⟨rfl, fs1, hframe, hdir rfl, ?_, ?_⟩
      · intro hT
        simp [os.WriteFile, hT] at h
      · unfold os.WriteFile at h
        cases hT : fs1 (filepath.Join [opts.Dir, file.Name]) with
        | none =>
          rw [hT] at h
          simp only at h
          cases hc : os.parentCheck fs1 (filepath.Join [opts.Dir, file.Name]) with
          | some e => rw [hc] at h; simp at h
          | none =>
            rw [hc] at h
            simp only [Prod.mk.injEq, true_and] at h
            exact h.symm
        | some node =>
          rw [hT] at h
          cases node with
          | dir => simp at h
          | file d =>
            simp only at h
            cases hc : os.parentCheck fs1 (filepath.Join [opts.Dir, file.Name]) with
            | some e => rw [hc] at h; simp at h
            | none =>
              rw [hc] at h
              simp only [Prod.mk.injEq, true_and] at h
              exact h.symm

theorem lastResolving_cons (dir : GoString) (f : File) (rest : List File) (p : GoString) :
    lastResolving dir (f :: rest) p =
      match lastResolving dir rest p with
      | some g => some g
      | none => if filepath.Join [dir, f.Name] = p then some f else none := by
  unfold lastResolving
  rw [List.reverse_cons, List.find?_append]
  cases List.find? (fun e => decide (filepath.Join [dir, e.Name] = p)) rest.reverse with
  | some g => simp
  | none =>
    by_cases h : filepath.Join [dir, f.Name] = p <;> simp [h]

theorem lastResolving_none (dir : GoString) (files : List File) (p : GoString)
    (h : ∀ f ∈ files, filepath.Join [dir, f.Name] ≠ p) : lastResolving dir files p = none := by
  unfold lastResolving
  rw [List.find?_eq_none]
  intro e he
  simpa using h e (List.mem_reverse.mp he)

theorem lastResolving_isSome (dir : GoString) (files : List File) (f : File)
    (h : f ∈ files) :
    ∃ g, lastResolving dir files (filepath.Join [dir, f.Name]) = some g := by
  unfold lastResolving
  cases hfind : List.find? (fun e => decide (filepath.Join [dir, e.Name] =
      filepath.Join [dir, f.Name])) files.reverse with
  | some g => exact ⟨g, rfl⟩
  | none =>
    rw [List.find?_eq_none] at hfind
    have := hfind f (List.mem_reverse.mpr h)
    simp at this

/-- The loop under the default policy, when it succeeds: directories and the
paths no entry resolves to are kept, every entry is valid, and every target
holds the data of the last entry that resolves to it, below a directory. -/
theorem unpackLoop_plain (opts : UnpackOptions) (clock : Nat → Time)
    (hb : opts.Backup = false) (hn : opts.NoOverwrite = false) (hd : opts.DryRun = false)
    (files : List File) :
    ∀ (i : Nat) (fs fs' : FS), unpackLoop opts clock i files fs = (none, fs') →
      (∀ q x, fs q = some x →
        (x = Node.dir ∨ ∀ f ∈ files, filepath.Join [opts.Dir, f.Name] ≠ q) →
        fs' q = some x) ∧
      (∀ f ∈ files, validatePath f.Name = .ok () ∧
        filepath.Dir (filepath.Join [opts.Dir, f.Name]) ≠ filepath.Join [opts.Dir, f.Name] ∧
        (∃ g, lastResolving opts.Dir files (filepath.Join [opts.Dir, f.Name]) = some g ∧
          fs' (filepath.Join [opts.Dir, f.Name]) = some (Node.file g.Data)) ∧
        fs' (filepath.Dir (filepath.Join [opts.Dir, f.Name])) = some Node.dir) := by
  induction files with
  | nil =>
    intro i fs fs' h
    simp only [unpackLoop, Prod.mk.injEq, true_and] at h
    subst h
    exact ⟨fun q x hq _ => hq, fun f hf => absurd hf (List.not_mem_nil f)⟩
  | cons f rest ih =>
    intro i fs fs' h
    simp only [unpackLoop] at h
    rcases hf : unpackFile opts (clock i) fs f with ⟨e, fsA⟩
    rw [hf] at h
    cases e with
    | some e => simp at h
    | none =>
      simp only at h
      obtain ⟨hvalid, fs1, hframe, hdir, hnotdir, hset⟩ :=
        unpackFile_plain opts (clock i) fs fsA f hb hn hd hf
      obtain ⟨ihkeep, ihfiles⟩ := ih (i + 1) fsA fs' h
      have hTf : fsA (filepath.Join [opts.Dir, f.Name]) = some (Node.file f.Data) := by
        rw [hset]; simp [FS.set]
      have hDne : filepath.Dir (filepath.Join [opts.Dir, f.Name]) ≠
          filepath.Join [opts.Dir, f.Name] := by
        intro he; rw [he] at hdir; exact hnotdir hdir
      have hDf : fsA (filepath.Dir (filepath.Join [opts.Dir, f.Name])) = some Node.dir := by
        rw [hset]; simp [FS.set, hDne, hdir]
      constructor
      · intro q x hq hcond
        have hq1 := hframe q x hq
        have hne : q ≠ filepath.Join [opts.Dir, f.Name] := by
          intro he
          rcases hcond with hx | hx
          · rw [he, hx] at hq1; exact hnotdir hq1
          · exact hx f (List.mem_cons_self _ _) he.symm
        have hqA : fsA q = some x := by rw [hset]; simp [FS.set, hne, hq1]
        apply ihkeep q x hqA
        rcases hcond with hx | hx
        · exact Or.inl hx
        · exact Or.inr (fun g hg => hx g (List.mem_cons_of_mem _ hg))
      · intro g hg
        rcases List.mem_cons.mp hg with hgf | hgr
        · subst hgf
          refine ⟨hvalid, hDne, ?_, ihkeep _ _ hDf (Or.inl rfl)⟩
          by_cases hin : ∃ g' ∈ rest, filepath.Join [opts.Dir, g'.Name] =
              filepath.Join [opts.Dir, g.Name]
          · obtain ⟨g', hg', hge⟩ := hin
            obtain ⟨_, _, ⟨g2, hlast, hfs⟩, _⟩ := ihfiles g' hg'
            rw [hge] at hlast hfs
            exact ⟨g2, by rw [lastResolving_cons, hlast], hfs⟩
          · have hnone : ∀ g' ∈ rest, filepath.Join [opts.Dir, g'.Name] ≠
                filepath.Join [opts.Dir, g.Name] := fun g' hg' he => hin ⟨g', hg', he⟩
            refine ⟨g, ?_, ihkeep _ _ hTf (Or.inr hnone)⟩
            rw [lastResolving_cons, lastResolving_none _ _ _ hnone]
            simp
        · obtain ⟨hv, hd', ⟨g2, hlast, hfs⟩, hdd⟩ := ihfiles g hgr
          exact ⟨hv, hd', ⟨g2, by rw [lastResolving_cons, hlast], hfs⟩, hdd⟩

theorem splitOn_dot_slash (name : GoString) :
    List.splitOn '/' ('.' :: '/' :: name) = ['.'] :: List.splitOn '/' name := by
  unfold List.splitOn
  rw [List.splitOnP_cons, List.splitOnP_cons]
  simp

theorem Clean_dot_slash (name : GoString) (habs : filepath.IsAbs name = false)
    (hne : name ≠ []) : filepath.Clean ('.' :: '/' :: name) = filepath.Clean name := by
  have h1 : filepath.IsAbs ('.' :: '/' :: name) = false := by
    rfl
  have h2 : filepath.cleanElems false ('.' :: '/' :: name) = filepath.cleanElems false name := by
    unfold filepath.cleanElems
    rw [splitOn_dot_slash, List.foldl_cons]
    rfl
  rw [Clean_eq_cleanByElems, Clean_eq_cleanByElems]
  unfold filepath.cleanByElems
  simp only [h1, habs, hne, if_false, List.cons_ne_nil, h2]

theorem Join_dot_eq (name : GoString) (habs : filepath.IsAbs name = false) (hne : name ≠ []) :
    filepath.Join [['.'], name] = filepath.Join [[], name] := by
  have e1 : filepath.Join [['.'], name] = filepath.Clean ('.' :: '/' :: name) := by
    simp [filepath.Join, List.intercalate, List.intersperse]
  have e2 : filepath.Join [[], name] = filepath.Clean name := by
    simp [filepath.Join, List.intercalate, List.intersperse, hne]
  rw [e1, e2, Clean_dot_slash name habs hne]

theorem find?_congr_of_mem {α : Type} (p q : α → Bool) (l : List α)
    (h : ∀ x ∈ l, p x = q x) : l.find? p = l.find? q := by
  induction l with
  | nil => rfl
  | cons a rest ih =>
    rw [List.find?_cons, List.find?_cons, h a (List.mem_cons_self _ _),
      ih (fun x hx => h x (List.mem_cons_of_mem _ hx))]

theorem validatePath_ok_not_abs (name : GoString) (h : validatePath name = .ok ()) :
    filepath.IsAbs name = false := by
  unfold validatePath at h
  cases ha : filepath.IsAbs name with
  | false => rfl
  | true => rw [ha] at h; simp at h

/-- C7. If `Unpack` with `Backup`, `NoOverwrite` and `DryRun` all clear
returns no error, then for every entry of the archive the path
`Join(targetDir, name)` is afterwards a regular file holding the data of the
last entry, in archive order, that resolves to that path, and the parent of
that path is a directory. -/
theorem Unpack_writes_every_entry (clock : Nat → Time) (archive : Archive)
    (opts : UnpackOptions) (fs : FS)
    (hb : opts.Backup = false) (hn : opts.NoOverwrite = false) (hd : opts.DryRun = false)
    (hok : (Unpack clock archive opts fs).1 = none) :
    ∀ f ∈ archive.Files,
      (∃ g, lastResolving opts.Dir archive.Files (filepath.Join [opts.Dir, f.Name]) = some g ∧
        (Unpack clock archive opts fs).2 (filepath.Join [opts.Dir, f.Name]) =
          some (Node.file g.Data)) ∧
      (Unpack clock archive opts fs).2 (filepath.Dir (filepath.Join [opts.Dir, f.Name])) =
        some Node.dir := by
  obtain ⟨fD, fB, fR, fN⟩ := withDefaultDir_fields opts
  have hU : Unpack clock archive opts fs =
      unpackLoop opts.withDefaultDir clock 0 archive.Files fs := by
    simp [Unpack, hb]
  rw [hU] at hok ⊢
  rcases hl : unpackLoop opts.withDefaultDir clock 0 archive.Files fs with ⟨e, fs'⟩
  rw [hl] at hok
  simp only at hok
  subst hok
  obtain ⟨_, hfiles⟩ := unpackLoop_plain opts.withDefaultDir clock (fB.trans hb)
    (fN.trans hn) (fR.trans hd) archive.Files 0 fs fs' hl
  by_cases hdir : opts.Dir = []
  · have hD : opts.withDefaultDir.Dir = ['.'] := by rw [fD, if_pos hdir]
    rw [hD] at hfiles
    have hjoin : ∀ g ∈ archive.Files,
        filepath.Join [['.'], g.Name] = filepath.Join [opts.Dir, g.Name] := by
      intro g hg
      obtain ⟨hv, hne, _, _⟩ := hfiles g hg
      rw [hdir]
      apply Join_dot_eq g.Name (validatePath_ok_not_abs _ hv)
      intro hempty
      rw [hempty] at hne
      exact hne (by decide)
    have hlast : ∀ p, lastResolving ['.'] archive.Files p =
        lastResolving opts.Dir archive.Files p := by
      intro p
      unfold lastResolving
      apply find?_congr_of_mem
      intro g hg
      rw [hjoin g (List.mem_reverse.mp hg)]
    intro f hf
    obtain ⟨_, _, ⟨g, hg1, hg2⟩, hpar⟩ := hfiles f hf
    rw [hjoin f hf] at hg1 hg2 hpar
    rw [hlast] at hg1
    exact ⟨⟨g, hg1, hg2⟩, hpar⟩
  · have hD : opts.withDefaultDir.Dir = opts.Dir := by rw [fD, if_neg hdir]
    rw [hD] at hfiles
    intro f hf
    obtain ⟨_, _, hg, hpar⟩ := hfiles f hf
    exact ⟨hg, hpar⟩

theorem Unpack_writes_every_entry_witness :
    (∃ g, lastResolving (optsFor "tmp".toList).Dir testArchive.Files
        (filepath.Join [(optsFor "tmp".toList).Dir, "subdir/nested.txt".toList]) = some g ∧
      (Unpack fixedClock testArchive (optsFor "tmp".toList) emptyFS).2
        (filepath.Join [(optsFor "tmp".toList).Dir, "subdir/nested.txt".toList]) =
          some (Node.file g.Data)) ∧
    (Unpack fixedClock testArchive (optsFor "tmp".toList) emptyFS).2
      (filepath.Dir (filepath.Join [(optsFor "tmp".toList).Dir, "subdir/nested.txt".toList])) =
        some Node.dir :=
  Unpack_writes_every_entry fixedClock testArchive (optsFor "tmp".toList) emptyFS rfl rfl rfl
    (by decide) ⟨"subdir/nested.txt".toList, [110]⟩ (by decide)

/-! ## Joining a validated name to a directory -/

theorem dotdot_persists_step (st : List GoString) (c : GoString)
    (h : ['.', '.'] ∈ st) : ['.', '.'] ∈ filepath.cleanStep false st c := by
  unfold filepath.cleanStep
  by_cases h1 : c = [] ∨ c = ['.']
  · rw [if_pos h1]; exact h
  · rw [if_neg h1]
    by_cases h2 : c = ['.', '.']
    · rw [if_pos h2]
      cases st with
      | nil => exact absurd h (List.not_mem_nil _)
      | cons top rest =>
        by_cases h3 : top = ['.', '.']
        · simp [h3, h2]
        · simp only [h3, if_false]
          rcases List.mem_cons.mp h with h4 | h4
          · exact absurd h4.symm h3
          · exact h4
    · rw [if_neg h2]
      exact List.mem_cons_of_mem _ h

theorem dotdot_persists (cs : List GoString) :
    ∀ st, ['.', '.'] ∈ st → ['.', '.'] ∈ cs.foldl (filepath.cleanStep false) st := by
  induction cs with
  | nil => intro st h; exact h
  | cons c rest ih =>
    intro st h
    rw [List.foldl_cons]
    exact ih _ (dotdot_persists_step st c h)

/-- Elements whose cleaning, on their own, never climbs are cleaned the same
way on top of any stack. -/
theorem foldl_on_base (r : Bool) (base : List GoString) (cs : List GoString) :
    ∀ T : List GoString, ['.', '.'] ∉ T →
      ['.', '.'] ∉ cs.foldl (filepath.cleanStep false) T →
      cs.foldl (filepath.cleanStep r) (T ++ base) =
        cs.foldl (filepath.cleanStep false) T ++ base := by
  induction cs with
  | nil => intro T _ _; rfl
  | cons c rest ih =>
    intro T hT hfin
    rw [List.foldl_cons] at hfin ⊢
    rw [List.foldl_cons]
    by_cases h1 : c = [] ∨ c = ['.']
    · rw [cleanStep_skip _ _ _ h1] at hfin ⊢
      rw [cleanStep_skip _ _ _ h1]
      exact ih T hT hfin
    · by_cases h2 : c = ['.', '.']
      · subst h2
        cases T with
        | nil =>
          exfalso
          apply hfin
          apply dotdot_persists
          simp [cleanStep_dotdot_nil]
        | cons top T' =>
          have htop : top ≠ ['.', '.'] := fun he => hT (by rw [he]; exact List.mem_cons_self _ _)
          rw [cleanStep_dotdot_pop _ _ _ htop] at hfin ⊢
          rw [List.cons_append, cleanStep_dotdot_pop _ _ _ htop]
          exact ih T' (fun hin => hT (List.mem_cons_of_mem _ hin)) hfin
      · have e1 : ∀ (r' : Bool) (st : List GoString), filepath.cleanStep r' st c = c :: st := by
          intro r' st
          unfold filepath.cleanStep
          rw [if_neg h1, if_neg h2]
        rw [e1] at hfin ⊢
        rw [e1]
        have := ih (c :: T) (by
          intro hin
          rcases List.mem_cons.mp hin with h3 | h3
          · exact h2 h3.symm
          · exact hT h3) hfin
        simpa using this

theorem render_dotdot_prefix (k : Nat) (Gs : List GoString) :
    strings.HasPrefix (renderPath false (List.replicate (k + 1) ['.', '.'] ++ Gs))
      ['.', '.'] = true := by
  have hne : List.intercalate ['/'] (List.replicate (k + 1) ['.', '.'] ++ Gs) ≠ [] := by
    rw [List.replicate_succ, List.cons_append]
    obtain ⟨tail, ht⟩ := inter_cons_head '.' ['.'] (List.replicate k ['.', '.'] ++ Gs)
    rw [ht]
    exact List.cons_ne_nil _ _
  unfold renderPath
  simp only [Bool.false_eq_true, if_false, hne]
  rw [List.replicate_succ, List.cons_append]
  cases hrest : List.replicate k ['.', '.'] ++ Gs with
  | nil => rw [inter_single]; rfl
  | cons d rest => rw [inter_cons_cons]; rfl

/-- A name that `validatePath` accepts is relative and its cleaning keeps only
elements that are not `..`. -/
theorem validatePath_ok_elems (name : GoString) (h : validatePath name = .ok ()) :
    filepath.IsAbs name = false ∧
    ∀ c ∈ filepath.cleanElems false name, GoodElem c := by
  have habs := validatePath_ok_not_abs name h
  refine ⟨habs, ?_⟩
  have hpre : strings.HasPrefix (filepath.Clean name) ['.', '.'] = false := by
    unfold validatePath at h
    rw [habs] at h
    simp only [Bool.false_eq_true, if_false] at h
    cases hp : strings.HasPrefix (filepath.Clean name) ['.', '.'] with
    | false => rfl
    | true => rw [hp] at h; simp at h
  obtain ⟨G, k, hst, hG, _⟩ := StackOK_cleanElems false name
  cases k with
  | zero =>
    rw [hst]
    simpa using hG
  | succ k =>
    exfalso
    rw [Clean_eq_render, habs, hst] at hpre
    have := render_dotdot_prefix k G.reverse
    rw [List.reverse_append, List.reverse_replicate, this] at hpre
    exact Bool.noConfusion hpre

theorem good_not_dotdot (G : List GoString) (h : ∀ c ∈ G, GoodElem c) : ['.', '.'] ∉ G :=
  fun hin => (h _ hin).2.2.1 rfl

theorem descends_inter (B : List GoString) (hB : B ≠ []) (hG : ∀ c ∈ B, GoodElem c) :
    descends (List.intercalate ['/'] B) = true := by
  unfold descends
  have hne := inter_ne_nil B hB (fun c hc => (hG c hc).1)
  rw [List.splitOn_intercalate B '/' (fun c hc => (hG c hc).2.2.2) hB]
  simp only [hne, ne_eq, not_false_eq_true, decide_True, Bool.true_and, List.all_eq_true,
    decide_eq_true_eq]
  intro c hc
  exact ⟨(hG c hc).1, (hG c hc).2.1, (hG c hc).2.2.1⟩

theorem isPrefixOf_append_sep (cd rest : GoString) :
    List.isPrefixOf (cd ++ ['/']) (cd ++ '/' :: rest) = true ∧
    List.drop (cd.length + 1) (cd ++ '/' :: rest) = rest := by
  constructor
  · rw [List.isPrefixOf_iff_prefix]
    exact ⟨rest, by simp⟩
  · have : cd ++ '/' :: rest = (cd ++ ['/']) ++ rest := by simp
    rw [this, List.drop_append_of_le_length (by simp)]
    simp

/-- The cleaned directory followed by kept elements lies within the directory. -/
theorem liesWithin_render (dir : GoString) (B : List GoString)
    (hG : ∀ c ∈ B, GoodElem c) :
    liesWithin dir (renderPath (filepath.IsAbs dir)
      ((filepath.cleanElems (filepath.IsAbs dir) dir).reverse ++ B)) = true := by
  have hcd := Clean_eq_render dir
  obtain hA := CleanList_cleanElems (filepath.IsAbs dir) dir
  set r := filepath.IsAbs dir with hr
  set A := (filepath.cleanElems r dir).reverse with hAdef
  unfold liesWithin
  simp only [Bool.or_eq_true, Bool.and_eq_true, decide_eq_true_eq]
  by_cases hB : B = []
  · subst hB
    left; left; left
    rw [List.append_nil, hcd]
  · have hdesc := descends_inter B hB hG
    have hBne := inter_ne_nil B hB (fun c hc => (hG c hc).1)
    by_cases hAe : A = []
    · rw [hAe, List.nil_append]
      rw [hAe] at hcd
      cases hrr : r with
      | true =>
        rw [hrr] at hcd
        left; right
        refine ⟨⟨by rw [hcd]; rfl, by simp [renderPath, List.isPrefixOf]⟩, ?_⟩
        simpa [renderPath] using hdesc
      | false =>
        rw [hrr] at hcd
        left; left; right
        refine ⟨by rw [hcd]; rfl, ?_⟩
        simpa [renderPath, hBne] using hdesc
    · right
      have hAne := inter_ne_nil A hAe (fun c hc => (CleanList_elem r A hA c hc).1)
      have hAB := inter_append A B hAe hB
      have hABne : List.intercalate ['/'] (A ++ B) ≠ [] := by
        rw [hAB]; simp
      cases hrr : r with
      | true =>
        rw [hrr] at hcd
        have e1 : filepath.Clean dir = '/' :: List.intercalate ['/'] A := by
          rw [hcd]; simp [renderPath]
        have e2 : renderPath true (A ++ B) =
            ('/' :: List.intercalate ['/'] A) ++ '/' :: List.intercalate ['/'] B := by
          simp [renderPath, hAB]
        rw [e1, e2]
        obtain ⟨p1, p2⟩ := isPrefixOf_append_sep ('/' :: List.intercalate ['/'] A)
          (List.intercalate ['/'] B)
        exact ⟨p1, by rw [p2]; exact hdesc⟩
      | false =>
        rw [hrr] at hcd
        have e1 : filepath.Clean dir = List.intercalate ['/'] A := by
          rw [hcd]; simp [renderPath, hAne]
        have e2 : renderPath false (A ++ B) =
            List.intercalate ['/'] A ++ '/' :: List.intercalate ['/'] B := by
          simp [renderPath, hABne, hAB]
        rw [e1, e2]
        obtain ⟨p1, p2⟩ := isPrefixOf_append_sep (List.intercalate ['/'] A)
          (List.intercalate ['/'] B)
        exact ⟨p1, by rw [p2]; exact hdesc⟩

theorem Join_pair_of_ne_nil (dir name : GoString) (hd : dir ≠ []) :
    filepath.Join [dir, name] = filepath.Clean (dir ++ '/' :: name) := by
  cases dir with
  | nil => exact absurd rfl hd
  | cons a t => simp [filepath.Join, List.intercalate, List.intersperse]

theorem Join_nil_left (name : GoString) (hn : name ≠ []) :
    filepath.Join [[], name] = filepath.Clean name := by
  simp [filepath.Join, List.intercalate, List.intersperse, hn]

theorem cleanElems_join (dir name : GoString) (hd : dir ≠ [])
    (hG : ∀ c ∈ filepath.cleanElems false name, GoodElem c) :
    filepath.cleanElems (filepath.IsAbs (dir ++ '/' :: name)) (dir ++ '/' :: name) =
      filepath.cleanElems false name ++ filepath.cleanElems (filepath.IsAbs dir) dir := by
  have habs : filepath.IsAbs (dir ++ '/' :: name) = filepath.IsAbs dir := by
    cases dir with
    | nil => exact absurd rfl hd
    | cons a t => simp [filepath.IsAbs, strings.HasPrefix, List.isPrefixOf]
  rw [habs]
  unfold filepath.cleanElems
  rw [splitOn_append_sep, List.foldl_append]
  have := foldl_on_base (filepath.IsAbs dir)
    (List.foldl (filepath.cleanStep (filepath.IsAbs dir)) [] (List.splitOn '/' dir))
    (List.splitOn '/' name) [] (List.not_mem_nil _) (good_not_dotdot _ hG)
  simpa using this

/-- The target of a validated name lies within the target directory. -/
theorem liesWithin_Join (dir name : GoString) (h : validatePath name = .ok ()) :
    liesWithin dir (filepath.Clean (filepath.Join [dir, name])) = true := by
  obtain ⟨habs, hG⟩ := validatePath_ok_elems name h
  have hB : ∀ c ∈ (filepath.cleanElems false name).reverse, GoodElem c :=
    fun c hc => hG c (List.mem_reverse.mp hc)
  by_cases hd : dir = []
  · subst hd
    by_cases hn : name = []
    · subst hn
      decide
    · rw [Join_nil_left name hn, Clean_idempotent, Clean_eq_render, habs]
      have := liesWithin_render [] (filepath.cleanElems false name).reverse hB
      have e : filepath.IsAbs [] = false := rfl
      rw [e] at this
      have e2 : (filepath.cleanElems false []).reverse = [] := rfl
      rw [e2, List.nil_append] at this
      exact this
  · rw [Join_pair_of_ne_nil dir name hd, Clean_idempotent, Clean_eq_render,
      cleanElems_join dir name hd hG, List.reverse_append]
    have habs2 : filepath.IsAbs (dir ++ '/' :: name) = filepath.IsAbs dir := by
      cases dir with
      | nil => exact absurd rfl hd
      | cons a t => simp [filepath.IsAbs, strings.HasPrefix, List.isPrefixOf]
    rw [habs2]
    exact liesWithin_render dir _ hB

/-- C2. For every target directory and entry name: if the cleaned form of
`Join(targetDir, name)` is neither the (cleaned) target directory itself nor
a path below it, `validatePath` rejects the name; and every name that
`validatePath` accepts has its target within the target directory. -/
theorem validatePath_confines_target (dir name : GoString) :
    (liesWithin dir (filepath.Clean (filepath.Join [dir, name])) = false →
      ∃ err, validatePath name = .error err) ∧
    (validatePath name = .ok () →
      liesWithin dir (filepath.Clean (filepath.Join [dir, name])) = true) := by
  refine ⟨?_, liesWithin_Join dir name⟩
  intro hout
  cases hv : validatePath name with
  | error err => exact ⟨err, rfl⟩
  | ok u =>
    have := liesWithin_Join dir name hv
    rw [hout] at this
    exact Bool.noConfusion this

/-! ## The model of `filepath` against Go's own tests -/

/-- The model of `filepath.Clean` gives the expected result on every row of
Go's test table. -/
theorem Clean_agrees_with_cleanTests :
    cleanTests.all (fun t => decide (filepath.Clean t.1.toList = t.2.toList)) = true := by
  decide

/-! ## Backup to a free name -/

theorem digitChar_ne_slash (d : Nat) : Nat.digitChar d ≠ '/' := by
  rcases Nat.lt_or_ge d 16 with h | h
  · interval_cases d <;> decide
  · have hstar : Nat.digitChar d = '*' := by
      unfold Nat.digitChar
      repeat rw [if_neg (by omega)]
    rw [hstar]
    decide

theorem toDigitsCore_no_slash (base : Nat) : ∀ (fuel n : Nat) (acc : List Char),
    (∀ c ∈ acc, c ≠ '/') → ∀ c ∈ Nat.toDigitsCore base fuel n acc, c ≠ '/' := by
  intro fuel
  induction fuel with
  | zero => intro n acc hacc; simpa [Nat.toDigitsCore] using hacc
  | succ fuel ih =>
    intro n acc hacc
    unfold Nat.toDigitsCore
    simp only
    have hcons : ∀ c ∈ Nat.digitChar (n % base) :: acc, c ≠ '/' := by
      intro c hc
      rcases List.mem_cons.mp hc with h | h
      · rw [h]; exact digitChar_ne_slash _
      · exact hacc c h
    split_ifs
    · exact hcons
    · exact ih _ _ hcons

theorem zeroPad_no_slash (w n : Nat) : ∀ c ∈ zeroPad w n, c ≠ '/' := by
  intro c hc
  unfold zeroPad at hc
  rcases List.mem_append.mp hc with h | h
  · rw [List.eq_of_mem_replicate h]; decide
  · exact toDigitsCore_no_slash 10 _ _ [] (fun c hc => absurd hc (List.not_mem_nil c)) c h

theorem formatCompact_no_slash (t : Time) : ∀ c ∈ t.formatCompact, c ≠ '/' := by
  intro c hc
  unfold Time.formatCompact at hc
  simp only [List.mem_append, List.mem_singleton] at hc
  rcases hc with ((((((h | h) | h) | h) | h) | h) | h)
  · exact zeroPad_no_slash _ _ c h
  · exact zeroPad_no_slash _ _ c h
  · exact zeroPad_no_slash _ _ c h
  · rw [h]; decide
  · exact zeroPad_no_slash _ _ c h
  · exact zeroPad_no_slash _ _ c h
  · exact zeroPad_no_slash _ _ c h

/-- The backup name is the target followed by a suffix that begins with
`.bak` and holds no separator. -/
theorem backupPath_suffix (fs : FS) (now : Time) (t : GoString) :
    ∃ s : GoString, backupPath fs now t = t ++ s ∧ 4 ≤ s.length ∧ ∀ c ∈ s, c ≠ '/' := by
  unfold backupPath
  cases os.Stat fs (t ++ ['.', 'b', 'a', 'k']) with
  | error e => exact ⟨['.', 'b', 'a', 'k'], rfl, by simp, by decide⟩
  | ok n =>
    refine ⟨['.', 'b', 'a', 'k', '.'] ++ now.formatCompact, by simp, by simp, ?_⟩
    intro c hc
    rcases List.mem_append.mp hc with h | h
    · have hall : ∀ x ∈ ['.', 'b', 'a', 'k', '.'], x ≠ '/' := by decide
      exact hall c h
    · exact formatCompact_no_slash now c h

theorem isDotOrRoot_append (t s : GoString) (hlen : 3 ≤ s.length) (hs : ∀ c ∈ s, c ≠ '/') :
    os.isDotOrRoot (t ++ s) = false := by
  unfold os.isDotOrRoot
  simp only [decide_eq_false_iff_not]
  have hlen2 : 3 ≤ ((List.takeWhile (fun c => decide (c ≠ '/'))
      (t ++ s).reverse).reverse).length := by
    rw [List.length_reverse, List.reverse_append, List.takeWhile_append_of_pos]
    · rw [List.length_append, List.length_reverse]
      omega
    · intro a ha
      simpa using hs a (List.mem_reverse.mp ha)
  intro h
  rcases h with h | h | h <;> rw [h] at hlen2 <;> simp at hlen2

theorem below_append (t s : GoString) (hs : ∀ c ∈ s, c ≠ '/') :
    os.below t (t ++ s) = false := by
  unfold os.below
  rw [Bool.eq_false_iff]
  intro h
  rw [List.isPrefixOf_iff_prefix, List.prefix_append_right_inj] at h
  obtain ⟨r, hr⟩ := h
  cases s with
  | nil => simp at hr
  | cons a s' =>
    simp only [List.singleton_append, List.cons.injEq] at hr
    exact hs a (List.mem_cons_self _ _) hr.1.symm

/-- The backup branch of the loop body on a regular file when the backup name
it chooses is free: the old content is moved there, the entry's data is
written at the target, and every other path is left as it was. -/
theorem unpackFile_backup_free (opts : UnpackOptions) (now : Time) (fs : FS) (file : File)
    (c : Bytes) (hwf : fs.WF) (hb : opts.Backup = true) (hd : opts.DryRun = false)
    (hn : opts.NoOverwrite = false) (hname : validatePath file.Name = .ok ())
    (hexists : fs (filepath.Join [opts.Dir, file.Name]) = some (Node.file c))
    (hfree : fs (backupPath fs now (filepath.Join [opts.Dir, file.Name])) = none)
    (hlen : os.nameTooLong (backupPath fs now (filepath.Join [opts.Dir, file.Name])) =
      false) :
    (unpackFile opts now fs file).1 = none ∧
    (unpackFile opts now fs file).2 (backupPath fs now (filepath.Join [opts.Dir, file.Name]))
      = some (Node.file c) ∧
    (unpackFile opts now fs file).2 (filepath.Join [opts.Dir, file.Name])
      = some (Node.file file.Data) ∧
    ∀ q, q ≠ filepath.Join [opts.Dir, file.Name] →
      q ≠ backupPath fs now (filepath.Join [opts.Dir, file.Name]) →
      (unpackFile opts now fs file).2 q = fs q := by
  set T := filepath.Join [opts.Dir, file.Name] with hT
  obtain ⟨s, hB, hslen, hs⟩ := backupPath_suffix fs now T
  set B := backupPath fs now T with hBdef
  have hpar : fs (filepath.Dir T) = some Node.dir := hwf.1 T (by rw [hexists]; simp)
  have hdot : os.isDotOrRoot T = false := hwf.2 T c hexists
  have hdotB : os.isDotOrRoot B = false := by
    rw [hB]; exact isDotOrRoot_append T s (by omega) hs
  have hbelow : os.below T B = false := by rw [hB]; exact below_append T s hs
  have hparB : filepath.Dir B = filepath.Dir T := by
    rw [hB]; exact Dir_append_of_no_slash T s hs
  have hTne : B ≠ T := by
    rw [hB]
    intro h
    have := congrArg List.length h
    rw [List.length_append] at this
    omega
  have hDirNeT : filepath.Dir T ≠ T := by
    intro h; rw [h, hexists] at hpar; simp at hpar
  have hDirNeB : filepath.Dir T ≠ B := by
    intro h; rw [h, hfree] at hpar; simp at hpar
  have hren : os.Rename fs T B =
      .ok (fun q => if q = B then some (Node.file c) else if q = T then none else fs q) := by
    have hlenT : os.nameTooLong T = false := by
      rw [hB] at hlen; exact nameTooLong_of_append T s hs hlen
    unfold os.Rename
    rw [hfree, hexists]
    simp only [hlen, hlenT, hTne.symm, if_false, hdot, hdotB, hbelow, Bool.or_self,
      Bool.false_eq_true, os.parentCheck, hparB, hpar]
  have hu : unpackFile opts now fs file =
      (none, FS.set (fun q => if q = B then some (Node.file c)
        else if q = T then none else fs q) T (Node.file file.Data)) := by
    unfold unpackFile
    rw [hname]
    simp only [hd, hn, hb, ← hT, Bool.false_eq_true, if_false, if_true,
      MkdirAll_of_dir fs _ hpar, os.Stat, hexists, ← hBdef, hren]
    simp [os.WriteFile, os.parentCheck, hDirNeT, hDirNeB, hpar, hTne.symm]
  rw [hu]
  refine ⟨rfl, by simp [FS.set, hTne], by simp [FS.set], ?_⟩
  intro q hqT hqB
  simp [FS.set, hqT, hqB]

theorem firstBackupFS_WF : firstBackupFS.WF := by
  constructor
  · intro p hp
    unfold firstBackupFS at hp ⊢
    by_cases h1 : p = ['.']
    · subst h1; decide
    · by_cases h2 : p = ['/']
      · subst h2; decide
      · by_cases h3 : p = ['f', 'i', 'l', 'e', '.', 't', 'x', 't']
        · subst h3; decide
        · by_cases h4 : p = ['f', 'i', 'l', 'e', '.', 't', 'x', 't', '.', 'b', 'a', 'k']
          · subst h4; decide
          · simp [h1, h2, h3, h4] at hp
  · intro p data hp
    unfold firstBackupFS at hp
    by_cases h3 : p = ['f', 'i', 'l', 'e', '.', 't', 'x', 't']
    · subst h3; decide
    · by_cases h4 : p = ['f', 'i', 'l', 'e', '.', 't', 'x', 't', '.', 'b', 'a', 'k']
      · subst h4; decide
      · have e1 : "file.txt".toList = ['f', 'i', 'l', 'e', '.', 't', 'x', 't'] := rfl
        have e2 : "file.txt.bak".toList =
            ['f', 'i', 'l', 'e', '.', 't', 'x', 't', '.', 'b', 'a', 'k'] := rfl
        rw [e1, e2, if_neg h3, if_neg h4] at hp
        split_ifs at hp
        simp at hp

/-- X1. For every one-entry archive whose entry name passes `validatePath` and
every filesystem state in which the target is a regular file with content `c`
and the backup name `Unpack` chooses (the target with `.bak`, or with `.bak.`
and the time stamp when the `.bak` name is occupied) is free and is a name
the system takes, `Unpack` with `Backup` set returns no error; afterwards the
chosen name holds `c`, the target holds the entry's data and every other
path, an occupied `.bak` among them, is as it was. -/
theorem Unpack_backup_to_free_name (clock : Nat → Time) (opts : UnpackOptions)
    (name : GoString) (data c : Bytes) (fs : FS) (hwf : fs.WF)
    (hb : opts.Backup = true) (hd : opts.DryRun = false) (hn : opts.NoOverwrite = false)
    (hname : validatePath name = .ok ())
    (hexists : fs (filepath.Join [opts.withDefaultDir.Dir, name]) = some (Node.file c))
    (hfree : fs (backupPath fs (clock 0) (filepath.Join [opts.withDefaultDir.Dir, name])) =
      none)
    (hlen : os.nameTooLong
      (backupPath fs (clock 0) (filepath.Join [opts.withDefaultDir.Dir, name])) = false) :
    (Unpack clock ⟨[⟨name, data⟩]⟩ opts fs).1 = none ∧
    (Unpack clock ⟨[⟨name, data⟩]⟩ opts fs).2
      (backupPath fs (clock 0) (filepath.Join [opts.withDefaultDir.Dir, name])) =
        some (Node.file c) ∧
    (Unpack clock ⟨[⟨name, data⟩]⟩ opts fs).2
      (filepath.Join [opts.withDefaultDir.Dir, name]) = some (Node.file data) ∧
    ∀ q, q ≠ filepath.Join [opts.withDefaultDir.Dir, name] →
      q ≠ backupPath fs (clock 0) (filepath.Join [opts.withDefaultDir.Dir, name]) →
      (Unpack clock ⟨[⟨name, data⟩]⟩ opts fs).2 q = fs q := by
  obtain ⟨_, fB, fR, fN⟩ := withDefaultDir_fields opts
  have hU : Unpack clock ⟨[⟨name, data⟩]⟩ opts fs =
      unpackFile opts.withDefaultDir (clock 0) fs ⟨name, data⟩ := by
    simp only [Unpack, hb, hn, Bool.and_false, Bool.false_eq_true, if_false,
      unpackLoop_single]
  rw [hU]
  exact unpackFile_backup_free opts.withDefaultDir (clock 0) fs ⟨name, data⟩ c hwf
    (fB.trans hb) (fR.trans hd) (fN.trans hn) hname hexists hfree hlen

theorem Unpack_backup_to_free_name_witness :
    (Unpack fixedClock ⟨[⟨"file.txt".toList, [3]⟩]⟩ (backupOptsFor ['.']) firstBackupFS).1 =
      none ∧
    (Unpack fixedClock ⟨[⟨"file.txt".toList, [3]⟩]⟩ (backupOptsFor ['.']) firstBackupFS).2
      (backupPath firstBackupFS (fixedClock 0)
        (filepath.Join [(backupOptsFor ['.']).withDefaultDir.Dir, "file.txt".toList])) =
        some (Node.file [2]) ∧
    (Unpack fixedClock ⟨[⟨"file.txt".toList, [3]⟩]⟩ (backupOptsFor ['.']) firstBackupFS).2
      (filepath.Join [(backupOptsFor ['.']).withDefaultDir.Dir, "file.txt".toList]) =
        some (Node.file [3]) ∧
    ∀ q, q ≠ filepath.Join [(backupOptsFor ['.']).withDefaultDir.Dir, "file.txt".toList] →
      q ≠ backupPath firstBackupFS (fixedClock 0)
        (filepath.Join [(backupOptsFor ['.']).withDefaultDir.Dir, "file.txt".toList]) →
      (Unpack fixedClock ⟨[⟨"file.txt".toList, [3]⟩]⟩ (backupOptsFor ['.']) firstBackupFS).2 q =
        firstBackupFS q :=
  Unpack_backup_to_free_name fixedClock (backupOptsFor ['.']) "file.txt".toList [3] [2]
    firstBackupFS firstBackupFS_WF rfl rfl rfl (by rfl) (by decide) (by decide) (by decide)

/-! ## Extraction in dry-run mode -/

theorem unpackFile_dryRun (opts : UnpackOptions) (now : Time) (fs : FS) (file : File)
    (hd : opts.DryRun = true) :
    (unpackFile opts now fs file).2 = fs ∧
    ((unpackFile opts now fs file).1 ≠ none ↔ ∃ err, validatePath file.Name = .error err) := by
  unfold unpackFile
  cases hv : validatePath file.Name with
  | error err => exact ⟨rfl, fun _ => ⟨err, rfl⟩, fun _ => by simp⟩
  | ok u =>
    cases u
    simp [hd]

theorem unpackLoop_dryRun (opts : UnpackOptions) (clock : Nat → Time)
    (hd : opts.DryRun = true) (files : List File) :
    ∀ (i : Nat) (fs : FS),
      (unpackLoop opts clock i files fs).2 = fs ∧
      ((unpackLoop opts clock i files fs).1 ≠ none ↔
        ∃ f ∈ files, ∃ err, validatePath f.Name = .error err) := by
  induction files with
  | nil => intro i fs; simp [unpackLoop]
  | cons file rest ih =>
    intro i fs
    obtain ⟨h2, h1⟩ := unpackFile_dryRun opts (clock i) fs file hd
    simp only [unpackLoop]
    rcases hr : unpackFile opts (clock i) fs file with ⟨e, fs1⟩
    rw [hr] at h1 h2
    simp only at h1 h2
    subst h2
    cases e with
    | some e =>
      refine ⟨rfl, fun _ => ?_, fun _ => by simp⟩
      obtain ⟨err, herr⟩ := h1.mp (by simp)
      exact ⟨file, List.mem_cons_self _ _, err, herr⟩
    | none =>
      have hfile : ¬ ∃ err, validatePath file.Name = .error err := fun h => (h1.mpr h) rfl
      refine ⟨(ih (i + 1) fs1).1, ?_⟩
      rw [(ih (i + 1) fs1).2]
      constructor
      · rintro ⟨f, hf, herr⟩
        exact ⟨f, List.mem_cons_of_mem _ hf, herr⟩
      · rintro ⟨f, hf, herr⟩
        rcases List.mem_cons.mp hf with rfl | hf
        · exact absurd herr hfile
        · exact ⟨f, hf, herr⟩

/-- C12. With `DryRun` set, `Unpack` returns the filesystem it was given, for
every archive, target directory, clock and setting of the other flags,
whether it returns an error or not; and unless `Backup` and `NoOverwrite` are
both set it returns an error exactly when `validatePath` rejects the name of
some entry. -/
theorem Unpack_dryRun_leaves_filesystem (clock : Nat → Time) (archive : Archive)
    (opts : UnpackOptions) (fs : FS) (hd : opts.DryRun = true) :
    (Unpack clock archive opts fs).2 = fs ∧
    (¬ (opts.Backup = true ∧ opts.NoOverwrite = true) →
      ((Unpack clock archive opts fs).1 ≠ none ↔
        ∃ f ∈ archive.Files, ∃ err, validatePath f.Name = .error err)) := by
  obtain ⟨_, _, fR, _⟩ := withDefaultDir_fields opts
  have hd2 : opts.withDefaultDir.DryRun = true := by rw [fR, hd]
  unfold Unpack
  by_cases hp : (opts.Backup && opts.NoOverwrite) = true
  · rw [if_pos hp]
    refine ⟨rfl, fun hnot => ?_⟩
    rw [Bool.and_eq_true] at hp
    exact absurd hp hnot
  · rw [if_neg hp]
    exact ⟨(unpackLoop_dryRun _ clock hd2 archive.Files 0 fs).1,
      fun _ => (unpackLoop_dryRun _ clock hd2 archive.Files 0 fs).2⟩

theorem Unpack_dryRun_leaves_filesystem_witness :
    (dryRunOptsFor "out".toList).DryRun = true ∧
    (Unpack fixedClock ⟨testArchive.Files ++ [⟨"../evil.txt".toList, [1]⟩]⟩
      (dryRunOptsFor "out".toList) emptyFS).2 = emptyFS ∧
    (¬ ((dryRunOptsFor "out".toList).Backup = true ∧
        (dryRunOptsFor "out".toList).NoOverwrite = true) →
      ((Unpack fixedClock ⟨testArchive.Files ++ [⟨"../evil.txt".toList, [1]⟩]⟩
        (dryRunOptsFor "out".toList) emptyFS).1 ≠ none ↔
        ∃ f ∈ (Archive.mk (testArchive.Files ++ [⟨"../evil.txt".toList, [1]⟩])).Files,
          ∃ err, validatePath f.Name = .error err)) :=
  ⟨rfl, Unpack_dryRun_leaves_filesystem fixedClock
    ⟨testArchive.Files ++ [⟨"../evil.txt".toList, [1]⟩]⟩ (dryRunOptsFor "out".toList) emptyFS rfl⟩

/-! ## The binary probe -/

theorem bytes_Contains_zero (b : Bytes) : bytes.Contains b [0] = b.contains 0 := by
  induction b with
  | nil => rfl
  | cons x t ih =>
    have ht : bytes.Contains (x :: t) [0] = ((0 == x) || bytes.Contains t [0]) := by
      simp [bytes.Contains, List.isPrefixOf]
    rw [ht, ih, List.contains_cons]

theorem isBinaryFile_iff (content : Bytes) :
    isBinaryFile content = true ↔ nullInPrefix content := by
  unfold isBinaryFile nullInPrefix
  rw [List.contains, List.elem_iff, List.mem_iff_getElem?]
  constructor
  · rintro ⟨i, hi⟩
    have hlt : i < (content.take (min 1024 content.length)).length := by
      by_contra hge
      rw [List.getElem?_eq_none (Nat.le_of_not_lt hge)] at hi
      exact Option.noConfusion hi
    rw [List.length_take] at hlt
    refine ⟨i, by omega, ?_⟩
    rw [List.getElem?_take_of_lt (by omega)] at hi
    exact hi
  · rintro ⟨i, hi, h0⟩
    exact ⟨i, by rw [List.getElem?_take_of_lt hi]; exact h0⟩

theorem isBinaryFileAt_file (fs : FS) (path : GoString) (content : Bytes)
    (h : fs path = some (Node.file content)) :
    isBinaryFileAt fs path = .ok (isBinaryFile content) := by
  have hn : min (min 1024 content.length) 1024 = min 1024 content.length := by omega
  have hl : (List.take (min 1024 content.length) content).length = min 1024 content.length := by
    rw [List.length_take]; omega
  unfold isBinaryFileAt os.Open os.Read
  rw [h]
  simp only [List.length_replicate]
  split
  · rename_i heq
    simp only [Prod.mk.injEq] at heq
    obtain ⟨_, _, h3⟩ := heq
    split_ifs at h3
    cases h3
  · rename_i heq
    simp only [Prod.mk.injEq] at heq
    obtain ⟨h1, h2, _⟩ := heq
    rw [← h1, ← h2, bytes_Contains_zero, List.take_left' hl]
    rfl

theorem isBinaryFile_null_at_1024 :
    isBinaryFile (List.replicate 1024 1 ++ [0]) = false := by
  rw [Bool.eq_false_iff]
  intro h
  obtain ⟨i, hi, h0⟩ := (isBinaryFile_iff _).mp h
  have hlt : i < 1024 := lt_of_lt_of_le hi (min_le_left _ _)
  rw [List.getElem?_append_left (by rw [List.length_replicate]; exact hlt),
    List.getElem?_replicate, if_pos hlt] at h0
  exact absurd (Option.some.inj h0) (by decide)

theorem isBinaryFile_null_at_1023 (n : Nat) :
    isBinaryFile (List.replicate 1023 1 ++ 0 :: List.replicate n 1) = true := by
  refine (isBinaryFile_iff _).mpr ⟨1023, ?_, ?_⟩
  · simp only [List.length_append, List.length_replicate, List.length_cons]
    omega
  · rw [List.getElem?_append_right (by rw [List.length_replicate])]
    simp only [List.length_replicate, Nat.sub_self, List.getElem?_cons_zero]

theorem binaryGate_cases (ignoreBinary : Bool) (content : Bytes) :
    (ignoreBinary = true → nullInPrefix content →
      (ignoreBinary && isBinaryFile content) = true) ∧
    (ignoreBinary = true → (∀ i, content[i]? = some (0 : UInt8) → 1024 ≤ i) →
      (ignoreBinary && isBinaryFile content) = false) ∧
    (ignoreBinary = false → (ignoreBinary && isBinaryFile content) = false) := by
  refine ⟨fun hb hn => ?_, fun hb hn => ?_, fun hb => ?_⟩
  · rw [hb, (isBinaryFile_iff content).mpr hn]; rfl
  · have : isBinaryFile content = false := by
      rw [Bool.eq_false_iff]
      intro h
      obtain ⟨i, hi, h0⟩ := (isBinaryFile_iff _).mp h
      have := hn i h0
      have := lt_of_lt_of_le hi (min_le_left _ _)
      omega
    rw [this]; simp
  · rw [hb]; rfl

theorem packCommitVisit_eq_packDirVisit (glob : Glob) (filter : Filter)
    (acc : List GoString × GoMap Bytes) (entry : GoString × Bytes) :
    packCommitVisit glob filter acc entry = packDirVisit glob filter acc entry := by
  unfold packCommitVisit packDirVisit
  rw [bytes_Contains_zero]
  rfl

/-- C13. The probe of `isBinaryFile` on a regular file returns, without an
error and whatever the length of the content (none included), whether a null
byte occurs among the first `min(1024, len)` bytes, and so does the
expression the git selections use.  For a path the filter lets through, the
callbacks of the directory walk, of `packCommit` and of `packSince` leave the
file out when the binary gate is on and such a null byte occurs, and take it
(path appended, content stored) when the gate is on and every null byte lies
at offset 1024 or later, and when the gate is off.  A null byte at offset
1023 makes a file binary whatever follows; one at offset 1024 does not. -/
theorem isBinaryFile_iff_null_within_1024 (glob : Glob) (filter : Filter)
    (acc : List GoString × GoMap Bytes) (path : GoString) (content : Bytes)
    (fs : FS) (tree : GoMap Bytes)
    (hfile : fs path = some (Node.file content))
    (htree : tree.get? path = some content)
    (hinc : Filter.ShouldInclude glob filter path = true) :
    isBinaryFileAt fs path = .ok (isBinaryFile content) ∧
    bytes.Contains (content.take (min 1024 content.length)) [0] = isBinaryFile content ∧
    (isBinaryFile content = true ↔ nullInPrefix content) ∧
    (filter.ignoreBinary = true → nullInPrefix content →
      packDirVisit glob filter acc (path, content) = acc ∧
      packCommitVisit glob filter acc (path, content) = acc ∧
      selectChanged glob filter tree acc (path, true) = acc) ∧
    (filter.ignoreBinary = true → (∀ i, content[i]? = some (0 : UInt8) → 1024 ≤ i) →
      packDirVisit glob filter acc (path, content) =
        (acc.1 ++ [path], acc.2.set path content) ∧
      packCommitVisit glob filter acc (path, content) =
        (acc.1 ++ [path], acc.2.set path content) ∧
      selectChanged glob filter tree acc (path, true) =
        (acc.1 ++ [path], acc.2.set path content)) ∧
    (filter.ignoreBinary = false →
      packDirVisit glob filter acc (path, content) =
        (acc.1 ++ [path], acc.2.set path content) ∧
      packCommitVisit glob filter acc (path, content) =
        (acc.1 ++ [path], acc.2.set path content) ∧
      selectChanged glob filter tree acc (path, true) =
        (acc.1 ++ [path], acc.2.set path content)) ∧
    isBinaryFile (List.replicate 1024 1 ++ [0]) = false ∧
    (∀ n, isBinaryFile (List.replicate 1023 1 ++ 0 :: List.replicate n 1) = true) := by
  obtain ⟨g1, g2, g3⟩ := binaryGate_cases filter.ignoreBinary content
  have hdir : ∀ b, (filter.ignoreBinary && isBinaryFile content) = b →
      packDirVisit glob filter acc (path, content) =
        (if b then acc else (acc.1 ++ [path], acc.2.set path content)) ∧
      packCommitVisit glob filter acc (path, content) =
        (if b then acc else (acc.1 ++ [path], acc.2.set path content)) ∧
      selectChanged glob filter tree acc (path, true) =
        (if b then acc else (acc.1 ++ [path], acc.2.set path content)) := by
    intro b hb
    have hd : packDirVisit glob filter acc (path, content) =
        (if b then acc else (acc.1 ++ [path], acc.2.set path content)) := by
      unfold packDirVisit
      simp only [hinc, hb]
      cases b <;> simp
    refine ⟨hd, by rw [packCommitVisit_eq_packDirVisit]; exact hd, ?_⟩
    unfold selectChanged
    simp only [hinc, htree, hb]
    cases b <;> simp
  refine ⟨isBinaryFileAt_file fs path content hfile, bytes_Contains_zero _,
    isBinaryFile_iff content, fun hb hn => ?_, fun hb hn => ?_, fun hb => ?_,
    isBinaryFile_null_at_1024, isBinaryFile_null_at_1023⟩
  · simpa using hdir true (g1 hb hn)
  · simpa using hdir false (g2 hb hn)
  · simpa using hdir false (g3 hb)

theorem isBinaryFile_iff_null_within_1024_witness :
    probeFS "bin.dat".toList = some (Node.file [104, 0, 105]) ∧
    Filter.ShouldInclude (fun _ _ => false) gateFilter "bin.dat".toList = true ∧
    isBinaryFileAt probeFS "bin.dat".toList = .ok (isBinaryFile [104, 0, 105]) ∧
    isBinaryFile [104, 0, 105] = true ∧
    packDirVisit (fun _ _ => false) gateFilter ([], []) ("bin.dat".toList, [104, 0, 105]) =
      ([], []) :=
  ⟨by decide, by decide,
    (isBinaryFile_iff_null_within_1024 (fun _ _ => false) gateFilter ([], []) "bin.dat".toList
      [104, 0, 105] probeFS [("bin.dat".toList, [104, 0, 105])]
      (by decide) (by decide) (by decide)).1,
    by decide,
    ((isBinaryFile_iff_null_within_1024 (fun _ _ => false) gateFilter ([], []) "bin.dat".toList
      [104, 0, 105] probeFS [("bin.dat".toList, [104, 0, 105])]
      (by decide) (by decide) (by decide)).2.2.2.1 rfl ⟨1, by decide, rfl⟩).1⟩

/-! ## The archive builder -/

theorem TrimPrefix_slash (s : GoString) :
    strings.TrimPrefix s ['/'] = (match s with | '/' :: r => r | r => r) := by
  unfold strings.TrimPrefix
  cases s with
  | nil => rfl
  | cons c t =>
    by_cases hc : c = '/'
    · subst hc; simp [List.isPrefixOf]
    · have : List.isPrefixOf ['/'] (c :: t) = false := by
        simp [List.isPrefixOf]; exact fun h => hc h.symm
      rw [this]
      simp only [Bool.false_eq_true, if_false]
      split
      · rename_i heq; cases heq; exact absurd rfl hc
      · rfl

theorem packEntry_eq (opts : PackOptions) (fileContents : GoMap Bytes) (file : GoString) :
    packEntry opts fileContents file =
      ⟨strippedName opts.StripPrefix file, (fileContents.get? file).getD []⟩ := by
  unfold packEntry strippedName filepath.ToSlash
  by_cases hp : opts.StripPrefix = []
  · simp [hp]
  · simp only [hp, ne_eq, not_false_eq_true, if_true, if_false, TrimPrefix_slash]
    rfl

theorem strippedName_of_prefixed_sep (p rest : GoString) (hp : p ≠ []) :
    strippedName p (p ++ '/' :: rest) = rest := by
  unfold strippedName
  have h1 : p.isPrefixOf (p ++ '/' :: rest) = true :=
    List.isPrefixOf_iff_prefix.mpr (List.prefix_append _ _)
  simp [hp, h1]

theorem strippedName_of_prefixed (p rest : GoString) (hp : p ≠ [])
    (hrest : rest.head? ≠ some '/') : strippedName p (p ++ rest) = rest := by
  unfold strippedName
  have h1 : p.isPrefixOf (p ++ rest) = true :=
    List.isPrefixOf_iff_prefix.mpr (List.prefix_append _ _)
  simp only [hp, h1, if_true, if_false, List.drop_left]
  split
  · exact absurd rfl hrest
  · rfl

theorem strippedName_of_other (p path : GoString) (hp : p.isPrefixOf path = false)
    (hpath : path.head? ≠ some '/') : strippedName p path = path := by
  unfold strippedName
  by_cases hnil : p = []
  · simp [hnil]
  · simp only [hnil, hp, if_false, Bool.false_eq_true]
    split
    · exact absurd rfl hpath
    · rfl

theorem GoMap.get?_set_self {V : Type} (m : GoMap V) (k : GoString) (v : V) :
    (m.set k v).get? k = some v := by
  induction m with
  | nil => simp [GoMap.set, GoMap.get?]
  | cons e rest ih =>
    obtain ⟨k', v'⟩ := e
    by_cases h : k' = k
    · simp [GoMap.set, GoMap.get?, h]
    · simp [GoMap.set, GoMap.get?, h, ih]

theorem GoMap.get?_set_ne {V : Type} (m : GoMap V) (k q : GoString) (v : V) (hq : q ≠ k) :
    (m.set k v).get? q = m.get? q := by
  induction m with
  | nil =>
    simp only [GoMap.set, GoMap.get?]
    rw [if_neg (fun h => hq h.symm)]
  | cons e rest ih =>
    obtain ⟨k', v'⟩ := e
    by_cases h : k' = k
    · subst h
      simp only [GoMap.set, GoMap.get?, if_true]
      rw [if_neg (fun h => hq h.symm), if_neg (fun h => hq h.symm)]
    · simp only [GoMap.set, GoMap.get?, if_neg h]
      by_cases h2 : k' = q
      · simp [h2]
      · simp [h2, ih]

/-- Every path the directory walk selects has the content of a walked file
of that path stored in the content map. -/
theorem packDir_stores (glob : Glob) (filter : Filter) (root : DirTree) :
    ∀ p ∈ (packDir glob filter root).1, ∃ d,
      (packDir glob filter root).2.get? p = some d ∧ (p, d) ∈ walkFiles ['.'] root := by
  have key : ∀ (l : List (GoString × Bytes)) (acc : List GoString × GoMap Bytes),
      (∀ e ∈ l, e ∈ walkFiles ['.'] root) →
      (∀ p ∈ acc.1, ∃ d, acc.2.get? p = some d ∧ (p, d) ∈ walkFiles ['.'] root) →
      ∀ p ∈ (l.foldl (packDirVisit glob filter) acc).1, ∃ d,
        (l.foldl (packDirVisit glob filter) acc).2.get? p = some d ∧
          (p, d) ∈ walkFiles ['.'] root := by
    intro l
    induction l with
    | nil => intro acc _ hacc; exact hacc
    | cons e rest ih =>
      intro acc hl hacc
      rw [List.foldl_cons]
      apply ih _ (fun x hx => hl x (List.mem_cons_of_mem _ hx))
      unfold packDirVisit
      split_ifs
      · exact hacc
      · exact hacc
      · intro p hp
        by_cases hpe : p = e.1
        · subst hpe
          exact ⟨e.2, GoMap.get?_set_self _ _ _, hl e (List.mem_cons_self _ _)⟩
        · rw [GoMap.get?_set_ne _ _ _ _ hpe]
          rcases List.mem_append.mp hp with h | h
          · exact hacc p h
          · exact absurd (List.mem_singleton.mp h) hpe
  exact key _ _ (fun e he => he) (fun p hp => absurd hp (List.not_mem_nil _))

/-- C14. When the selection returns the paths `files` and the content map
`fileContents` and `DryRun` is clear, `Pack` returns `files` and an archive
that has, for each selected path in selection order, one entry: its data is
what the map stores for the path (nothing when the map has no such key, which
the directory walk excludes) and its name is `strippedName` of the path.
With no prefix configured the names are the selected paths; a path that
begins with the prefix loses it and the one separator behind it. -/
theorem Pack_builds_entries (glob : Glob) (env : PackEnv) (opts : PackOptions)
    (files : List GoString) (fileContents : GoMap Bytes)
    (hdry : opts.DryRun = false)
    (hsel : (if opts.Git then env.packGit opts (NewFilter env opts)
      else Except.ok (packDir glob (NewFilter env opts) env.tree)) =
        Except.ok (files, fileContents)) :
    Pack glob env opts =
      .ok (some ⟨files.map (fun p =>
        ⟨strippedName opts.StripPrefix p, (fileContents.get? p).getD []⟩)⟩, files) ∧
    (opts.Git = false → ∀ p ∈ files, ∃ d, fileContents.get? p = some d ∧
      (p, d) ∈ walkFiles ['.'] env.tree) ∧
    (opts.StripPrefix = [] →
      files.map (fun p => strippedName opts.StripPrefix p) = files) ∧
    (∀ pre rest : GoString, pre ≠ [] → strippedName pre (pre ++ '/' :: rest) = rest) ∧
    (∀ pre rest : GoString, pre ≠ [] → rest.head? ≠ some '/' →
      strippedName pre (pre ++ rest) = rest) ∧
    (∀ pre path : GoString, pre.isPrefixOf path = false → path.head? ≠ some '/' →
      strippedName pre path = path) := by
  refine ⟨?_, fun hg => ?_, fun hs => ?_, strippedName_of_prefixed_sep,
    strippedName_of_prefixed, strippedName_of_other⟩
  · unfold Pack
    simp only [hsel, hdry]
    have : (fun p => packEntry opts fileContents p) = (fun p =>
        (⟨strippedName opts.StripPrefix p, (fileContents.get? p).getD []⟩ : File)) :=
      funext (packEntry_eq opts fileContents)
    simp [← this]
  · rw [hg] at hsel
    simp only [Bool.false_eq_true, if_false] at hsel
    have h := Except.ok.inj hsel
    have h1 : (packDir glob (NewFilter env opts) env.tree).1 = files := by rw [h]
    have h2 : (packDir glob (NewFilter env opts) env.tree).2 = fileContents := by rw [h]
    rw [← h1, ← h2]
    exact packDir_stores glob _ env.tree
  · rw [hs]
    simp [strippedName]

theorem Pack_builds_entries_witness :
    testPackOpts.DryRun = false ∧
    Pack testPackGlob (plainEnv testPackTree) testPackOpts =
      .ok (some ⟨["test.txt".toList].map (fun p =>
        ⟨strippedName testPackOpts.StripPrefix p,
          (GoMap.get? [("test.txt".toList, [104, 101, 108, 108, 111, 32, 119, 111, 114, 108, 100])] p).getD []⟩)⟩,
        ["test.txt".toList]) :=
  ⟨rfl, (Pack_builds_entries testPackGlob (plainEnv testPackTree) testPackOpts
    ["test.txt".toList] [("test.txt".toList, [104, 101, 108, 108, 111, 32, 119, 111, 114, 108, 100])] rfl
    (by
      simp [testPackOpts, NewFilter, plainEnv, packDir, testPackTree, walkFiles, walkEntries,
        relChild, packDirVisit, Filter.ShouldInclude, excludeHit, ignoreHit, testPackGlob,
        GoMap.set])).1⟩

/-! ## `os.MkdirAll`: what it creates -/

theorem Mkdir_parent (fs fs2 : FS) (path : GoString) (h : os.Mkdir fs path = .ok fs2) :
    fs (filepath.Dir path) = some Node.dir := by
  unfold os.Mkdir at h
  cases hp : fs path with
  | some node => rw [hp] at h; simp at h
  | none =>
    rw [hp] at h
    simp only at h
    unfold os.parentCheck at h
    cases hd : fs (filepath.Dir path) with
    | none => rw [hd] at h; simp at h
    | some node =>
      cases node with
      | dir => rfl
      | file d => rw [hd] at h; simp at h

theorem parentsAreDirs_set_dir (fs : FS) (path : GoString) (h : fs.parentsAreDirs)
    (hpar : fs (filepath.Dir path) = some Node.dir) :
    (fs.set path Node.dir).parentsAreDirs := by
  intro p hp
  unfold FS.set at hp ⊢
  by_cases hd : filepath.Dir p = path
  · rw [if_pos hd]
  · rw [if_neg hd]
    by_cases hpp : p = path
    · rw [hpp]; exact hpar
    · rw [if_neg hpp] at hp
      exact h p hp

/-- One run of `MkdirAll` changes only the path itself and shorter paths, and
keeps every parent a directory. -/
theorem MkdirAllFuel_changes : ∀ (n : Nat) (fs : FS) (path : GoString)
    (r : Option Errno × FS), os.MkdirAllFuel n fs path = some r →
    (fs.parentsAreDirs → r.2.parentsAreDirs) ∧
    (∀ q, r.2 q ≠ fs q → q = path ∨ q.length < path.length) := by
  intro n
  induction n with
  | zero => intro fs path r h; simp [os.MkdirAllFuel] at h
  | succ n ih =>
    intro fs path r h
    unfold os.MkdirAllFuel at h
    cases hp : fs path with
    | some node =>
      rw [hp] at h
      cases node with
      | dir =>
        simp only [Option.some.injEq] at h
        subst h
        exact ⟨fun hw => hw, fun q hq => absurd rfl hq⟩
      | file d =>
        simp only [Option.some.injEq] at h
        subst h
        exact ⟨fun hw => hw, fun q hq => absurd rfl hq⟩
    | none =>
      rw [hp] at h
      simp only at h
      have step : ∀ (fs1 : FS), (fs.parentsAreDirs → fs1.parentsAreDirs) →
          (∀ q, fs1 q ≠ fs q → q = path ∨ q.length < path.length) →
          (match os.Mkdir fs1 path with
            | .ok fs2 => some ((none : Option Errno), fs2)
            | .error e =>
              match fs1 path with
              | some .dir => some (none, fs1)
              | _ => some (some e, fs1)) = some r →
          (fs.parentsAreDirs → r.2.parentsAreDirs) ∧
            (∀ q, r.2 q ≠ fs q → q = path ∨ q.length < path.length) := by
        intro fs1 hw hch hm
        cases hmk : os.Mkdir fs1 path with
        | ok fs2 =>
          rw [hmk] at hm
          simp only [Option.some.injEq] at hm
          subst hm
          obtain ⟨hnone, hset⟩ := Mkdir_ok fs1 fs2 path hmk
          have hpar := Mkdir_parent fs1 fs2 path hmk
          subst hset
          refine ⟨fun h0 => parentsAreDirs_set_dir fs1 path (hw h0) hpar, ?_⟩
          intro q hq
          by_cases hqp : q = path
          · exact Or.inl hqp
          · simp only [FS.set, if_neg hqp] at hq
            exact hch q hq
        | error e =>
          rw [hmk] at hm
          simp only at hm
          cases hq : fs1 path with
          | none =>
            rw [hq] at hm
            simp only [Option.some.injEq] at hm
            subst hm
            exact ⟨hw, hch⟩
          | some node =>
            rw [hq] at hm
            cases node with
            | dir =>
              simp only [Option.some.injEq] at hm
              subst hm
              exact ⟨hw, hch⟩
            | file d =>
              simp only [Option.some.injEq] at hm
              subst hm
              exact ⟨hw, hch⟩
      by_cases hpar : os.mkdirAllParent path ≠ []
      · rw [if_pos hpar] at h
        have hlen := mkdirAllParent_length path hpar
        cases hrec : os.MkdirAllFuel n fs (os.mkdirAllParent path) with
        | none => rw [hrec] at h; simp at h
        | some r1 =>
          rw [hrec] at h
          obtain ⟨e1, fs1⟩ := r1
          obtain ⟨hw, hch⟩ := ih fs _ _ hrec
          have hch2 : ∀ q, fs1 q ≠ fs q → q = path ∨ q.length < path.length := by
            intro q hq
            rcases hch q hq with h1 | h1
            · right; rw [h1]; exact hlen
            · right; omega
          cases e1 with
          | some e =>
            simp only [Option.some.injEq] at h
            subst h
            exact ⟨hw, hch2⟩
          | none =>
            simp only at h
            exact step fs1 hw hch2 h
      · rw [if_neg hpar] at h
        simp only at h
        exact step fs (fun hw => hw) (fun q hq => absurd rfl hq) h

theorem MkdirAll_changes (fs fs1 : FS) (path : GoString) (e : Option Errno)
    (h : os.MkdirAll fs path = (e, fs1)) :
    (fs.parentsAreDirs → fs1.parentsAreDirs) ∧
    (∀ q, fs1 q ≠ fs q → q = path ∨ q.length < path.length) := by
  unfold os.MkdirAll at h
  have hs := MkdirAllFuel_isSome (path.length + 1) fs path (by omega)
  obtain ⟨r, hr⟩ := Option.isSome_iff_exists.mp hs
  rw [hr] at h
  simp only [Option.getD_some] at h
  have := MkdirAllFuel_changes _ fs path r hr
  rw [h] at this
  exact this

/-- `MkdirAll` cannot create `.` or the root: a missing one has no parent. -/
theorem MkdirAll_dot_or_root (fs fs1 : FS) (t : GoString) (ht : t = ['.'] ∨ t = ['/'])
    (hnone : fs t = none) (e : Option Errno) (h : os.MkdirAll fs t = (e, fs1)) :
    e ≠ none := by
  have hdir : filepath.Dir t = t := by rcases ht with rfl | rfl <;> decide
  have hpar : os.mkdirAllParent t = [] := by rcases ht with rfl | rfl <;> decide
  have hlen : t.length + 1 = 1 + 1 := by rcases ht with rfl | rfl <;> rfl
  unfold os.MkdirAll at h
  rw [hlen] at h
  unfold os.MkdirAllFuel at h
  simp only [hnone, hpar, ne_eq, not_true_eq_false, if_false] at h
  have hmk : os.Mkdir fs t = .error .ENOENT := by
    unfold os.Mkdir os.parentCheck
    simp [hnone, hdir]
  rw [hmk] at h
  simp only [Option.getD_some, Prod.mk.injEq] at h
  rw [← h.1]
  simp

/-! ## The parent of a clean path -/

/-- The path of a last element `e` below the elements `U`. -/
theorem renderPath_snoc (r : Bool) (U : List GoString) (e : GoString)
    (hU : CleanList r U) (he : e ≠ []) :
    renderPath r (U ++ [e]) =
      (if U = [] then (if r then ['/'] else []) else renderPath r U ++ ['/']) ++ e := by
  by_cases hu : U = []
  · subst hu
    cases r with
    | true => simp [renderPath, inter_single]
    | false => simp [renderPath, inter_single, he]
  · have hUne := inter_ne_nil U hu (fun c hc => (CleanList_elem r U hU c hc).1)
    have happ := inter_append U [e] hu (List.cons_ne_nil _ _)
    rw [inter_single] at happ
    have hne : List.intercalate ['/'] (U ++ [e]) ≠ [] := by rw [happ]; simp
    cases r with
    | true => simp [renderPath, happ, hu]
    | false => simp [renderPath, happ, hu, hUne, hne]

theorem Clean_append_slash (r : Bool) (U : List GoString) (hU : CleanList r U) :
    filepath.Clean (renderPath r U ++ ['/']) = renderPath r U := by
  have hne : renderPath r U ≠ [] := by
    unfold renderPath
    cases r with
    | true => simp
    | false =>
      simp only [Bool.false_eq_true, if_false]
      split_ifs <;> simp_all
  have habs : filepath.IsAbs (renderPath r U ++ ['/']) = r := by
    have h0 := IsAbs_render r U hU
    cases hp : renderPath r U with
    | nil => exact absurd hp hne
    | cons a t =>
      rw [hp] at h0
      simpa [filepath.IsAbs, strings.HasPrefix, List.isPrefixOf] using h0
  rw [Clean_eq_render, habs]
  have he : filepath.cleanElems r (renderPath r U ++ ['/']) =
      filepath.cleanElems r (renderPath r U) := by
    unfold filepath.cleanElems
    rw [splitOn_append_sep, List.splitOn_nil, List.foldl_append]
    simp only [List.foldl_cons, List.foldl_nil]
    rw [cleanStep_skip _ _ [] (Or.inl rfl)]
  rw [he, cleanElems_render r U hU, List.reverse_reverse]

theorem Dir_renderPath_snoc (r : Bool) (U : List GoString) (e : GoString)
    (hU : CleanList r U) (he : e ≠ []) (hsep : '/' ∉ e) :
    filepath.Dir (renderPath r (U ++ [e])) = renderPath r U := by
  rw [renderPath_snoc r U e hU he]
  have hdir := Dir_append_of_no_slash
    (if U = [] then (if r then ['/'] else []) else renderPath r U ++ ['/']) e
    (fun c hc h => hsep (h ▸ hc))
  rw [hdir]
  by_cases hu : U = []
  · subst hu
    cases r <;> decide
  · rw [if_neg hu]
    unfold filepath.Dir
    rw [List.reverse_append]
    simp only [List.reverse_cons, List.reverse_nil, List.nil_append, List.singleton_append]
    rw [List.dropWhile_cons_of_neg (by simp)]
    simp only [List.reverse_cons, List.reverse_reverse]
    exact Clean_append_slash r U hU

theorem CleanList_snoc (r : Bool) (U : List GoString) (e : GoString)
    (h : CleanList r (U ++ [e])) :
    CleanList r U ∧ e ≠ [] ∧ '/' ∉ e ∧ e ≠ ['.'] := by
  obtain ⟨k, Gs, hx, hG, hk⟩ := h
  rcases List.eq_nil_or_concat Gs with hnil | ⟨Gs1, g, hGs⟩
  · subst hnil
    rw [List.append_nil] at hx
    cases k with
    | zero => simp at hx
    | succ k =>
      rw [List.replicate_succ'] at hx
      obtain ⟨hU, he⟩ := List.append_inj' hx rfl
      have he2 : e = ['.', '.'] := by simpa using he
      subst he2
      refine ⟨⟨k, [], by simp [hU], by simp, fun hr => ?_⟩, by decide, by decide, by decide⟩
      have := hk hr
      omega
  · subst hGs
    rw [List.concat_eq_append, ← List.append_assoc] at hx
    rw [List.concat_eq_append] at hG
    obtain ⟨hU, he⟩ := List.append_inj' hx rfl
    have he2 : e = g := by simpa using he
    subst he2
    have hg := hG e (by simp)
    exact ⟨⟨k, Gs1, hU, fun c hc => hG c (by simp [hc]), hk⟩, hg.1, hg.2.2.2, hg.2.1⟩

/-- Creating the parent directories of a clean path does not create the path
itself. -/
theorem MkdirAll_Dir_keeps_target (fs fs1 : FS) (p : GoString)
    (h : os.MkdirAll fs (filepath.Dir (filepath.Clean p)) = (none, fs1))
    (hnone : fs (filepath.Clean p) = none) : fs1 (filepath.Clean p) = none := by
  have hcl := CleanList_cleanElems (filepath.IsAbs p) p
  rw [Clean_eq_render] at h hnone ⊢
  generalize filepath.IsAbs p = r at h hnone hcl ⊢
  generalize (filepath.cleanElems r p).reverse = xs at h hnone hcl ⊢
  rcases List.eq_nil_or_concat xs with hnil | ⟨U, e, hxs⟩
  · subst hnil
    have ht : renderPath r [] = ['.'] ∨ renderPath r [] = ['/'] := by
      cases r
      · left; rfl
      · right; rfl
    have hdir : filepath.Dir (renderPath r []) = renderPath r [] := by
      rcases ht with h1 | h1 <;> rw [h1] <;> decide
    rw [hdir] at h
    exact absurd rfl (MkdirAll_dot_or_root fs fs1 _ ht hnone none h)
  · subst hxs
    rw [List.concat_eq_append] at h hnone hcl ⊢
    obtain ⟨hU, he, hsep, hdot⟩ := CleanList_snoc r U e hcl
    rw [Dir_renderPath_snoc r U e hU he hsep] at h
    by_contra hne
    have hch := (MkdirAll_changes fs fs1 _ none h).2 (renderPath r (U ++ [e]))
      (by rw [hnone]; exact hne)
    rw [renderPath_snoc r U e hU he] at hch
    have hel : 0 < e.length := List.length_pos.mpr he
    by_cases hu : U = []
    · subst hu
      cases r with
      | true =>
        simp only [if_true] at hch
        have hd : renderPath true [] = ['/'] := rfl
        rw [hd] at hch
        rcases hch with h1 | h1
        · have := congrArg List.length h1
          simp only [List.length_append, List.length_cons, List.length_nil] at this
          omega
        · simp only [List.length_append, List.length_cons, List.length_nil] at h1
          omega
      | false =>
        simp only [if_true, Bool.false_eq_true, if_false, List.nil_append] at hch
        have hd : renderPath false [] = ['.'] := rfl
        rw [hd] at hch
        rcases hch with h1 | h1
        · exact hdot h1
        · simp only [List.length_cons, List.length_nil] at h1
          omega
    · rw [if_neg hu] at hch
      rcases hch with h1 | h1
      · have := congrArg List.length h1
        simp only [List.length_append, List.length_cons, List.length_nil] at this
        omega
      · simp only [List.length_append, List.length_cons, List.length_nil] at h1
        omega

/-! ## Extraction under the no-overwrite policy -/

theorem WriteFile_new (fs fs3 : FS) (t : GoString) (data : Bytes) (hnone : fs t = none)
    (h : os.WriteFile fs t data = .ok fs3) :
    fs3 = fs.set t (Node.file data) ∧ fs (filepath.Dir t) = some Node.dir := by
  unfold os.WriteFile at h
  rw [hnone] at h
  simp only at h
  unfold os.parentCheck at h
  cases hd : fs (filepath.Dir t) with
  | none => rw [hd] at h; simp at h
  | some node =>
    rw [hd] at h
    cases node with
    | file d => simp at h
    | dir =>
      simp only [Except.ok.injEq] at h
      exact ⟨h.symm, rfl⟩

theorem WriteFile_parentsAreDirs (fs fs3 : FS) (t : GoString) (data : Bytes)
    (hw : fs.parentsAreDirs) (hnone : fs t = none)
    (h : os.WriteFile fs t data = .ok fs3) : fs3.parentsAreDirs := by
  obtain ⟨hset, hd⟩ := WriteFile_new fs fs3 t data hnone h
  subst hset
  have hne : filepath.Dir t ≠ t := by
    intro he
    rw [he, hnone] at hd
    exact Option.noConfusion hd
  intro p hp
  unfold FS.set at hp ⊢
  by_cases hpt : p = t
  · rw [hpt, if_neg hne]; exact hd
  · rw [if_neg hpt] at hp
    have hpd := hw p hp
    by_cases hdt : filepath.Dir p = t
    · rw [hdt, hnone] at hpd
      exact Option.noConfusion hpd
    · rw [if_neg hdt]; exact hpd

/-- The loop body under `NoOverwrite`, step by step. -/
theorem unpackFile_noOverwrite (opts : UnpackOptions) (now : Time) (fs : FS) (file : File)
    (hn : opts.NoOverwrite = true) (hd : opts.DryRun = false)
    (hname : validatePath file.Name = .ok ()) :
    unpackFile opts now fs file =
      match os.MkdirAll fs (filepath.Dir (filepath.Join [opts.Dir, file.Name])) with
      | (some e, fs1) =>
        (some (.createDirectory (filepath.Join [opts.Dir, file.Name]) e), fs1)
      | (none, fs1) =>
        match fs1 (filepath.Join [opts.Dir, file.Name]) with
        | some _ => (some (.fileExists (filepath.Join [opts.Dir, file.Name])), fs1)
        | none =>
          match os.WriteFile fs1 (filepath.Join [opts.Dir, file.Name]) file.Data with
          | .error e => (some (.write (filepath.Join [opts.Dir, file.Name]) e), fs1)
          | .ok fs3 => (none, fs3) := by
  unfold unpackFile
  rw [hname]
  simp only [hd, Bool.false_eq_true, if_false, hn, if_true]
  rcases os.MkdirAll fs (filepath.Dir (filepath.Join [opts.Dir, file.Name])) with ⟨e, fs1⟩
  cases e with
  | some e => rfl
  | none =>
    simp only [os.Stat]
    cases fs1 (filepath.Join [opts.Dir, file.Name]) with
    | some node => rfl
    | none => rfl

/-- Under `NoOverwrite` the loop body changes nothing that exists, whatever
it returns. -/
theorem unpackFile_noOverwrite_frame (opts : UnpackOptions) (now : Time) (fs : FS)
    (file : File) (hn : opts.NoOverwrite = true) (hd : opts.DryRun = false) :
    ∀ q x, fs q = some x → (unpackFile opts now fs file).2 q = some x := by
  intro q x hq
  cases hv : validatePath file.Name with
  | error err => rw [unpackFile_invalid opts now fs file err hv]; exact hq
  | ok u =>
    cases u
    rw [unpackFile_noOverwrite opts now fs file hn hd hv]
    rcases hm : os.MkdirAll fs (filepath.Dir (filepath.Join [opts.Dir, file.Name]))
      with ⟨e, fs1⟩
    have hfr := (MkdirAll_frame fs fs1 _ e hm).1 q x hq
    cases e with
    | some e => exact hfr
    | none =>
      simp only
      cases ht : fs1 (filepath.Join [opts.Dir, file.Name]) with
      | some node => exact hfr
      | none =>
        simp only
        cases hw : os.WriteFile fs1 (filepath.Join [opts.Dir, file.Name]) file.Data with
        | error e => exact hfr
        | ok fs3 =>
          simp only
          rw [(WriteFile_new fs1 fs3 _ file.Data ht hw).1]
          have hne : q ≠ filepath.Join [opts.Dir, file.Name] := by
            intro he
            rw [he, ht] at hfr
            exact Option.noConfusion hfr
          simp [FS.set, hne, hfr]

/-- A successful pass of the loop body under `NoOverwrite`: the target did
not exist, it now holds the entry's data, and parents are still directories. -/
theorem unpackFile_noOverwrite_ok (opts : UnpackOptions) (now : Time) (fs fs' : FS)
    (file : File) (hn : opts.NoOverwrite = true) (hd : opts.DryRun = false)
    (h : unpackFile opts now fs file = (none, fs')) :
    validatePath file.Name = .ok () ∧
    fs (filepath.Join [opts.Dir, file.Name]) = none ∧
    fs' (filepath.Join [opts.Dir, file.Name]) = some (Node.file file.Data) ∧
    (fs.parentsAreDirs → fs'.parentsAreDirs) := by
  cases hv : validatePath file.Name with
  | error err =>
    rw [unpackFile_invalid opts now fs file err hv] at h
    simp at h
  | ok u =>
    cases u
    refine ⟨rfl, ?_⟩
    rw [unpackFile_noOverwrite opts now fs file hn hd hv] at h
    rcases hm : os.MkdirAll fs (filepath.Dir (filepath.Join [opts.Dir, file.Name]))
      with ⟨e, fs1⟩
    rw [hm] at h
    cases e with
    | some e => simp at h
    | none =>
      simp only at h
      cases ht : fs1 (filepath.Join [opts.Dir, file.Name]) with
      | some node => rw [ht] at h; simp at h
      | none =>
        rw [ht] at h
        simp only at h
        cases hw : os.WriteFile fs1 (filepath.Join [opts.Dir, file.Name]) file.Data with
        | error e => rw [hw] at h; simp at h
        | ok fs3 =>
          rw [hw] at h
          simp only [Prod.mk.injEq, true_and] at h
          subst h
          have hfs : fs (filepath.Join [opts.Dir, file.Name]) = none := by
            cases hx : fs (filepath.Join [opts.Dir, file.Name]) with
            | none => rfl
            | some x =>
              have := (MkdirAll_frame fs fs1 _ none hm).1 _ x hx
              rw [ht] at this
              exact Option.noConfusion this
          refine ⟨hfs, ?_, fun hwf => ?_⟩
          · rw [(WriteFile_new fs1 fs3 _ file.Data ht hw).1]
            simp [FS.set]
          · exact WriteFile_parentsAreDirs fs1 fs3 _ file.Data
              ((MkdirAll_changes fs fs1 _ none hm).1 hwf) ht hw

/-- Under `NoOverwrite`, an entry with a valid name whose target exists is
refused with the conflict error, and nothing changes. -/
theorem unpackFile_noOverwrite_conflict (opts : UnpackOptions) (now : Time) (fs : FS)
    (file : File) (hn : opts.NoOverwrite = true) (hd : opts.DryRun = false)
    (hname : validatePath file.Name = .ok ()) (hw : fs.parentsAreDirs)
    (hex : fs (filepath.Join [opts.Dir, file.Name]) ≠ none) :
    unpackFile opts now fs file =
      (some (.fileExists (filepath.Join [opts.Dir, file.Name])), fs) := by
  rw [unpackFile_noOverwrite opts now fs file hn hd hname,
    MkdirAll_of_dir fs _ (hw _ hex)]
  simp only
  cases ht : fs (filepath.Join [opts.Dir, file.Name]) with
  | none => exact absurd ht hex
  | some node => rfl

/-- Under `NoOverwrite`, the conflict error is returned only for an entry
with a valid name whose target exists. -/
theorem unpackFile_noOverwrite_conflict_inv (opts : UnpackOptions) (now : Time)
    (fs fs' : FS) (file : File) (t : GoString)
    (hn : opts.NoOverwrite = true) (hd : opts.DryRun = false) (hdir : opts.Dir ≠ [])
    (h : unpackFile opts now fs file = (some (.fileExists t), fs')) :
    validatePath file.Name = .ok () ∧ t = filepath.Join [opts.Dir, file.Name] ∧
      fs t ≠ none := by
  cases hv : validatePath file.Name with
  | error err =>
    rw [unpackFile_invalid opts now fs file err hv] at h
    simp at h
  | ok u =>
    cases u
    refine ⟨rfl, ?_⟩
    rw [unpackFile_noOverwrite opts now fs file hn hd hv] at h
    rcases hm : os.MkdirAll fs (filepath.Dir (filepath.Join [opts.Dir, file.Name]))
      with ⟨e, fs1⟩
    rw [hm] at h
    cases e with
    | some e => simp at h
    | none =>
      simp only at h
      cases ht : fs1 (filepath.Join [opts.Dir, file.Name]) with
      | none =>
        rw [ht] at h
        simp only at h
        cases hw : os.WriteFile fs1 (filepath.Join [opts.Dir, file.Name]) file.Data with
        | error e => rw [hw] at h; simp at h
        | ok fs3 => rw [hw] at h; simp at h
      | some node =>
        rw [ht] at h
        simp only [Prod.mk.injEq, Option.some.injEq, UnpackError.fileExists.injEq] at h
        obtain ⟨h1, _⟩ := h
        refine ⟨h1.symm, ?_⟩
        rw [← h1]
        intro hnone
        rw [Join_pair_of_ne_nil opts.Dir file.Name hdir] at hm hnone ht
        rw [MkdirAll_Dir_keeps_target fs fs1 _ hm hnone] at ht
        exact Option.noConfusion ht

theorem unpackLoop_noOverwrite_frame (opts : UnpackOptions) (clock : Nat → Time)
    (hn : opts.NoOverwrite = true) (hd : opts.DryRun = false) (files : List File) :
    ∀ (i : Nat) (fs : FS) (q : GoString) (x : Node), fs q = some x →
      (unpackLoop opts clock i files fs).2 q = some x := by
  induction files with
  | nil => intro i fs q x hq; exact hq
  | cons file rest ih =>
    intro i fs q x hq
    have h1 := unpackFile_noOverwrite_frame opts (clock i) fs file hn hd q x hq
    simp only [unpackLoop]
    rcases hr : unpackFile opts (clock i) fs file with ⟨e, fs1⟩
    rw [hr] at h1
    cases e with
    | some e => exact h1
    | none => exact ih (i + 1) fs1 q x h1

/-- A run of the loop under `NoOverwrite` that ends without error: parents
are still directories and every entry's target holds the entry's data. -/
theorem unpackLoop_noOverwrite_ok (opts : UnpackOptions) (clock : Nat → Time)
    (hn : opts.NoOverwrite = true) (hd : opts.DryRun = false) (files : List File) :
    ∀ (i : Nat) (fs fs' : FS), unpackLoop opts clock i files fs = (none, fs') →
      (fs.parentsAreDirs → fs'.parentsAreDirs) ∧
      (∀ g ∈ files,
        fs' (filepath.Join [opts.Dir, g.Name]) = some (Node.file g.Data)) := by
  induction files with
  | nil =>
    intro i fs fs' h
    simp only [unpackLoop, Prod.mk.injEq, true_and] at h
    subst h
    exact ⟨fun hw => hw, fun g hg => absurd hg (List.not_mem_nil _)⟩
  | cons file rest ih =>
    intro i fs fs' h
    simp only [unpackLoop] at h
    rcases hr : unpackFile opts (clock i) fs file with ⟨e, fs1⟩
    rw [hr] at h
    cases e with
    | some e => simp at h
    | none =>
      simp only at h
      obtain ⟨_, _, hdata, hw1⟩ := unpackFile_noOverwrite_ok opts (clock i) fs fs1 file hn hd hr
      obtain ⟨hw2, hrest⟩ := ih (i + 1) fs1 fs' h
      refine ⟨fun hw => hw2 (hw1 hw), ?_⟩
      intro g hg
      rcases List.mem_cons.mp hg with rfl | hg
      · have := unpackLoop_noOverwrite_frame opts clock hn hd rest (i + 1) fs1 _ _ hdata
        rw [h] at this
        exact this
      · exact hrest g hg

/-- In a run of the loop under `NoOverwrite` that ends without error, no
entry's target existed when the entry was reached. -/
theorem unpackLoop_noOverwrite_fresh (opts : UnpackOptions) (clock : Nat → Time)
    (hn : opts.NoOverwrite = true) (hd : opts.DryRun = false)
    (pre1 pre2 : List File) (g : File) (i : Nat) (fs : FS)
    (h : (unpackLoop opts clock i (pre1 ++ g :: pre2) fs).1 = none) :
    (unpackLoop opts clock i pre1 fs).1 = none ∧
    (unpackLoop opts clock i pre1 fs).2 (filepath.Join [opts.Dir, g.Name]) = none := by
  rw [unpackLoop_append] at h
  rcases hr : unpackLoop opts clock i pre1 fs with ⟨e, fsA⟩
  rw [hr] at h
  cases e with
  | some e => simp at h
  | none =>
    simp only at h ⊢
    refine ⟨trivial, ?_⟩
    simp only [unpackLoop] at h
    rcases hf : unpackFile opts (clock (i + pre1.length)) fsA g with ⟨e1, fsB⟩
    rw [hf] at h
    cases e1 with
    | some e1 => simp at h
    | none => exact (unpackFile_noOverwrite_ok opts _ fsA fsB g hn hd hf).2.1

/-- Under `NoOverwrite` the loop returns the conflict error only at an entry
with a valid name, reached after the entries before it were processed
without error, whose target existed when it was reached. -/
theorem unpackLoop_noOverwrite_conflict_inv (opts : UnpackOptions) (clock : Nat → Time)
    (hn : opts.NoOverwrite = true) (hd : opts.DryRun = false) (hdir : opts.Dir ≠ [])
    (t : GoString) (files : List File) :
    ∀ (i : Nat) (fs : FS), (unpackLoop opts clock i files fs).1 = some (.fileExists t) →
      ∃ pre f post, files = pre ++ f :: post ∧
        (unpackLoop opts clock i pre fs).1 = none ∧
        validatePath f.Name = .ok () ∧ t = filepath.Join [opts.Dir, f.Name] ∧
        (unpackLoop opts clock i pre fs).2 t ≠ none := by
  induction files with
  | nil => intro i fs h; simp [unpackLoop] at h
  | cons file rest ih =>
    intro i fs h
    simp only [unpackLoop] at h
    rcases hr : unpackFile opts (clock i) fs file with ⟨e, fs1⟩
    rw [hr] at h
    cases e with
    | some e =>
      simp only [Option.some.injEq] at h
      subst h
      obtain ⟨hv, ht, hex⟩ :=
        unpackFile_noOverwrite_conflict_inv opts (clock i) fs fs1 file t hn hd hdir hr
      exact ⟨[], file, rest, rfl, rfl, hv, ht, hex⟩
    | none =>
      simp only at h
      obtain ⟨pre, f, post, hfiles, hpre, hv, ht, hex⟩ := ih (i + 1) fs1 h
      refine ⟨file :: pre, f, post, by rw [hfiles]; rfl, ?_, hv, ht, ?_⟩
      · simp only [unpackLoop, hr]; exact hpre
      · simp only [unpackLoop, hr]; exact hex

/-- C11, as stated, fails: the one entry `../x` unpacked into `sub` has the
target `x`, which exists with content 7, and `Unpack` with `NoOverwrite`
returns the path error, not the conflict error. -/
theorem Unpack_noOverwrite_unsafe_name_fails :
    filepath.Join ["sub".toList, "../x".toList] = ['x'] ∧
    siblingFS ['x'] = some (Node.file [7]) ∧
    Unpack fixedClock ⟨[⟨"../x".toList, [9]⟩]⟩ (noOverwriteOptsFor "sub".toList) siblingFS =
      (some (UnpackError.invalidPath "../x".toList PathError.traversal), siblingFS) ∧
    (Unpack fixedClock ⟨[⟨"../x".toList, [9]⟩]⟩ (noOverwriteOptsFor "sub".toList)
      siblingFS).1 ≠ some (UnpackError.fileExists ['x']) := by
  refine ⟨by decide, by decide, by rfl, by decide⟩

/-- C11, amended. `Unpack` with `NoOverwrite` set and `Backup`, `DryRun`
clear, on a filesystem in which parents are directories.  When the entries
`pre` before the entry `f` are processed without error, the name of `f`
passes `validatePath` and the target of `f` exists when `f` is reached,
`Unpack` returns the conflict error for that target and the filesystem is the
one the entries before `f` left: the existing target keeps its content and
no entry after `f` is processed.  In that filesystem every entry of `pre`
has its data at its target, and none of these targets existed when its entry
was reached, so `f` is the first entry whose target exists.  Whatever the
archive and the outcome, every path that existed before the run is
unchanged.  The conflict error is returned only for an entry with a valid
name, reached without error, whose target exists when it is reached. -/
theorem Unpack_noOverwrite_conflict (clock : Nat → Time) (opts : UnpackOptions)
    (pre post : List File) (f : File) (fs : FS) (hwf : fs.WF)
    (hn : opts.NoOverwrite = true) (hb : opts.Backup = false) (hd : opts.DryRun = false)
    (hpre : (Unpack clock ⟨pre⟩ opts fs).1 = none)
    (hname : validatePath f.Name = .ok ())
    (hex : (Unpack clock ⟨pre⟩ opts fs).2
      (filepath.Join [if opts.Dir = [] then ['.'] else opts.Dir, f.Name]) ≠ none) :
    Unpack clock ⟨pre ++ f :: post⟩ opts fs =
      (some (.fileExists
        (filepath.Join [if opts.Dir = [] then ['.'] else opts.Dir, f.Name])),
        (Unpack clock ⟨pre⟩ opts fs).2) ∧
    (∀ g ∈ pre, (Unpack clock ⟨pre⟩ opts fs).2
      (filepath.Join [if opts.Dir = [] then ['.'] else opts.Dir, g.Name]) =
        some (Node.file g.Data)) ∧
    (∀ pre1 g pre2, pre = pre1 ++ g :: pre2 →
      (Unpack clock ⟨pre1⟩ opts fs).2
        (filepath.Join [if opts.Dir = [] then ['.'] else opts.Dir, g.Name]) = none) ∧
    (∀ (archive : Archive) (q : GoString) (x : Node), fs q = some x →
      (Unpack clock archive opts fs).2 q = some x) ∧
    (∀ (archive : Archive) (t : GoString),
      (Unpack clock archive opts fs).1 = some (.fileExists t) →
      ∃ pre1 g post1, archive.Files = pre1 ++ g :: post1 ∧
        (Unpack clock ⟨pre1⟩ opts fs).1 = none ∧ validatePath g.Name = .ok () ∧
        t = filepath.Join [if opts.Dir = [] then ['.'] else opts.Dir, g.Name] ∧
        (Unpack clock ⟨pre1⟩ opts fs).2 t ≠ none) := by
  obtain ⟨fD, fB, fR, fN⟩ := withDefaultDir_fields opts
  have hn2 : opts.withDefaultDir.NoOverwrite = true := by rw [fN, hn]
  have hd2 : opts.withDefaultDir.DryRun = false := by rw [fR, hd]
  have hdir : opts.withDefaultDir.Dir ≠ [] := by
    rw [fD]
    split_ifs with h0
    · exact List.cons_ne_nil _ _
    · exact h0
  have hU : ∀ archive : Archive, Unpack clock archive opts fs =
      unpackLoop opts.withDefaultDir clock 0 archive.Files fs := by
    intro archive
    simp [Unpack, hb]
  simp only [hU] at hpre hex ⊢
  rw [← fD] at hex ⊢
  refine ⟨?_, ?_, ?_, ?_, ?_⟩
  · rw [unpackLoop_append]
    rcases hr : unpackLoop opts.withDefaultDir clock 0 pre fs with ⟨e, fs1⟩
    rw [hr] at hpre hex
    simp only at hpre hex
    subst hpre
    simp only [unpackLoop]
    have hw1 := (unpackLoop_noOverwrite_ok _ clock hn2 hd2 pre 0 fs fs1 hr).1 hwf.1
    rw [unpackFile_noOverwrite_conflict _ _ fs1 f hn2 hd2 hname hw1 hex]
  · rcases hr : unpackLoop opts.withDefaultDir clock 0 pre fs with ⟨e, fs1⟩
    rw [hr] at hpre
    simp only at hpre
    subst hpre
    exact (unpackLoop_noOverwrite_ok _ clock hn2 hd2 pre 0 fs fs1 hr).2
  · intro pre1 g pre2 hsplit
    rw [hsplit] at hpre
    exact (unpackLoop_noOverwrite_fresh _ clock hn2 hd2 pre1 pre2 g 0 fs hpre).2
  · intro archive q x hq
    exact unpackLoop_noOverwrite_frame _ clock hn2 hd2 archive.Files 0 fs q x hq
  · intro archive t ht
    exact unpackLoop_noOverwrite_conflict_inv _ clock hn2 hd2 hdir t archive.Files 0 fs ht

theorem Unpack_noOverwrite_conflict_witness :
    (Unpack fixedClock ⟨[⟨"a.txt".toList, [1]⟩]⟩ (noOverwriteOptsFor []) siblingFS).1 = none ∧
    (Unpack fixedClock ⟨[⟨"a.txt".toList, [1]⟩]⟩ (noOverwriteOptsFor []) siblingFS).2
      (filepath.Join [if (noOverwriteOptsFor []).Dir = [] then ['.']
        else (noOverwriteOptsFor []).Dir, "x".toList]) ≠ none ∧
    Unpack fixedClock
        ⟨[⟨"a.txt".toList, [1]⟩] ++ ⟨"x".toList, [2]⟩ :: [⟨"later.txt".toList, [3]⟩]⟩
        (noOverwriteOptsFor []) siblingFS =
      (some (.fileExists
        (filepath.Join [if (noOverwriteOptsFor []).Dir = [] then ['.']
          else (noOverwriteOptsFor []).Dir, "x".toList])),
        (Unpack fixedClock ⟨[⟨"a.txt".toList, [1]⟩]⟩ (noOverwriteOptsFor []) siblingFS).2) :=
  ⟨by decide, by decide,
    (Unpack_noOverwrite_conflict fixedClock (noOverwriteOptsFor []) [⟨"a.txt".toList, [1]⟩]
      [⟨"later.txt".toList, [3]⟩] ⟨"x".toList, [2]⟩ siblingFS siblingFS_WF rfl rfl rfl
      (by decide) (by rfl) (by decide)).1⟩

end Txtar
